import Mathlib

/-!
Verification of the piecewise-polynomial core (interval sweep line, endpoint
table, algebraic combinators, query layer) of `sage/geometry/piecewise.py` and
`sage/geometry/piecewise_polynomial.py`.

The development has four layers:

* a generic sweep-line layer over an arbitrary linear order, embedding
  `PiecewiseFunction._iterator` and `PiecewiseFunction.finest_partitions`;
* a model of the external interval-set service (`RealSet`): well-formed
  (normalized) interval lists, union, pairwise-disjointness test;
* a concrete polynomial layer over `ℚ` (dense coefficient lists);
* the piecewise-function layer: constructor, endpoint table, query and
  algebra operations.

Machine integers do not occur; all arithmetic in the source is exact
rational/polynomial arithmetic, embedded as `ℚ` and coefficient lists.
-/

section SweepLayer

variable {α : Type} [LinearOrder α]

/-- Boundary keys `(x, epsilon)` of the sweep line.  `epsilon` is `0` or `1`;
the order is lexicographic, mirroring Python tuple comparison. -/
abbrev BKey (α : Type) := α × ℕ

/-- Lexicographic strict order on boundary keys (Python tuple `<`). -/
def keyLt (a b : BKey α) : Prop := a.1 < b.1 ∨ (a.1 = b.1 ∧ a.2 < b.2)

/-- Lexicographic weak order on boundary keys (Python tuple `<=`). -/
def keyLe (a b : BKey α) : Prop := a.1 < b.1 ∨ (a.1 = b.1 ∧ a.2 ≤ b.2)

instance (a b : BKey α) : Decidable (keyLt a b) :=
  inferInstanceAs (Decidable (a.1 < b.1 ∨ (a.1 = b.1 ∧ a.2 < b.2)))

instance (a b : BKey α) : Decidable (keyLe a b) :=
  inferInstanceAs (Decidable (a.1 < b.1 ∨ (a.1 = b.1 ∧ a.2 ≤ b.2)))

theorem keyLt_irrefl (a : BKey α) : ¬ keyLt a a := by
  simp [keyLt]

theorem keyLe_refl (a : BKey α) : keyLe a a := by
  simp [keyLe]

theorem keyLt_trans {a b c : BKey α} (h1 : keyLt a b) (h2 : keyLt b c) : keyLt a c := by
  rcases h1 with h1 | ⟨e1, l1⟩ <;> rcases h2 with h2 | ⟨e2, l2⟩
  · exact Or.inl (lt_trans h1 h2)
  · exact Or.inl (e2 ▸ h1)
  · exact Or.inl (e1 ▸ h2)
  · exact Or.inr ⟨e1.trans e2, lt_trans l1 l2⟩

theorem keyLe_trans {a b c : BKey α} (h1 : keyLe a b) (h2 : keyLe b c) : keyLe a c := by
  rcases h1 with h1 | ⟨e1, l1⟩ <;> rcases h2 with h2 | ⟨e2, l2⟩
  · exact Or.inl (lt_trans h1 h2)
  · exact Or.inl (e2 ▸ h1)
  · exact Or.inl (e1 ▸ h2)
  · exact Or.inr ⟨e1.trans e2, le_trans l1 l2⟩

theorem keyLt_of_keyLt_of_keyLe {a b c : BKey α} (h1 : keyLt a b) (h2 : keyLe b c) :
    keyLt a c := by
  rcases h1 with h1 | ⟨e1, l1⟩ <;> rcases h2 with h2 | ⟨e2, l2⟩
  · exact Or.inl (lt_trans h1 h2)
  · exact Or.inl (e2 ▸ h1)
  · exact Or.inl (e1 ▸ h2)
  · exact Or.inr ⟨e1.trans e2, lt_of_lt_of_le l1 l2⟩

theorem keyLt_of_keyLe_of_keyLt {a b c : BKey α} (h1 : keyLe a b) (h2 : keyLt b c) :
    keyLt a c := by
  rcases h1 with h1 | ⟨e1, l1⟩ <;> rcases h2 with h2 | ⟨e2, l2⟩
  · exact Or.inl (lt_trans h1 h2)
  · exact Or.inl (e2 ▸ h1)
  · exact Or.inl (e1 ▸ h2)
  · exact Or.inr ⟨e1.trans e2, lt_of_le_of_lt l1 l2⟩

theorem keyLe_of_keyLt {a b : BKey α} (h : keyLt a b) : keyLe a b := by
  rcases h with h | ⟨e, l⟩
  · exact Or.inl h
  · exact Or.inr ⟨e, le_of_lt l⟩

theorem keyLe_total (a b : BKey α) : keyLe a b ∨ keyLe b a := by
  rcases lt_trichotomy a.1 b.1 with h | h | h
  · exact Or.inl (Or.inl h)
  · rcases Nat.le_total a.2 b.2 with h2 | h2
    · exact Or.inl (Or.inr ⟨h, h2⟩)
    · exact Or.inr (Or.inr ⟨h.symm, h2⟩)
  · exact Or.inr (Or.inl h)

theorem keyLt_or_keyLe (a b : BKey α) : keyLt a b ∨ keyLe b a := by
  rcases lt_trichotomy a.1 b.1 with h | h | h
  · exact Or.inl (Or.inl h)
  · rcases Nat.lt_or_ge a.2 b.2 with h2 | h2
    · exact Or.inl (Or.inr ⟨h, h2⟩)
    · exact Or.inr (Or.inr ⟨h.symm, h2⟩)
  · exact Or.inr (Or.inl h)

theorem keyLe_antisymm {a b : BKey α} (h1 : keyLe a b) (h2 : keyLe b a) : a = b := by
  rcases h1 with h1 | ⟨e1, l1⟩ <;> rcases h2 with h2 | ⟨e2, l2⟩
  · exact absurd (lt_trans h1 h2) (lt_irrefl _)
  · exact absurd h1 (e2 ▸ lt_irrefl _)
  · exact absurd h2 (e1 ▸ lt_irrefl _)
  · exact Prod.ext e1 (le_antisymm l1 l2)

theorem not_keyLt_iff {a b : BKey α} : ¬ keyLt a b ↔ keyLe b a := by
  constructor
  · intro h
    rcases keyLt_or_keyLe a b with h' | h'
    · exact absurd h' h
    · exact h'
  · intro h h'
    exact keyLt_irrefl a (keyLt_of_keyLt_of_keyLe h' h)

theorem not_keyLe_iff {a b : BKey α} : ¬ keyLe a b ↔ keyLt b a := by
  constructor
  · intro h
    rcases keyLt_or_keyLe b a with h' | h'
    · exact h'
    · exact absurd h' h
  · intro h h'
    exact keyLt_irrefl a (keyLt_of_keyLe_of_keyLt h' h)

/-- Cut-space semantics of a key: `Before k y` holds when the point `y` lies
strictly before the cut named by `k`.  The cut `(x, 0)` sits just before the
point `x`, the cut `(x, 1)` just after it. -/
def Before (k : BKey α) (y : α) : Prop := y < k.1 ∨ (y = k.1 ∧ k.2 ≠ 0)

instance (k : BKey α) (y : α) : Decidable (Before k y) :=
  inferInstanceAs (Decidable (y < k.1 ∨ (y = k.1 ∧ k.2 ≠ 0)))

theorem Before_mono {k k' : BKey α} (h : keyLe k k') {y : α} (hy : Before k y) :
    Before k' y := by
  rcases h with h | ⟨e, l⟩
  · rcases hy with hy | ⟨hy, _⟩
    · exact Or.inl (lt_trans hy h)
    · exact Or.inl (hy ▸ h)
  · rcases hy with hy | ⟨hy, hk⟩
    · exact Or.inl (e ▸ hy)
    · refine Or.inr ⟨e ▸ hy, ?_⟩
      omega

theorem not_Before_mono {k k' : BKey α} (h : keyLe k k') {y : α} (hy : ¬ Before k' y) :
    ¬ Before k y := fun hc => hy (Before_mono h hc)

/-- Internal real interval: lower/upper bound with closedness flags, mirroring
sage's `InternalRealInterval` fields `_lower`, `_lower_closed`, `_upper`,
`_upper_closed`. -/
structure RInterval (α : Type) where
  lower : α
  lower_closed : Bool
  upper : α
  upper_closed : Bool
deriving DecidableEq, Repr

/-- Opening boundary key of an interval: `(lower, 0)` when lower-closed,
`(lower, 1)` when lower-open (the encoding used by `_iterator`). -/
def RInterval.oKey (J : RInterval α) : BKey α :=
  (J.lower, if J.lower_closed then 0 else 1)

/-- Closing boundary key of an interval: `(upper, 1)` when upper-closed,
`(upper, 0)` when upper-open (the encoding used by `_iterator`). -/
def RInterval.cKey (J : RInterval α) : BKey α :=
  (J.upper, if J.upper_closed then 1 else 0)

/-- Membership in an interval, with the usual open/closed endpoint semantics. -/
def RInterval.Mem (J : RInterval α) (y : α) : Prop :=
  (J.lower < y ∨ (y = J.lower ∧ J.lower_closed)) ∧
    (y < J.upper ∨ (y = J.upper ∧ J.upper_closed))

instance (J : RInterval α) (y : α) : Decidable (J.Mem y) :=
  inferInstanceAs (Decidable ((J.lower < y ∨ (y = J.lower ∧ J.lower_closed)) ∧
    (y < J.upper ∨ (y = J.upper ∧ J.upper_closed))))

theorem notBefore_oKey_iff (J : RInterval α) (y : α) :
    ¬ Before J.oKey y ↔ (J.lower < y ∨ (y = J.lower ∧ J.lower_closed)) := by
  unfold Before RInterval.oKey
  rcases lt_trichotomy y J.lower with h | h | h
  · have h1 : ¬ J.lower < y := lt_asymm h
    have h2 : y ≠ J.lower := ne_of_lt h
    simp [h, h1, h2]
  · subst h
    cases hl : J.lower_closed <;> simp [lt_irrefl]
  · have h1 : ¬ y < J.lower := lt_asymm h
    have h2 : y ≠ J.lower := ne_of_gt h
    simp [h, h1, h2]

theorem Before_cKey_iff (J : RInterval α) (y : α) :
    Before J.cKey y ↔ (y < J.upper ∨ (y = J.upper ∧ J.upper_closed)) := by
  unfold Before RInterval.cKey
  cases hu : J.upper_closed <;> simp

/-- Interval membership is exactly the cut-space segment between the opening
and closing keys. -/
theorem RInterval.mem_iff_keys (J : RInterval α) (y : α) :
    J.Mem y ↔ (¬ Before J.oKey y ∧ Before J.cKey y) := by
  rw [RInterval.Mem, notBefore_oKey_iff, Before_cKey_iff]

/-- Sweep event `(((x, epsilon), delta), set_id)` as yielded by
`PiecewiseFunction._iterator`. -/
structure SwEvent (α : Type) where
  x : α
  eps : ℕ
  delta : ℤ
  sid : ℕ
deriving DecidableEq, Repr

/-- Boundary key `(x, epsilon)` of an event. -/
def SwEvent.key (e : SwEvent α) : BKey α := (e.x, e.eps)

/-- Python tuple comparison `(((x, eps), delta), set_id) <= ...` used by the
`heapq.merge` of the event streams. -/
def evLe (a b : SwEvent α) : Prop :=
  keyLt a.key b.key ∨
    (a.key = b.key ∧ (a.delta < b.delta ∨ (a.delta = b.delta ∧ a.sid ≤ b.sid)))

instance (a b : SwEvent α) : Decidable (evLe a b) :=
  inferInstanceAs (Decidable (keyLt a.key b.key ∨
    (a.key = b.key ∧ (a.delta < b.delta ∨ (a.delta = b.delta ∧ a.sid ≤ b.sid)))))

theorem evLe_key {a b : SwEvent α} (h : evLe a b) : keyLe a.key b.key := by
  rcases h with h | ⟨h, _⟩
  · exact keyLe_of_keyLt h
  · exact h ▸ keyLe_refl _

instance : IsTotal (SwEvent α) evLe := by
  constructor
  intro a b
  rcases keyLt_or_keyLe a.key b.key with h | h
  · exact Or.inl (Or.inl h)
  · rcases keyLt_or_keyLe b.key a.key with h' | h'
    · exact Or.inr (Or.inl h')
    · have hk : a.key = b.key := keyLe_antisymm h' h
      rcases lt_trichotomy a.delta b.delta with hd | hd | hd
      · exact Or.inl (Or.inr ⟨hk, Or.inl hd⟩)
      · rcases Nat.le_total a.sid b.sid with hs | hs
        · exact Or.inl (Or.inr ⟨hk, Or.inr ⟨hd, hs⟩⟩)
        · exact Or.inr (Or.inr ⟨hk.symm, Or.inr ⟨hd.symm, hs⟩⟩)
      · exact Or.inr (Or.inr ⟨hk.symm, Or.inl hd⟩)

instance : IsTrans (SwEvent α) evLe := by
  constructor
  intro a b c h1 h2
  rcases h1 with h1 | ⟨e1, d1⟩ <;> rcases h2 with h2 | ⟨e2, d2⟩
  · exact Or.inl (keyLt_trans h1 h2)
  · exact Or.inl (e2 ▸ h1)
  · exact Or.inl (e1 ▸ h2)
  · refine Or.inr ⟨e1.trans e2, ?_⟩
    rcases d1 with d1 | ⟨d1, s1⟩ <;> rcases d2 with d2 | ⟨d2, s2⟩
    · exact Or.inl (lt_trans d1 d2)
    · exact Or.inl (d2 ▸ d1)
    · exact Or.inl (d1 ▸ d2)
    · exact Or.inr ⟨d1.trans d2, le_trans s1 s2⟩

/-- Embedding of `PiecewiseFunction._iterator`: for each interval of a real
set yield the opening event `((lower, 1 - lower_closed), 1)` and the closing
event `((upper, upper_closed), -1)`, tagged with the set index `i`. -/
def iteratorEvents (realset : List (RInterval α)) (i : ℕ) : List (SwEvent α) :=
  realset.flatMap fun J =>
    [⟨J.lower, if J.lower_closed then 0 else 1, 1, i⟩,
     ⟨J.upper, if J.upper_closed then 1 else 0, -1, i⟩]

/-- All events of a collection of real sets, merged into one globally sorted
stream.  `heapq.merge` over per-set sorted streams is a stable sorted merge,
which coincides with a stable sort of the concatenation. -/
def sortedEvents (Ds : List (List (RInterval α))) : List (SwEvent α) :=
  List.insertionSort evLe ((Ds.enum.map fun p => iteratorEvents p.2 p.1).flatten)

/-- State of the sweep loop in `finest_partitions`: the per-set `indicator`
counters, their running sum `indicator_sum`, and `prev_event` (only its key is
retained; the source stores `((x, epsilon), 1)` and only compares keys). -/
structure SwState (α : Type) where
  ind : List ℤ
  tot : ℤ
  prev : Option (BKey α)

/-- Elementary interval between two sweep keys, as constructed by the source:
`InternalRealInterval(x_, epsilon_ == 0, x, epsilon == 1)`. -/
def fromKeys (pk ck : BKey α) : RInterval α :=
  ⟨pk.1, pk.2 == 0, ck.1, ck.2 == 1⟩

/-- One step of the sweep loop of `finest_partitions`: possibly emit the
elementary interval from `prev_event` to the current event, then apply the
delta to the indicator vector and update `prev_event`. -/
def sweepStep (st : SwState α × List (RInterval α × List ℤ)) (e : SwEvent α) :
    SwState α × List (RInterval α × List ℤ) :=
  let s := st.1
  let out :=
    match s.prev with
    | some pk => if keyLt pk e.key then st.2 ++ [(fromKeys pk e.key, s.ind)] else st.2
    | none => st.2
  let ind := s.ind.set e.sid (s.ind.getD e.sid 0 + e.delta)
  let tot := s.tot + e.delta
  let prev : Option (BKey α) := if tot = 0 then none else some e.key
  (⟨ind, tot, prev⟩, out)

/-- Embedding of `PiecewiseFunction.finest_partitions`: sweep the merged event
stream, yielding `(elementary_interval, membership_vector)` pairs. -/
def finest_partitions (Ds : List (List (RInterval α))) : List (RInterval α × List ℤ) :=
  ((sortedEvents Ds).foldl sweepStep (⟨List.replicate Ds.length 0, 0, none⟩, [])).2

/-- Nonemptiness of an interval, expressed on boundary keys.  For a dense
order this is equivalent to having a member. -/
def RInterval.NE (J : RInterval α) : Prop := keyLt J.oKey J.cKey

instance (J : RInterval α) : Decidable J.NE :=
  inferInstanceAs (Decidable (keyLt J.oKey J.cKey))

/-- Well-formedness of a real set as produced by the external interval-set
service: every interval nonempty, and consecutive intervals separated (the
closing key strictly before the next opening key), which is exactly sage's
normalized form. -/
def RSetWF (D : List (RInterval α)) : Prop :=
  (∀ J ∈ D, J.NE) ∧ D.Chain' fun a b => keyLt a.cKey b.oKey

def chainLtB : List (RInterval α) → Bool
  | [] => true
  | [_] => true
  | a :: b :: t => decide (keyLt a.cKey b.oKey) && chainLtB (b :: t)

theorem chainLtB_iff : ∀ D : List (RInterval α),
    chainLtB D = true ↔ D.Chain' fun a b => keyLt a.cKey b.oKey
  | [] => by simp [chainLtB]
  | [J] => by simp [chainLtB]
  | a :: b :: t => by
    rw [List.chain'_cons, ← chainLtB_iff (b :: t)]
    simp [chainLtB]

instance (D : List (RInterval α)) : Decidable (RSetWF D) :=
  decidable_of_decidable_of_iff
    (show ((∀ J ∈ D, J.NE) ∧ chainLtB D = true) ↔ RSetWF D by
      rw [chainLtB_iff]
      exact Iff.rfl)

/-- Number of intervals of a real set containing the point `y` (the coverage
count of the set at `y`). -/
def coverCount (D : List (RInterval α)) (y : α) : ℤ :=
  ((D.countP fun J => decide (J.Mem y)) : ℤ)

/-- Membership in a real set (a list of intervals): membership in some
component interval. -/
def rsMem (D : List (RInterval α)) (y : α) : Prop := ∃ J ∈ D, J.Mem y

instance (D : List (RInterval α)) (y : α) : Decidable (rsMem D y) :=
  inferInstanceAs (Decidable (∃ J ∈ D, J.Mem y))

/-- Sum of the deltas of the events of `P` carrying source index `i`. -/
def sidSum (P : List (SwEvent α)) (i : ℕ) : ℤ :=
  (P.map fun e => if e.sid = i then e.delta else 0).sum

/-- Sum of all deltas of the events of `P`. -/
def deltaSum (P : List (SwEvent α)) : ℤ := (P.map SwEvent.delta).sum

/-- Sum of the deltas of the events of `l` with source index `i` whose key is
at or before the point `y`. -/
def sidPastSum (y : α) (l : List (SwEvent α)) (i : ℕ) : ℤ :=
  (l.map fun e => if e.sid = i ∧ ¬ Before e.key y then e.delta else 0).sum

/-- Sum of the deltas of all events of `l` whose key is at or before `y`. -/
def pastTotal (y : α) (l : List (SwEvent α)) : ℤ :=
  (l.map fun e => if ¬ Before e.key y then e.delta else 0).sum

theorem sidSum_append (P Q : List (SwEvent α)) (i : ℕ) :
    sidSum (P ++ Q) i = sidSum P i + sidSum Q i := by
  simp [sidSum]

theorem deltaSum_append (P Q : List (SwEvent α)) :
    deltaSum (P ++ Q) = deltaSum P + deltaSum Q := by
  simp [deltaSum]

theorem sidPastSum_append (y : α) (P Q : List (SwEvent α)) (i : ℕ) :
    sidPastSum y (P ++ Q) i = sidPastSum y P i + sidPastSum y Q i := by
  simp [sidPastSum]

theorem pastTotal_append (y : α) (P Q : List (SwEvent α)) :
    pastTotal y (P ++ Q) = pastTotal y P + pastTotal y Q := by
  simp [pastTotal]

theorem sidPastSum_perm (y : α) {l l' : List (SwEvent α)} (h : l.Perm l') (i : ℕ) :
    sidPastSum y l i = sidPastSum y l' i :=
  List.Perm.sum_eq (h.map _)

theorem pastTotal_perm (y : α) {l l' : List (SwEvent α)} (h : l.Perm l') :
    pastTotal y l = pastTotal y l' :=
  List.Perm.sum_eq (h.map _)

theorem sidPastSum_of_all_past (y : α) {P : List (SwEvent α)}
    (h : ∀ e ∈ P, ¬ Before e.key y) (i : ℕ) : sidPastSum y P i = sidSum P i := by
  unfold sidPastSum sidSum
  congr 1
  refine List.map_congr_left fun e he => ?_
  simp [h e he]

theorem sidPastSum_of_all_beyond (y : α) {P : List (SwEvent α)}
    (h : ∀ e ∈ P, Before e.key y) (i : ℕ) : sidPastSum y P i = 0 := by
  unfold sidPastSum
  rw [List.sum_eq_zero]
  intro z hz
  rw [List.mem_map] at hz
  obtain ⟨e, he, rfl⟩ := hz
  simp [h e he]

theorem pastTotal_of_all_past (y : α) {P : List (SwEvent α)}
    (h : ∀ e ∈ P, ¬ Before e.key y) : pastTotal y P = deltaSum P := by
  unfold pastTotal deltaSum
  congr 1
  refine List.map_congr_left fun e he => ?_
  simp [h e he]

theorem pastTotal_of_all_beyond (y : α) {P : List (SwEvent α)}
    (h : ∀ e ∈ P, Before e.key y) : pastTotal y P = 0 := by
  unfold pastTotal
  rw [List.sum_eq_zero]
  intro z hz
  rw [List.mem_map] at hz
  obtain ⟨e, he, rfl⟩ := hz
  simp [h e he]

/-- Shape facts about the events generated by `_iterator`. -/
theorem iteratorEvents_shape {D : List (RInterval α)} {i : ℕ} {e : SwEvent α}
    (he : e ∈ iteratorEvents D i) :
    e.sid = i ∧ e.eps ≤ 1 ∧ (e.delta = 1 ∨ e.delta = -1) := by
  unfold iteratorEvents at he
  rw [List.mem_flatMap] at he
  obtain ⟨J, _, hJ⟩ := he
  simp only [List.mem_cons, List.not_mem_nil, or_false] at hJ
  rcases hJ with h | h
  · subst h
    refine ⟨rfl, ?_, Or.inl rfl⟩
    by_cases hc : J.lower_closed <;> simp [hc]
  · subst h
    refine ⟨rfl, ?_, Or.inr rfl⟩
    by_cases hc : J.upper_closed <;> simp [hc]

/-- The coverage count of a real set at `y` equals the past-event delta sum of
its `_iterator` stream, provided every interval has its opening key at or
before its closing key. -/
theorem pastTotal_iteratorEvents (y : α) {D : List (RInterval α)} (i : ℕ)
    (h : ∀ J ∈ D, keyLe J.oKey J.cKey) :
    pastTotal y (iteratorEvents D i) = coverCount D y := by
  induction D with
  | nil => simp [pastTotal, iteratorEvents, coverCount]
  | cons J D ih =>
    have hJ : keyLe J.oKey J.cKey := h J (by simp)
    have hstep : iteratorEvents (J :: D) i =
        [⟨J.lower, if J.lower_closed then 0 else 1, 1, i⟩,
         ⟨J.upper, if J.upper_closed then 1 else 0, -1, i⟩] ++ iteratorEvents D i := by
      simp [iteratorEvents]
    rw [hstep, pastTotal_append, ih fun J' hJ' => h J' (by simp [hJ'])]
    have hcov : coverCount (J :: D) y =
        (if J.Mem y then 1 else 0) + coverCount D y := by
      unfold coverCount
      rw [List.countP_cons]
      by_cases hm : J.Mem y <;> simp [hm] <;> push_cast <;> ring
    rw [hcov]
    have hko : (⟨J.lower, if J.lower_closed then 0 else 1, 1, i⟩ : SwEvent α).key
        = J.oKey := by
      simp [SwEvent.key, RInterval.oKey]
    have hkc : (⟨J.upper, if J.upper_closed then 1 else 0, -1, i⟩ : SwEvent α).key
        = J.cKey := by
      simp [SwEvent.key, RInterval.cKey]
    have hmem := J.mem_iff_keys y
    by_cases ho : Before J.oKey y <;> by_cases hc : Before J.cKey y
    · have : ¬ J.Mem y := fun hm => (hmem.mp hm).1 ho
      simp [pastTotal, hko, hkc, ho, hc, this]
    · exact absurd (Before_mono hJ ho) hc
    · have : J.Mem y := hmem.mpr ⟨ho, hc⟩
      simp [pastTotal, hko, hkc, ho, hc, this]
    · have : ¬ J.Mem y := fun hm => hc (hmem.mp hm).2
      simp [pastTotal, hko, hkc, ho, hc, this]

/-- In the stream of set `j`, only index `j` collects a nonzero past sum. -/
theorem sidPastSum_iteratorEvents (y : α) (D : List (RInterval α)) (i j : ℕ) :
    sidPastSum y (iteratorEvents D j) i =
      if i = j then pastTotal y (iteratorEvents D j) else 0 := by
  by_cases hij : i = j
  · subst hij
    rw [if_pos rfl]
    unfold sidPastSum pastTotal
    congr 1
    refine List.map_congr_left fun e he => ?_
    have := (iteratorEvents_shape he).1
    simp [this]
  · rw [if_neg hij]
    unfold sidPastSum
    rw [List.sum_eq_zero]
    intro z hz
    rw [List.mem_map] at hz
    obtain ⟨e, he, rfl⟩ := hz
    have h1 := (iteratorEvents_shape he).1
    have h2 : e.sid ≠ i := by rw [h1]; exact fun h => hij h.symm
    simp [h2]

theorem getD_set_self {l : List ℤ} {i : ℕ} (h : i < l.length) (v : ℤ) :
    (l.set i v).getD i 0 = v := by
  rw [List.getD_eq_getElem?_getD, List.getElem?_set_self (by omega)]
  rfl

theorem getD_set_ne {l : List ℤ} {i j : ℕ} (h : i ≠ j) (v : ℤ) :
    (l.set i v).getD j 0 = l.getD j 0 := by
  rw [List.getD_eq_getElem?_getD, List.getElem?_set_ne h, ← List.getD_eq_getElem?_getD]

theorem keyLe_getLast {P : List (SwEvent α)} (hs : List.Pairwise evLe P)
    {x la : SwEvent α} (hx : x ∈ P) (hl : P.getLast? = some la) :
    keyLe x.key la.key := by
  induction P with
  | nil => simp at hx
  | cons a P ih =>
    rcases List.pairwise_cons.mp hs with ⟨ha, hP⟩
    cases P with
    | nil =>
      simp at hx hl
      rw [hx, hl]
      exact keyLe_refl _
    | cons b P' =>
      rw [List.getLast?_cons_cons] at hl
      rcases List.mem_cons.mp hx with h | h
      · subst h
        have h1 : la ∈ (b :: P').getLast? := by rw [Option.mem_def]; exact hl
        obtain ⟨hne, heq⟩ := List.mem_getLast?_eq_getLast h1
        have hla : la ∈ b :: P' := by rw [heq]; exact List.getLast_mem hne
        exact evLe_key (ha la hla)
      · exact ih hP h hl

theorem fromKeys_oKey {pk ck : BKey α} (h : pk.2 ≤ 1) : (fromKeys pk ck).oKey = pk := by
  unfold fromKeys RInterval.oKey
  rcases Nat.le_one_iff_eq_zero_or_eq_one.mp h with h0 | h1
  · cases pk; simp_all
  · cases pk; simp_all

theorem fromKeys_cKey {pk ck : BKey α} (h : ck.2 ≤ 1) : (fromKeys pk ck).cKey = ck := by
  unfold fromKeys RInterval.cKey
  rcases Nat.le_one_iff_eq_zero_or_eq_one.mp h with h0 | h1
  · cases ck; simp_all
  · cases ck; simp_all

/-- Characterization of the `prev_event` field after processing a list `P` of
events: `None` when no event was processed or the running sum returned to
zero, otherwise the key of the last processed event. -/
def prevOf (P : List (SwEvent α)) : Option (BKey α) :=
  match P.getLast? with
  | none => none
  | some la => if deltaSum P = 0 then none else some la.key

theorem prevOf_concat (P : List (SwEvent α)) (e : SwEvent α) :
    prevOf (P ++ [e]) =
      if deltaSum P + e.delta = 0 then none else some e.key := by
  unfold prevOf
  rw [List.getLast?_concat, deltaSum_append]
  simp [deltaSum]

theorem prevOf_eq_some {P : List (SwEvent α)} {pk : BKey α} (h : prevOf P = some pk) :
    deltaSum P ≠ 0 ∧ ∃ la, P.getLast? = some la ∧ pk = la.key := by
  unfold prevOf at h
  cases hl : P.getLast? with
  | none => rw [hl] at h; simp at h
  | some la =>
    rw [hl] at h
    dsimp only at h
    by_cases hz : deltaSum P = 0
    · rw [if_pos hz] at h; simp at h
    · rw [if_neg hz] at h
      exact ⟨hz, la, rfl, (Option.some_inj.mp h).symm⟩

theorem deltaSum_ne_zero_getLast {P : List (SwEvent α)} (h : deltaSum P ≠ 0) :
    ∃ la, P.getLast? = some la := by
  cases P with
  | nil => simp [deltaSum] at h
  | cons a P =>
    exact ⟨_, List.getLast?_eq_getLast_of_ne_nil (List.cons_ne_nil a P)⟩

theorem prevOf_of_ne_zero {P : List (SwEvent α)} {la : SwEvent α}
    (h : deltaSum P ≠ 0) (hl : P.getLast? = some la) : prevOf P = some la.key := by
  unfold prevOf
  rw [hl]
  dsimp only
  rw [if_neg h]


/-- Invariant of the sweep loop of `finest_partitions`.  `fullE` is the whole
sorted event stream, `P` the processed events, `rem` the remaining events. -/
structure SweepInv (n : ℕ) (fullE P rem : List (SwEvent α)) (s : SwState α)
    (out : List (RInterval α × List ℤ)) : Prop where
  indLen : s.ind.length = n
  indVal : ∀ i, s.ind.getD i 0 = sidSum P i
  totVal : s.tot = deltaSum P
  prevVal : s.prev = prevOf P
  outLen : ∀ pr ∈ out, pr.2.length = n
  outVec : ∀ pr ∈ out, ∀ y, pr.1.Mem y → ∀ i, pr.2.getD i 0 = sidPastSum y fullE i
  outPos : ∀ pr ∈ out, ∀ y, pr.1.Mem y → pastTotal y fullE ≠ 0
  outBeyond : ∀ pr ∈ out, ∀ y, pr.1.Mem y →
      (∀ e ∈ rem, Before e.key y) ∧ ∀ pk, s.prev = some pk → Before pk y
  outDisj : out.Pairwise fun a b => ∀ y, ¬ (a.1.Mem y ∧ b.1.Mem y)
  emitAll : ∀ y, pastTotal y fullE ≠ 0 →
      (∃ pr ∈ out, pr.1.Mem y) ∨ ∀ e ∈ P, ¬ Before e.key y
  outNE : ∀ pr ∈ out, pr.1.NE

/-- One step of the sweep loop preserves the invariant. -/
theorem sweepStep_inv {n : ℕ} {fullE P rest : List (SwEvent α)} {e : SwEvent α}
    {s : SwState α} {out : List (RInterval α × List ℤ)}
    (hfull : fullE = P ++ e :: rest)
    (hsort : List.Pairwise evLe fullE)
    (heps : ∀ e' ∈ fullE, e'.eps ≤ 1)
    (hsid : ∀ e' ∈ fullE, e'.sid < n)
    (inv : SweepInv n fullE P (e :: rest) s out) :
    SweepInv n fullE (P ++ [e]) rest (sweepStep (s, out) e).1 (sweepStep (s, out) e).2 := by
  have hPsub : List.Pairwise evLe P := by
    refine List.Pairwise.sublist ?_ hsort
    rw [hfull]
    exact List.sublist_append_left P (e :: rest)
  have hcross : ∀ a ∈ P, ∀ b ∈ e :: rest, evLe a b := by
    have := hsort
    rw [hfull, List.pairwise_append] at this
    exact this.2.2
  have herest : ∀ r ∈ rest, evLe e r := by
    have := hsort
    rw [hfull, List.pairwise_append] at this
    exact (List.pairwise_cons.mp this.2.1).1
  have heMem : e ∈ fullE := by rw [hfull]; simp
  have heSid : e.sid < n := hsid e heMem
  have heEps : e.eps ≤ 1 := heps e heMem
  -- decomposition of the new output list
  have houtSplit :
      (s.prev = none ∧ (sweepStep (s, out) e).2 = out) ∨
      (∃ pk, s.prev = some pk ∧ ¬ keyLt pk e.key ∧ (sweepStep (s, out) e).2 = out) ∨
      (∃ pk, s.prev = some pk ∧ keyLt pk e.key ∧
        (sweepStep (s, out) e).2 = out ++ [(fromKeys pk e.key, s.ind)]) := by
    cases hp : s.prev with
    | none => exact Or.inl ⟨rfl, by simp [sweepStep, hp]⟩
    | some pk =>
      by_cases hlt : keyLt pk e.key
      · exact Or.inr (Or.inr ⟨pk, rfl, hlt, by simp [sweepStep, hp, hlt]⟩)
      · exact Or.inr (Or.inl ⟨pk, rfl, hlt, by simp [sweepStep, hp, hlt]⟩)
  have hstate : (sweepStep (s, out) e).1 =
      ⟨s.ind.set e.sid (s.ind.getD e.sid 0 + e.delta), s.tot + e.delta,
        if s.tot + e.delta = 0 then none else some e.key⟩ := by
    cases hp : s.prev <;> simp [sweepStep, hp]
  -- facts used when an interval is emitted
  have hnewMem : ∀ pk, s.prev = some pk →
      ∀ y, (fromKeys pk e.key).Mem y ↔ (¬ Before pk y ∧ Before e.key y) := by
    intro pk hp y
    obtain ⟨hdz, la, hla, hpk⟩ := prevOf_eq_some (inv.prevVal ▸ hp)
    have hlaP : la ∈ P := by
      have h1 : la ∈ P.getLast? := by rw [Option.mem_def]; exact hla
      obtain ⟨hne, heq⟩ := List.mem_getLast?_eq_getLast h1
      rw [heq]; exact List.getLast_mem hne
    have hpk1 : pk.2 ≤ 1 := by
      rw [hpk]
      exact heps la (by rw [hfull]; exact List.mem_append_left _ hlaP)
    rw [RInterval.mem_iff_keys, fromKeys_oKey hpk1, fromKeys_cKey heEps]
  -- for points in a newly emitted interval, the processed events are exactly
  -- the past events
  have hpastP : ∀ pk, s.prev = some pk → ∀ y, ¬ Before pk y →
      ∀ p ∈ P, ¬ Before p.key y := by
    intro pk hp y hy p hpP
    obtain ⟨hdz, la, hla, hpk⟩ := prevOf_eq_some (inv.prevVal ▸ hp)
    have hle : keyLe p.key la.key := keyLe_getLast hPsub hpP hla
    exact not_Before_mono (hpk ▸ hle) hy
  have hbeyondRest : ∀ y, Before e.key y → ∀ r ∈ rest, Before r.key y := by
    intro y hy r hr
    exact Before_mono (evLe_key (herest r hr)) hy
  -- the three pieces of the full event list
  have hfullDecomp : ∀ y i, sidPastSum y fullE i =
      sidPastSum y P i + sidPastSum y [e] i + sidPastSum y rest i := by
    intro y i
    rw [hfull]
    rw [show P ++ e :: rest = P ++ [e] ++ rest by simp]
    rw [sidPastSum_append, sidPastSum_append]
  have hfullDecompTot : ∀ y, pastTotal y fullE =
      pastTotal y P + pastTotal y [e] + pastTotal y rest := by
    intro y
    rw [hfull]
    rw [show P ++ e :: rest = P ++ [e] ++ rest by simp]
    rw [pastTotal_append, pastTotal_append]
  constructor
  -- indLen
  · rw [hstate]
    simpa using inv.indLen
  -- indVal
  · intro i
    rw [hstate]
    dsimp only
    by_cases hi : e.sid = i
    · subst hi
      rw [getD_set_self (by rw [inv.indLen]; exact heSid), inv.indVal,
        sidSum_append]
      simp [sidSum]
    · rw [getD_set_ne hi, inv.indVal, sidSum_append]
      simp [sidSum, hi]
  -- totVal
  · rw [hstate]
    dsimp only
    rw [inv.totVal, deltaSum_append]
    simp [deltaSum]
  -- prevVal
  · rw [hstate]
    dsimp only
    rw [prevOf_concat, inv.totVal]
  -- outLen
  · intro pr hpr
    rcases houtSplit with ⟨_, ho⟩ | ⟨pk, _, _, ho⟩ | ⟨pk, hp, hlt, ho⟩
    · rw [ho] at hpr; exact inv.outLen pr hpr
    · rw [ho] at hpr; exact inv.outLen pr hpr
    · rw [ho] at hpr
      rcases List.mem_append.mp hpr with h | h
      · exact inv.outLen pr h
      · have : pr = (fromKeys pk e.key, s.ind) := by simpa using h
        rw [this]
        exact inv.indLen
  -- outVec
  · intro pr hpr y hy i
    rcases houtSplit with ⟨_, ho⟩ | ⟨pk, _, _, ho⟩ | ⟨pk, hp, hlt, ho⟩
    · rw [ho] at hpr; exact inv.outVec pr hpr y hy i
    · rw [ho] at hpr; exact inv.outVec pr hpr y hy i
    · rw [ho] at hpr
      rcases List.mem_append.mp hpr with h | h
      · exact inv.outVec pr h y hy i
      · have hpr' : pr = (fromKeys pk e.key, s.ind) := by simpa using h
        subst hpr'
        obtain ⟨hnb, hb⟩ := (hnewMem pk hp y).mp hy
        rw [hfullDecomp y i]
        rw [sidPastSum_of_all_past y (hpastP pk hp y hnb) i]
        rw [sidPastSum_of_all_beyond y (fun r hr => hbeyondRest y hb r hr) i]
        have he1 : sidPastSum y [e] i = 0 := by
          simp [sidPastSum, hb]
        rw [he1]
        dsimp only
        rw [inv.indVal i]
        ring
  -- outPos
  · intro pr hpr y hy
    rcases houtSplit with ⟨_, ho⟩ | ⟨pk, _, _, ho⟩ | ⟨pk, hp, hlt, ho⟩
    · rw [ho] at hpr; exact inv.outPos pr hpr y hy
    · rw [ho] at hpr; exact inv.outPos pr hpr y hy
    · rw [ho] at hpr
      rcases List.mem_append.mp hpr with h | h
      · exact inv.outPos pr h y hy
      · have hpr' : pr = (fromKeys pk e.key, s.ind) := by simpa using h
        subst hpr'
        obtain ⟨hnb, hb⟩ := (hnewMem pk hp y).mp hy
        obtain ⟨hdz, la, hla, hpk⟩ := prevOf_eq_some (inv.prevVal ▸ hp)
        rw [hfullDecompTot y]
        rw [pastTotal_of_all_past y (hpastP pk hp y hnb)]
        rw [pastTotal_of_all_beyond y (fun r hr => hbeyondRest y hb r hr)]
        have he1 : pastTotal y [e] = 0 := by
          simp [pastTotal, hb]
        rw [he1]
        simpa using hdz
  -- outBeyond
  · intro pr hpr y hy
    have hprev' : ∀ pk', (sweepStep (s, out) e).1.prev = some pk' → pk' = e.key := by
      intro pk' h
      rw [hstate] at h
      dsimp only at h
      by_cases hz : s.tot + e.delta = 0
      · rw [if_pos hz] at h; simp at h
      · rw [if_neg hz] at h; exact (Option.some_inj.mp h).symm
    rcases houtSplit with ⟨hp, ho⟩ | ⟨pk, hp, hlt, ho⟩ | ⟨pk, hp, hlt, ho⟩
    · rw [ho] at hpr
      obtain ⟨hrem, _⟩ := inv.outBeyond pr hpr y hy
      refine ⟨fun r hr => hrem r (by simp [hr]), fun pk' h' => ?_⟩
      rw [hprev' pk' h']
      exact hrem e (by simp)
    · rw [ho] at hpr
      obtain ⟨hrem, _⟩ := inv.outBeyond pr hpr y hy
      refine ⟨fun r hr => hrem r (by simp [hr]), fun pk' h' => ?_⟩
      rw [hprev' pk' h']
      exact hrem e (by simp)
    · rw [ho] at hpr
      rcases List.mem_append.mp hpr with h | h
      · obtain ⟨hrem, _⟩ := inv.outBeyond pr h y hy
        refine ⟨fun r hr => hrem r (by simp [hr]), fun pk' h' => ?_⟩
        rw [hprev' pk' h']
        exact hrem e (by simp)
      · have hpr' : pr = (fromKeys pk e.key, s.ind) := by simpa using h
        subst hpr'
        obtain ⟨hnb, hb⟩ := (hnewMem pk hp y).mp hy
        refine ⟨fun r hr => hbeyondRest y hb r hr, fun pk' h' => ?_⟩
        rw [hprev' pk' h']
        exact hb
  -- outDisj
  · rcases houtSplit with ⟨_, ho⟩ | ⟨pk, _, _, ho⟩ | ⟨pk, hp, hlt, ho⟩
    · rw [ho]; exact inv.outDisj
    · rw [ho]; exact inv.outDisj
    · rw [ho]
      rw [List.pairwise_append]
      refine ⟨inv.outDisj, List.pairwise_singleton _ _, ?_⟩
      intro a ha b hb y ⟨hya, hyb⟩
      have hb' : b = (fromKeys pk e.key, s.ind) := by simpa using hb
      subst hb'
      obtain ⟨hnb, _⟩ := (hnewMem pk hp y).mp hyb
      obtain ⟨_, hpka⟩ := inv.outBeyond a ha y hya
      exact hnb (hpka pk hp)
  -- emitAll
  · intro y hcov
    have hmono : (∃ pr ∈ out, pr.1.Mem y) → ∃ pr ∈ (sweepStep (s, out) e).2, pr.1.Mem y := by
      rintro ⟨pr, hpr, hy⟩
      rcases houtSplit with ⟨_, ho⟩ | ⟨pk, _, _, ho⟩ | ⟨pk, hp, hlt, ho⟩
      · exact ⟨pr, by rw [ho]; exact hpr, hy⟩
      · exact ⟨pr, by rw [ho]; exact hpr, hy⟩
      · exact ⟨pr, by rw [ho]; exact List.mem_append_left _ hpr, hy⟩
    rcases inv.emitAll y hcov with hemit | hpast
    · exact Or.inl (hmono hemit)
    · by_cases hbey : Before e.key y
      · -- the current event is the first event beyond `y`: emit now
        left
        have hrestBey : ∀ r ∈ rest, Before r.key y := hbeyondRest y hbey
        have htot : pastTotal y fullE = deltaSum P := by
          rw [hfullDecompTot y, pastTotal_of_all_past y hpast,
            pastTotal_of_all_beyond y hrestBey]
          simp [pastTotal, hbey]
        have hdz : deltaSum P ≠ 0 := htot ▸ hcov
        obtain ⟨la, hla⟩ := deltaSum_ne_zero_getLast hdz
        have hp : s.prev = some la.key := by
          rw [inv.prevVal]
          exact prevOf_of_ne_zero hdz hla
        have hlaP : la ∈ P := by
          have h1 : la ∈ P.getLast? := by rw [Option.mem_def]; exact hla
          obtain ⟨hne, heq⟩ := List.mem_getLast?_eq_getLast h1
          rw [heq]; exact List.getLast_mem hne
        have hnbla : ¬ Before la.key y := hpast la hlaP
        have hlt : keyLt la.key e.key := by
          rcases keyLt_or_keyLe la.key e.key with h | h
          · exact h
          · exact absurd (Before_mono h hbey) hnbla
        rcases houtSplit with ⟨hp0, _⟩ | ⟨pk0, hp0, hlt0, _⟩ | ⟨pk0, hp0, hlt0, ho⟩
        · rw [hp] at hp0; simp at hp0
        · rw [hp] at hp0
          rw [← Option.some_inj.mp hp0] at hlt0
          exact absurd hlt hlt0
        · rw [hp] at hp0
          have hpk0 : pk0 = la.key := (Option.some_inj.mp hp0).symm
          subst hpk0
          refine ⟨(fromKeys la.key e.key, s.ind), ?_, ?_⟩
          · rw [ho]; simp
          · exact (hnewMem la.key hp y).mpr ⟨hnbla, hbey⟩
      · right
        intro p hp
        rcases List.mem_append.mp hp with h | h
        · exact hpast p h
        · have : p = e := by simpa using h
          rw [this]
          exact hbey
  -- outNE
  · intro pr hpr
    rcases houtSplit with ⟨_, ho⟩ | ⟨pk, _, _, ho⟩ | ⟨pk, hp, hlt, ho⟩
    · rw [ho] at hpr; exact inv.outNE pr hpr
    · rw [ho] at hpr; exact inv.outNE pr hpr
    · rw [ho] at hpr
      rcases List.mem_append.mp hpr with h | h
      · exact inv.outNE pr h
      · have hpr' : pr = (fromKeys pk e.key, s.ind) := by simpa using h
        subst hpr'
        obtain ⟨hdz, la, hla, hpk⟩ := prevOf_eq_some (inv.prevVal ▸ hp)
        have hlaP : la ∈ P := by
          have h1 : la ∈ P.getLast? := by rw [Option.mem_def]; exact hla
          obtain ⟨hne, heq⟩ := List.mem_getLast?_eq_getLast h1
          rw [heq]; exact List.getLast_mem hne
        have hpk1 : pk.2 ≤ 1 := by
          rw [hpk]
          exact heps la (by rw [hfull]; exact List.mem_append_left _ hlaP)
        show keyLt (fromKeys pk e.key).oKey (fromKeys pk e.key).cKey
        rw [fromKeys_oKey hpk1, fromKeys_cKey heEps]
        exact hlt


/-- Folding the sweep over the remaining events preserves the invariant. -/
theorem sweep_fold_inv {n : ℕ} {fullE : List (SwEvent α)}
    (hsort : List.Pairwise evLe fullE)
    (heps : ∀ e' ∈ fullE, e'.eps ≤ 1)
    (hsid : ∀ e' ∈ fullE, e'.sid < n) :
    ∀ (rem P : List (SwEvent α)) (s : SwState α) out,
      fullE = P ++ rem →
      SweepInv n fullE P rem s out →
      SweepInv n fullE fullE []
        (List.foldl sweepStep (s, out) rem).1 (List.foldl sweepStep (s, out) rem).2 := by
  intro rem
  induction rem with
  | nil =>
    intro P s out hfull inv
    rw [List.append_nil] at hfull
    subst hfull
    simpa using inv
  | cons e rest ih =>
    intro P s out hfull inv
    rw [List.foldl_cons]
    have step := sweepStep_inv hfull hsort heps hsid inv
    have hfull2 : fullE = (P ++ [e]) ++ rest := by rw [hfull]; simp
    exact ih (P ++ [e]) (sweepStep (s, out) e).1 (sweepStep (s, out) e).2 hfull2 step

/-- The invariant holds at the start of the sweep. -/
theorem sweepInv_init (n : ℕ) (fullE : List (SwEvent α)) :
    SweepInv n fullE [] fullE ⟨List.replicate n 0, 0, none⟩ [] := by
  constructor
  · simp
  · intro i
    rw [List.getD_eq_getElem?_getD, List.getElem?_replicate]
    by_cases h : i < n <;> simp [h, sidSum]
  · simp [deltaSum]
  · simp [prevOf]
  · simp
  · simp
  · simp
  · simp
  · simp
  · intro y h
    right
    simp
  · simp

theorem sidPastSum_flatten (y : α) (ls : List (List (SwEvent α))) (i : ℕ) :
    sidPastSum y ls.flatten i = (ls.map fun l => sidPastSum y l i).sum := by
  induction ls with
  | nil => simp [sidPastSum]
  | cons l ls ih => simp [sidPastSum_append, ih]

theorem pastTotal_flatten (y : α) (ls : List (List (SwEvent α))) :
    pastTotal y ls.flatten = (ls.map fun l => pastTotal y l).sum := by
  induction ls with
  | nil => simp [pastTotal]
  | cons l ls ih => simp [pastTotal_append, ih]

/-- Per-index decomposition of the past sums of the merged streams. -/
theorem sidPastSum_streams (y : α) (Ds : List (List (RInterval α))) (i : ℕ)
    (hwf : ∀ D ∈ Ds, ∀ J ∈ D, keyLe J.oKey J.cKey) : ∀ k,
    sidPastSum y ((Ds.enumFrom k).map fun p => iteratorEvents p.2 p.1).flatten i =
      if k ≤ i ∧ i < k + Ds.length then coverCount (Ds.getD (i - k) []) y else 0 := by
  induction Ds with
  | nil =>
    intro k
    rw [if_neg (by simp)]
    simp [sidPastSum]
  | cons D Ds ih =>
    intro k
    have hlen : (D :: Ds).length = Ds.length + 1 := rfl
    rw [List.enumFrom_cons]
    simp only [List.map_cons, List.flatten_cons]
    rw [sidPastSum_append, sidPastSum_iteratorEvents,
      ih (fun D' hD' => hwf D' (by simp [hD'])) (k + 1)]
    by_cases hik : i = k
    · subst hik
      rw [if_pos rfl, pastTotal_iteratorEvents y i (hwf D (by simp)),
        if_neg (by omega), if_pos (by constructor <;> omega)]
      simp
    · rw [if_neg hik]
      by_cases h2 : k + 1 ≤ i ∧ i < k + 1 + Ds.length
      · rw [if_pos h2, if_pos (by constructor <;> omega)]
        have hik2 : i - k = (i - (k + 1)) + 1 := by omega
        rw [hik2]
        simp
      · rw [if_neg h2, if_neg (by omega)]
        simp

/-- The sum of all coverage counts at `y`, over the merged event stream. -/
theorem pastTotal_sortedEvents (y : α) (Ds : List (List (RInterval α)))
    (hwf : ∀ D ∈ Ds, ∀ J ∈ D, keyLe J.oKey J.cKey) :
    pastTotal y (sortedEvents Ds) = (Ds.map fun D => coverCount D y).sum := by
  unfold sortedEvents
  rw [pastTotal_perm y (List.perm_insertionSort evLe _), pastTotal_flatten]
  rw [List.map_map]
  have h1 : ∀ p ∈ Ds.enum, (pastTotal y ∘ fun p => iteratorEvents p.2 p.1) p
      = coverCount p.2 y := by
    intro p hp
    have hp2 : p.2 ∈ Ds := by
      have := List.enum_map_snd Ds
      rw [← this]
      exact List.mem_map_of_mem Prod.snd hp
    exact pastTotal_iteratorEvents y p.1 (hwf p.2 hp2)
  rw [List.map_congr_left h1]
  have h2 : Ds.enum.map (fun p => coverCount p.2 y)
      = (Ds.enum.map Prod.snd).map fun D => coverCount D y := by
    rw [List.map_map]
    rfl
  rw [h2, List.enum_map_snd]

theorem sortedEvents_eps (Ds : List (List (RInterval α))) :
    ∀ e ∈ sortedEvents Ds, e.eps ≤ 1 := by
  intro e he
  have he2 := (List.perm_insertionSort evLe _).mem_iff.mp he
  rw [List.mem_flatten] at he2
  obtain ⟨l, hl, hel⟩ := he2
  rw [List.mem_map] at hl
  obtain ⟨p, _, rfl⟩ := hl
  exact (iteratorEvents_shape hel).2.1

theorem sortedEvents_sid (Ds : List (List (RInterval α))) :
    ∀ e ∈ sortedEvents Ds, e.sid < Ds.length := by
  intro e he
  have he2 := (List.perm_insertionSort evLe _).mem_iff.mp he
  rw [List.mem_flatten] at he2
  obtain ⟨l, hl, hel⟩ := he2
  rw [List.mem_map] at hl
  obtain ⟨p, hp, rfl⟩ := hl
  rw [(iteratorEvents_shape hel).1]
  obtain ⟨i0, D0⟩ := p
  have h := List.mem_enumFrom (show (i0, D0) ∈ List.enumFrom 0 Ds from hp)
  simpa using h.2.1

theorem sortedEvents_sorted (Ds : List (List (RInterval α))) :
    List.Pairwise evLe (sortedEvents Ds) :=
  List.sorted_insertionSort evLe _

/-- A real set `D` with index `i` inside `Ds` contributes the closing event of
any of its intervals to the merged stream. -/
theorem close_event_mem (Ds : List (List (RInterval α))) {D : List (RInterval α)}
    (hD : D ∈ Ds) {J : RInterval α} (hJ : J ∈ D) :
    ∃ e ∈ sortedEvents Ds, e.key = J.cKey := by
  have hsnd : D ∈ Ds.enum.map Prod.snd := by rw [List.enum_map_snd]; exact hD
  rw [List.mem_map] at hsnd
  obtain ⟨p, hp, hp2⟩ := hsnd
  refine ⟨⟨J.upper, if J.upper_closed then 1 else 0, -1, p.1⟩, ?_, rfl⟩
  unfold sortedEvents
  rw [(List.perm_insertionSort evLe _).mem_iff]
  rw [List.mem_flatten]
  refine ⟨iteratorEvents p.2 p.1, List.mem_map_of_mem _ hp, ?_⟩
  unfold iteratorEvents
  rw [List.mem_flatMap]
  exact ⟨J, hp2 ▸ hJ, by simp⟩

/-- Full specification of the sweep: membership, disjointness, coverage
vectors, and nonemptiness of every emitted elementary interval. -/
theorem fp_spec (Ds : List (List (RInterval α)))
    (hwf : ∀ D ∈ Ds, RSetWF D) :
    (∀ y, (∃ pr ∈ finest_partitions Ds, pr.1.Mem y) ↔ ∃ D ∈ Ds, rsMem D y) ∧
    (finest_partitions Ds).Pairwise (fun a b => ∀ y, ¬ (a.1.Mem y ∧ b.1.Mem y)) ∧
    (∀ pr ∈ finest_partitions Ds, pr.2.length = Ds.length ∧
      ∀ y, pr.1.Mem y → ∀ i, i < Ds.length →
        pr.2.getD i 0 = coverCount (Ds.getD i []) y) ∧
    (∀ pr ∈ finest_partitions Ds, pr.1.NE) := by
  have hwf2 : ∀ D ∈ Ds, ∀ J ∈ D, keyLe J.oKey J.cKey := by
    intro D hD J hJ
    exact keyLe_of_keyLt ((hwf D hD).1 J hJ)
  have hfold := @sweep_fold_inv _ _ Ds.length (sortedEvents Ds)
    (sortedEvents_sorted Ds) (sortedEvents_eps Ds) (sortedEvents_sid Ds)
    (sortedEvents Ds) [] ⟨List.replicate Ds.length 0, 0, none⟩ []
    (by simp) (sweepInv_init Ds.length (sortedEvents Ds))
  have hfp : finest_partitions Ds =
      (List.foldl sweepStep (⟨List.replicate Ds.length 0, 0, none⟩, []) (sortedEvents Ds)).2 :=
    rfl
  have hcovSum : ∀ y, pastTotal y (sortedEvents Ds)
      = (Ds.map fun D => coverCount D y).sum := fun y =>
    pastTotal_sortedEvents y Ds hwf2
  have hnonneg : ∀ y, ∀ z ∈ Ds.map fun D => coverCount D y, 0 ≤ z := by
    intro y z hz
    rw [List.mem_map] at hz
    obtain ⟨D, _, rfl⟩ := hz
    exact Int.natCast_nonneg _
  refine ⟨fun y => ⟨?_, ?_⟩, ?_, ?_, ?_⟩
  · rintro ⟨pr, hpr, hy⟩
    rw [hfp] at hpr
    have hpos := hfold.outPos pr hpr y hy
    rw [hcovSum y] at hpos
    have : ∃ z ∈ Ds.map fun D => coverCount D y, z ≠ 0 := by
      by_contra hc
      push_neg at hc
      exact hpos (List.sum_eq_zero hc)
    obtain ⟨z, hz, hz0⟩ := this
    rw [List.mem_map] at hz
    obtain ⟨D, hD, rfl⟩ := hz
    refine ⟨D, hD, ?_⟩
    unfold coverCount at hz0
    have : D.countP (fun J => decide (J.Mem y)) ≠ 0 := by
      intro h
      exact hz0 (by rw [h]; rfl)
    rw [Ne, List.countP_eq_zero] at this
    push_neg at this
    obtain ⟨J, hJ, hJ2⟩ := this
    exact ⟨J, hJ, of_decide_eq_true hJ2⟩
  · rintro ⟨D, hD, J, hJ, hy⟩
    have hpos : pastTotal y (sortedEvents Ds) ≠ 0 := by
      rw [hcovSum y]
      have h1 : coverCount D y ∈ Ds.map fun D => coverCount D y :=
        List.mem_map_of_mem _ hD
      have h2 : 0 < coverCount D y := by
        unfold coverCount
        have : 0 < D.countP fun J => decide (J.Mem y) :=
          List.countP_pos_iff.mpr ⟨J, hJ, decide_eq_true hy⟩
        exact_mod_cast this
      have h3 := List.single_le_sum (hnonneg y) _ h1
      omega
    rcases hfold.emitAll y hpos with ⟨pr, hpr, hy2⟩ | hall
    · exact ⟨pr, hfp ▸ hpr, hy2⟩
    · obtain ⟨e, he, hek⟩ := close_event_mem Ds hD hJ
      have : Before e.key y := by
        rw [hek]
        exact ((J.mem_iff_keys y).mp hy).2
      exact absurd this (hall e he)
  · rw [hfp]
    exact hfold.outDisj
  · intro pr hpr
    rw [hfp] at hpr
    refine ⟨hfold.outLen pr hpr, ?_⟩
    intro y hy i hi
    rw [hfold.outVec pr hpr y hy i]
    unfold sortedEvents
    rw [sidPastSum_perm y (List.perm_insertionSort evLe _) i]
    rw [show Ds.enum = Ds.enumFrom 0 from rfl]
    rw [sidPastSum_streams y Ds i hwf2 0, if_pos (by omega)]
    simp
  · intro pr hpr
    rw [hfp] at hpr
    exact hfold.outNE pr hpr

/-- C1: over any finite collection of well-formed interval sets,
`finest_partitions` yields pairwise disjoint elementary intervals whose union
is exactly the union of the inputs, each tagged with a membership vector whose
`i`-th entry is the coverage count of input `i` on that interval. -/
theorem finest_partitions_correct (Ds : List (List (RInterval α)))
    (hwf : ∀ D ∈ Ds, RSetWF D) :
    (∀ y, (∃ pr ∈ finest_partitions Ds, pr.1.Mem y) ↔ ∃ D ∈ Ds, rsMem D y) ∧
    (finest_partitions Ds).Pairwise (fun a b => ∀ y, ¬ (a.1.Mem y ∧ b.1.Mem y)) ∧
    (∀ pr ∈ finest_partitions Ds, pr.2.length = Ds.length ∧
      ∀ y, pr.1.Mem y → ∀ i, i < Ds.length →
        pr.2.getD i 0 = coverCount (Ds.getD i []) y) := by
  obtain ⟨h1, h2, h3, _⟩ := fp_spec Ds hwf
  exact ⟨h1, h2, h3⟩

end SweepLayer

section RealSetService

variable {α : Type} [LinearOrder α]

theorem oKey_eps (J : RInterval α) : J.oKey.2 ≤ 1 := by
  unfold RInterval.oKey
  by_cases h : J.lower_closed <;> simp [h]

theorem cKey_eps (J : RInterval α) : J.cKey.2 ≤ 1 := by
  unfold RInterval.cKey
  by_cases h : J.upper_closed <;> simp [h]

theorem fromKeys_keys_self (J : RInterval α) : fromKeys J.oKey J.cKey = J := by
  obtain ⟨l, lc, u, uc⟩ := J
  unfold fromKeys RInterval.oKey RInterval.cKey
  cases lc <;> cases uc <;> simp

theorem keyLt_of_between {k k' : BKey α} {y : α} (h1 : ¬ Before k y) (h2 : Before k' y) :
    keyLt k k' := by
  rcases keyLt_or_keyLe k k' with h | h
  · exact h
  · exact absurd (Before_mono h h2) h1

theorem mem_of_NE_keys [DenselyOrdered α] {o c : BKey α}
    (ho : o.2 ≤ 1) (hc : c.2 ≤ 1) (h : keyLt o c) : ∃ y, ¬ Before o y ∧ Before c y := by
  obtain ⟨x, e⟩ := o
  rcases Nat.le_one_iff_eq_zero_or_eq_one.mp ho with he | he
  · subst he
    refine ⟨x, ?_, ?_⟩
    · simp [Before]
    · rcases h with h | ⟨h, h2⟩
      · exact Or.inl h
      · exact Or.inr ⟨h, by omega⟩
  · subst he
    have hx : x < c.1 := by
      rcases h with h | ⟨h, h2⟩
      · exact h
      · exact absurd h2 (by omega)
    obtain ⟨y, hy1, hy2⟩ := exists_between hx
    refine ⟨y, ?_, Or.inl hy2⟩
    intro hb
    rcases hb with hb | ⟨hb, _⟩
    · exact absurd (lt_trans hb hy1) (lt_irrefl _)
    · exact absurd (hb ▸ hy1) (lt_irrefl _)

theorem RInterval.mem_nonempty [DenselyOrdered α] {J : RInterval α} (h : J.NE) :
    ∃ y, J.Mem y := by
  obtain ⟨y, h1, h2⟩ := mem_of_NE_keys (oKey_eps J) (cKey_eps J) h
  exact ⟨y, (J.mem_iff_keys y).mpr ⟨h1, h2⟩⟩

theorem NE_of_mem {J : RInterval α} {y : α} (h : J.Mem y) : J.NE := by
  rw [RInterval.mem_iff_keys] at h
  exact keyLt_of_between h.1 h.2

/-- Maximum of two boundary keys. -/
def keyMax (a b : BKey α) : BKey α := if keyLt a b then b else a

/-- Minimum of two boundary keys. -/
def keyMin (a b : BKey α) : BKey α := if keyLt a b then a else b

theorem keyMax_ge_left (a b : BKey α) : keyLe a (keyMax a b) := by
  unfold keyMax
  by_cases h : keyLt a b
  · rw [if_pos h]; exact keyLe_of_keyLt h
  · rw [if_neg h]; exact keyLe_refl a

theorem keyMax_ge_right (a b : BKey α) : keyLe b (keyMax a b) := by
  unfold keyMax
  by_cases h : keyLt a b
  · rw [if_pos h]; exact keyLe_refl b
  · rw [if_neg h]; exact not_keyLt_iff.mp h

theorem keyMax_cases (a b : BKey α) : keyMax a b = a ∨ keyMax a b = b := by
  unfold keyMax
  by_cases h : keyLt a b <;> simp [h]

theorem keyMin_le_left (a b : BKey α) : keyLe (keyMin a b) a := by
  unfold keyMin
  by_cases h : keyLt a b
  · rw [if_pos h]; exact keyLe_refl a
  · rw [if_neg h]; exact not_keyLt_iff.mp h

theorem keyMin_le_right (a b : BKey α) : keyLe (keyMin a b) b := by
  unfold keyMin
  by_cases h : keyLt a b
  · rw [if_pos h]; exact keyLe_of_keyLt h
  · rw [if_neg h]; exact keyLe_refl b

theorem keyMax_eps {a b : BKey α} (ha : a.2 ≤ 1) (hb : b.2 ≤ 1) : (keyMax a b).2 ≤ 1 := by
  rcases keyMax_cases a b with h | h <;> rw [h] <;> assumption

theorem keyMin_eps {a b : BKey α} (ha : a.2 ≤ 1) (hb : b.2 ≤ 1) : (keyMin a b).2 ≤ 1 := by
  unfold keyMin
  by_cases h : keyLt a b <;> simp [h] <;> assumption

/-- Sorting order for the normalization of an interval list: by opening key. -/
def ivLe (J K : RInterval α) : Prop := keyLe J.oKey K.oKey

instance (J K : RInterval α) : Decidable (ivLe J K) :=
  inferInstanceAs (Decidable (keyLe J.oKey K.oKey))

instance : IsTotal (RInterval α) ivLe :=
  ⟨fun J K => keyLe_total J.oKey K.oKey⟩

instance : IsTrans (RInterval α) ivLe :=
  ⟨fun _ _ _ h1 h2 => keyLe_trans h1 h2⟩

/-- Coalescing pass over intervals sorted by opening key.  The accumulator
`(o, c)` is the pending merged interval; an interval opening at or before `c`
is merged, otherwise the pending interval is emitted. -/
def coalesceGo : List (RInterval α) → BKey α × BKey α → List (RInterval α)
  | [], oc => [fromKeys oc.1 oc.2]
  | J :: rest, oc =>
    if keyLe J.oKey oc.2 then coalesceGo rest (oc.1, keyMax oc.2 J.cKey)
    else fromKeys oc.1 oc.2 :: coalesceGo rest (J.oKey, J.cKey)

/-- Modelled from the spec: normalization of an interval list into the
canonical form used by the external interval-set service (`RealSet`
construction and union, §2 "Interval-Set Service", §6 "union").  Empty
intervals are dropped, the rest are sorted by opening key and
overlapping-or-touching intervals are coalesced, yielding the unique
normalized (sorted, separated) representation of the union. -/
def normalizeIv (l : List (RInterval α)) : List (RInterval α) :=
  match List.insertionSort ivLe (l.filter fun J => decide J.NE) with
  | [] => []
  | J :: rest => coalesceGo rest (J.oKey, J.cKey)

/-- Modelled from the spec: the union of finitely many real sets
(`RealSet.union_of_realsets` / `RealSet().union`), via normalization. -/
def unionAll (ls : List (List (RInterval α))) : List (RInterval α) :=
  normalizeIv ls.flatten

/-- Invariant facts returned by `coalesceGo`: well-formed output whose head
opens at the pending key, with membership the union of the pending segment
and the input intervals. -/
theorem coalesceGo_spec : ∀ (rest : List (RInterval α)) (o c : BKey α),
    keyLt o c → o.2 ≤ 1 → c.2 ≤ 1 →
    (∀ J ∈ rest, J.NE) →
    (∀ J ∈ rest, keyLe o J.oKey) →
    List.Pairwise ivLe rest →
    (∀ y, rsMem (coalesceGo rest (o, c)) y ↔
      ((¬ Before o y ∧ Before c y) ∨ ∃ J ∈ rest, J.Mem y)) ∧
    RSetWF (coalesceGo rest (o, c)) ∧
    (∃ hd tl, coalesceGo rest (o, c) = hd :: tl ∧ hd.oKey = o) := by
  intro rest
  induction rest with
  | nil =>
    intro o c hoc ho hc _ _ _
    have hstep : coalesceGo [] (o, c) = [fromKeys o c] := by simp [coalesceGo]
    refine ⟨?_, ?_, ?_⟩
    · intro y
      rw [hstep]
      unfold rsMem
      constructor
      · rintro ⟨K, hK, hKy⟩
        rw [List.mem_singleton] at hK
        subst hK
        rw [RInterval.mem_iff_keys, fromKeys_oKey ho, fromKeys_cKey hc] at hKy
        exact Or.inl hKy
      · rintro (⟨h1, h2⟩ | ⟨K, hK, _⟩)
        · refine ⟨fromKeys o c, by simp, ?_⟩
          rw [RInterval.mem_iff_keys, fromKeys_oKey ho, fromKeys_cKey hc]
          exact ⟨h1, h2⟩
        · simp at hK
    · rw [hstep]
      constructor
      · intro K hK
        rw [List.mem_singleton] at hK
        subst hK
        unfold RInterval.NE
        rw [fromKeys_oKey ho, fromKeys_cKey hc]
        exact hoc
      · simp
    · exact ⟨_, _, hstep, fromKeys_oKey ho⟩
  | cons J rest ih =>
    intro o c hoc ho hc hne hsorted hpair
    have hJNE : J.NE := hne J (by simp)
    have hJo : keyLe o J.oKey := hsorted J (by simp)
    have hJrest : ∀ K ∈ rest, keyLe J.oKey K.oKey := by
      intro K hK
      exact (List.pairwise_cons.mp hpair).1 K hK
    have hpair2 : List.Pairwise ivLe rest := (List.pairwise_cons.mp hpair).2
    have hne2 : ∀ K ∈ rest, K.NE := fun K hK => hne K (by simp [hK])
    by_cases hmerge : keyLe J.oKey c
    · -- merge J into the pending interval
      have hstep : coalesceGo (J :: rest) (o, c) =
          coalesceGo rest (o, keyMax c J.cKey) := by
        simp only [coalesceGo]
        rw [if_pos hmerge]
      have hoc2 : keyLt o (keyMax c J.cKey) :=
        keyLt_of_keyLt_of_keyLe hoc (keyMax_ge_left _ _)
      have hcm : (keyMax c J.cKey).2 ≤ 1 := keyMax_eps hc (cKey_eps J)
      have hsorted2 : ∀ K ∈ rest, keyLe o K.oKey := fun K hK =>
        keyLe_trans hJo (hJrest K hK)
      obtain ⟨hsem, hwf, hhead⟩ := ih o (keyMax c J.cKey) hoc2 ho hcm hne2 hsorted2 hpair2
      refine ⟨?_, hstep ▸ hwf, ?_⟩
      · intro y
        rw [hstep, hsem y]
        constructor
        · rintro (⟨h1, h2⟩ | h)
          · rcases keyMax_cases c J.cKey with hm | hm
            · exact Or.inl ⟨h1, hm ▸ h2⟩
            · by_cases hcy : Before c y
              · exact Or.inl ⟨h1, hcy⟩
              · refine Or.inr ⟨J, by simp, (J.mem_iff_keys y).mpr
                  ⟨not_Before_mono hmerge hcy, hm ▸ h2⟩⟩
          · obtain ⟨K, hK, hKy⟩ := h
            exact Or.inr ⟨K, by simp [hK], hKy⟩
        · rintro (⟨h1, h2⟩ | ⟨K, hK, hKy⟩)
          · exact Or.inl ⟨h1, Before_mono (keyMax_ge_left _ _) h2⟩
          · rcases List.mem_cons.mp hK with hKJ | hKrest
            · subst hKJ
              rw [RInterval.mem_iff_keys] at hKy
              exact Or.inl ⟨not_Before_mono hJo hKy.1,
                Before_mono (keyMax_ge_right _ _) hKy.2⟩
            · exact Or.inr ⟨K, hKrest, hKy⟩
      · rw [hstep]
        exact hhead
    · -- emit the pending interval and restart from J
      have hlt : keyLt c J.oKey := not_keyLe_iff.mp hmerge
      have hstep : coalesceGo (J :: rest) (o, c) =
          fromKeys o c :: coalesceGo rest (J.oKey, J.cKey) := by
        simp only [coalesceGo]
        rw [if_neg hmerge]
      obtain ⟨hsem, hwf, hhead⟩ := ih J.oKey J.cKey hJNE (oKey_eps J) (cKey_eps J)
        hne2 hJrest hpair2
      refine ⟨?_, ?_, ?_⟩
      · intro y
        rw [hstep]
        unfold rsMem
        constructor
        · rintro ⟨K, hK, hKy⟩
          rcases List.mem_cons.mp hK with hK1 | hK2
          · subst hK1
            rw [RInterval.mem_iff_keys, fromKeys_oKey ho, fromKeys_cKey hc] at hKy
            exact Or.inl hKy
          · rcases (hsem y).mp ⟨K, hK2, hKy⟩ with h | ⟨K2, hK2b, hK2y⟩
            · exact Or.inr ⟨J, by simp, (J.mem_iff_keys y).mpr h⟩
            · exact Or.inr ⟨K2, by simp [hK2b], hK2y⟩
        · rintro (⟨h1, h2⟩ | ⟨K, hK, hKy⟩)
          · refine ⟨fromKeys o c, by simp, ?_⟩
            rw [RInterval.mem_iff_keys, fromKeys_oKey ho, fromKeys_cKey hc]
            exact ⟨h1, h2⟩
          · rcases List.mem_cons.mp hK with hK1 | hK2
            · rw [hK1] at hKy
              obtain ⟨K2, hK2b, hy2⟩ :=
                (hsem y).mpr (Or.inl ((RInterval.mem_iff_keys J y).mp hKy))
              exact ⟨K2, by simp [hK2b], hy2⟩
            · obtain ⟨K2, hK2b, hy2⟩ := (hsem y).mpr (Or.inr ⟨K, hK2, hKy⟩)
              exact ⟨K2, by simp [hK2b], hy2⟩
      · rw [hstep]
        obtain ⟨hd, tl, heq, hho⟩ := hhead
        constructor
        · intro K hK
          rcases List.mem_cons.mp hK with h | h
          · subst h
            unfold RInterval.NE
            rw [fromKeys_oKey ho, fromKeys_cKey hc]
            exact hoc
          · exact hwf.1 K h
        · rw [heq]
          rw [List.chain'_cons]
          refine ⟨?_, heq ▸ hwf.2⟩
          rw [fromKeys_cKey hc, hho]
          exact hlt
      · exact ⟨fromKeys o c, _, hstep, fromKeys_oKey ho⟩


/-- Correctness of normalization: membership is preserved and the result is a
well-formed (normalized) real set. -/
theorem normalizeIv_spec (l : List (RInterval α)) :
    (∀ y, rsMem (normalizeIv l) y ↔ ∃ J ∈ l, J.Mem y) ∧ RSetWF (normalizeIv l) := by
  unfold normalizeIv
  have hperm : List.Perm (List.insertionSort ivLe (l.filter fun J => decide J.NE))
      (l.filter fun J => decide J.NE) := List.perm_insertionSort ivLe _
  have hsorted : List.Pairwise ivLe
      (List.insertionSort ivLe (l.filter fun J => decide J.NE)) :=
    List.sorted_insertionSort ivLe _
  have hmem_iff : ∀ y, (∃ J ∈ l, J.Mem y) ↔
      ∃ J ∈ List.insertionSort ivLe (l.filter fun J => decide J.NE), J.Mem y := by
    intro y
    constructor
    · rintro ⟨J, hJ, hy⟩
      refine ⟨J, ?_, hy⟩
      rw [hperm.mem_iff, List.mem_filter]
      exact ⟨hJ, decide_eq_true (NE_of_mem hy)⟩
    · rintro ⟨J, hJ, hy⟩
      rw [hperm.mem_iff, List.mem_filter] at hJ
      exact ⟨J, hJ.1, hy⟩
  cases hs : List.insertionSort ivLe (l.filter fun J => decide J.NE) with
  | nil =>
    constructor
    · intro y
      rw [hmem_iff y, hs]
      simp [rsMem]
    · exact ⟨by simp, by simp⟩
  | cons J rest =>
    have hallNE : ∀ K ∈ J :: rest, K.NE := by
      intro K hK
      rw [← hs, hperm.mem_iff, List.mem_filter] at hK
      exact of_decide_eq_true hK.2
    have hJNE : J.NE := hallNE J (by simp)
    rw [hs] at hsorted
    have hrest_le : ∀ K ∈ rest, keyLe J.oKey K.oKey :=
      fun K hK => (List.pairwise_cons.mp hsorted).1 K hK
    obtain ⟨hsem, hwf, _⟩ := coalesceGo_spec rest J.oKey J.cKey hJNE
      (oKey_eps J) (cKey_eps J) (fun K hK => hallNE K (by simp [hK]))
      hrest_le (List.pairwise_cons.mp hsorted).2
    constructor
    · intro y
      rw [hsem y, hmem_iff y, hs]
      rw [← RInterval.mem_iff_keys]
      constructor
      · rintro (h | ⟨K, hK, hy⟩)
        · exact ⟨J, by simp, h⟩
        · exact ⟨K, by simp [hK], hy⟩
      · rintro ⟨K, hK, hy⟩
        rcases List.mem_cons.mp hK with h | h
        · exact Or.inl (h ▸ hy)
        · exact Or.inr ⟨K, h, hy⟩
    · exact hwf

theorem unionAll_mem (ls : List (List (RInterval α))) (y : α) :
    rsMem (unionAll ls) y ↔ ∃ D ∈ ls, rsMem D y := by
  unfold unionAll
  rw [(normalizeIv_spec ls.flatten).1 y]
  constructor
  · rintro ⟨J, hJ, hy⟩
    rw [List.mem_flatten] at hJ
    obtain ⟨D, hD, hJD⟩ := hJ
    exact ⟨D, hD, J, hJD, hy⟩
  · rintro ⟨D, hD, J, hJD, hy⟩
    exact ⟨J, List.mem_flatten.mpr ⟨D, hD, hJD⟩, hy⟩

theorem unionAll_wf (ls : List (List (RInterval α))) : RSetWF (unionAll ls) :=
  (normalizeIv_spec ls.flatten).2

theorem RSetWF_tail {J : RInterval α} {l : List (RInterval α)} (h : RSetWF (J :: l)) :
    RSetWF l :=
  ⟨fun K hK => h.1 K (by simp [hK]), h.2.tail⟩

/-- In a well-formed set, every interval after the head opens strictly after
the head closes. -/
theorem RSetWF_head_lt {J : RInterval α} {l : List (RInterval α)}
    (h : RSetWF (J :: l)) : ∀ K ∈ l, keyLt J.cKey K.oKey := by
  induction l generalizing J with
  | nil => simp
  | cons K0 l ih =>
    intro K hK
    have h0 : keyLt J.cKey K0.oKey := List.chain'_cons.mp h.2 |>.1
    rcases List.mem_cons.mp hK with h1 | h1
    · exact h1 ▸ h0
    · have hK0NE : K0.NE := h.1 K0 (by simp)
      have htail : RSetWF (K0 :: l) := RSetWF_tail h
      exact keyLt_trans (keyLt_trans h0 hK0NE) (ih htail K h1)

theorem RSetWF_oKey_le {J : RInterval α} {l : List (RInterval α)}
    (h : RSetWF (J :: l)) : ∀ K ∈ J :: l, keyLe J.oKey K.oKey := by
  intro K hK
  rcases List.mem_cons.mp hK with h1 | h1
  · exact h1 ▸ keyLe_refl _
  · have hNE : J.NE := h.1 J (by simp)
    exact keyLe_of_keyLt (keyLt_trans hNE (RSetWF_head_lt h K h1))

/-- Two well-formed interval sets with the same members have the same head
opening key. -/
theorem wf_head_oKey_le [DenselyOrdered α] {J K : RInterval α}
    {D E : List (RInterval α)}
    (hD : RSetWF (J :: D)) (hE : RSetWF (K :: E))
    (hsem : ∀ y, rsMem (J :: D) y → rsMem (K :: E) y) : keyLe K.oKey J.oKey := by
  by_contra hlt
  rw [not_keyLe_iff] at hlt
  have hJNE : J.NE := hD.1 J (by simp)
  have hmin : keyLt J.oKey (keyMin J.cKey K.oKey) := by
    unfold keyMin
    by_cases h : keyLt J.cKey K.oKey
    · rw [if_pos h]; exact hJNE
    · rw [if_neg h]; exact hlt
  obtain ⟨y, hy1, hy2⟩ := mem_of_NE_keys (oKey_eps J)
    (keyMin_eps (cKey_eps J) (oKey_eps K)) hmin
  have hyJ : J.Mem y := (J.mem_iff_keys y).mpr
    ⟨hy1, Before_mono (keyMin_le_left _ _) hy2⟩
  obtain ⟨M, hM, hMy⟩ := hsem y ⟨J, by simp, hyJ⟩
  have hMo : keyLe K.oKey M.oKey := RSetWF_oKey_le hE M hM
  have hBy : Before M.oKey y :=
    Before_mono hMo (Before_mono (keyMin_le_right _ _) hy2)
  exact ((M.mem_iff_keys y).mp hMy).1 hBy

/-- Two well-formed interval sets with the same members and the same head
opening key have the same head closing key. -/
theorem wf_head_cKey_le [DenselyOrdered α] {J K : RInterval α}
    {D E : List (RInterval α)}
    (hD : RSetWF (J :: D)) (hE : RSetWF (K :: E))
    (ho : J.oKey = K.oKey)
    (hsem : ∀ y, rsMem (J :: D) y → rsMem (K :: E) y) : keyLe J.cKey K.cKey := by
  by_contra hlt
  rw [not_keyLe_iff] at hlt
  have hKNE : K.NE := hE.1 K (by simp)
  -- a point just after `K` closes, before `J` closes and before the next
  -- interval of `E` opens, belongs to `J :: D` but not to `K :: E`
  have hfinal : ∀ m : BKey α, keyLt K.cKey m → m.2 ≤ 1 → keyLe m J.cKey →
      (∀ M ∈ E, keyLe m M.oKey) → False := by
    intro m hm1 hm2 hm3 hm4
    obtain ⟨y, hy1, hy2⟩ := mem_of_NE_keys (cKey_eps K) hm2 hm1
    have hyJ : J.Mem y := by
      rw [RInterval.mem_iff_keys]
      refine ⟨?_, Before_mono hm3 hy2⟩
      have hJo : keyLe J.oKey K.cKey := ho ▸ keyLe_of_keyLt hKNE
      exact not_Before_mono hJo hy1
    obtain ⟨M, hM, hMy⟩ := hsem y ⟨J, by simp, hyJ⟩
    rcases List.mem_cons.mp hM with h1 | h1
    · rw [h1] at hMy
      exact hy1 ((K.mem_iff_keys y).mp hMy).2
    · exact ((M.mem_iff_keys y).mp hMy).1 (Before_mono (hm4 M h1) hy2)
  cases E with
  | nil => exact hfinal J.cKey hlt (cKey_eps J) (keyLe_refl _) (by simp)
  | cons M0 E' =>
    refine hfinal (keyMin J.cKey M0.oKey) ?_
      (keyMin_eps (cKey_eps J) (oKey_eps M0)) (keyMin_le_left _ _) ?_
    · unfold keyMin
      by_cases h : keyLt J.cKey M0.oKey
      · rw [if_pos h]; exact hlt
      · rw [if_neg h]; exact RSetWF_head_lt hE M0 (by simp)
    · intro M hM
      rcases List.mem_cons.mp hM with h1 | h1
      · exact h1 ▸ keyMin_le_right _ _
      · refine keyLe_trans (keyMin_le_right _ _) ?_
        have hM0NE : M0.NE := hE.1 M0 (by simp)
        exact keyLe_of_keyLt
          (keyLt_trans hM0NE (RSetWF_head_lt (RSetWF_tail hE) M h1))

/-- Canonicity: two well-formed (normalized) interval lists with the same
members are equal.  This is why sage's `RealSet` equality test coincides with
set equality. -/
theorem rs_canonical [DenselyOrdered α] :
    ∀ {D E : List (RInterval α)}, RSetWF D → RSetWF E →
    (∀ y, rsMem D y ↔ rsMem E y) → D = E := by
  intro D
  induction D with
  | nil =>
    intro E hD hE hsem
    cases E with
    | nil => rfl
    | cons K E' =>
      obtain ⟨y, hy⟩ := RInterval.mem_nonempty (hE.1 K (by simp))
      obtain ⟨M, hM, _⟩ := (hsem y).mpr ⟨K, by simp, hy⟩
      simp at hM
  | cons J D' ih =>
    intro E hD hE hsem
    cases E with
    | nil =>
      obtain ⟨y, hy⟩ := RInterval.mem_nonempty (hD.1 J (by simp))
      obtain ⟨M, hM, _⟩ := (hsem y).mp ⟨J, by simp, hy⟩
      simp at hM
    | cons K E' =>
      have ho : J.oKey = K.oKey :=
        keyLe_antisymm
          (wf_head_oKey_le hE hD fun y h => (hsem y).mpr h)
          (wf_head_oKey_le hD hE fun y h => (hsem y).mp h)
      have hc : J.cKey = K.cKey :=
        keyLe_antisymm
          (wf_head_cKey_le hD hE ho fun y h => (hsem y).mp h)
          (wf_head_cKey_le hE hD ho.symm fun y h => (hsem y).mpr h)
      have hJK : J = K := by
        rw [← fromKeys_keys_self J, ho, hc, fromKeys_keys_self K]
      subst hJK
      have hsem2 : ∀ y, rsMem D' y ↔ rsMem E' y := by
        have haux : ∀ (X Y : List (RInterval α)), RSetWF (J :: X) → RSetWF (J :: Y) →
            (∀ y, rsMem (J :: X) y → rsMem (J :: Y) y) →
            ∀ y, rsMem X y → rsMem Y y := by
          intro X Y hX hY hXY y hyX
          obtain ⟨M, hM, hMy⟩ := hyX
          have hnJ : ¬ Before J.cKey y := by
            have h1 : keyLt J.cKey M.oKey := RSetWF_head_lt hX M hM
            exact not_Before_mono (keyLe_of_keyLt h1) ((M.mem_iff_keys y).mp hMy).1
          obtain ⟨M', hM', hM'y⟩ := hXY y ⟨M, by simp [hM], hMy⟩
          rcases List.mem_cons.mp hM' with h1 | h1
          · subst h1
            exact absurd ((M'.mem_iff_keys y).mp hM'y).2 hnJ
          · exact ⟨M', h1, hM'y⟩
        intro y
        constructor
        · exact haux D' E' hD hE (fun y h => (hsem y).mp h) y
        · exact haux E' D' hE hD (fun y h => (hsem y).mpr h) y
      rw [ih (RSetWF_tail hD) (RSetWF_tail hE) hsem2]

/-- Modelled from the spec: the pairwise-disjointness test of the external
interval-set service (`RealSet.are_pairwise_disjoint`), deciding whether two
intervals share a point by comparing boundary keys. -/
def ivDisjB (J K : RInterval α) : Bool :=
  ! decide (keyLt (keyMax J.oKey K.oKey) (keyMin J.cKey K.cKey))

/-- Disjointness test for two real sets: no pair of component intervals
overlaps. -/
def rsDisjB (A B : List (RInterval α)) : Bool :=
  A.all fun J => B.all fun K => ivDisjB J K

/-- Modelled from the spec: `RealSet.are_pairwise_disjoint` over a collection
of real sets. -/
def are_pairwise_disjoint : List (List (RInterval α)) → Bool
  | [] => true
  | A :: rest => (rest.all fun B => rsDisjB A B) && are_pairwise_disjoint rest

theorem ivDisjB_sound {J K : RInterval α} (h : ivDisjB J K = true) :
    ∀ y, ¬ (J.Mem y ∧ K.Mem y) := by
  rintro y ⟨hJ, hK⟩
  unfold ivDisjB at h
  rw [Bool.not_eq_true', decide_eq_false_iff_not] at h
  rw [RInterval.mem_iff_keys] at hJ hK
  refine h (@keyLt_of_between α _ _ _ y ?_ ?_)
  · rcases keyMax_cases J.oKey K.oKey with hm | hm <;> rw [hm]
    · exact hJ.1
    · exact hK.1
  · unfold keyMin
    by_cases hlt : keyLt J.cKey K.cKey
    · rw [if_pos hlt]; exact hJ.2
    · rw [if_neg hlt]; exact hK.2

theorem ivDisjB_complete [DenselyOrdered α] {J K : RInterval α}
    (h : ∀ y, ¬ (J.Mem y ∧ K.Mem y)) : ivDisjB J K = true := by
  unfold ivDisjB
  rw [Bool.not_eq_true', decide_eq_false_iff_not]
  intro hlt
  obtain ⟨y, hy1, hy2⟩ := mem_of_NE_keys
    (keyMax_eps (oKey_eps J) (oKey_eps K)) (keyMin_eps (cKey_eps J) (cKey_eps K)) hlt
  refine h y ⟨(J.mem_iff_keys y).mpr ⟨?_, ?_⟩, (K.mem_iff_keys y).mpr ⟨?_, ?_⟩⟩
  · exact not_Before_mono (keyMax_ge_left _ _) hy1
  · exact Before_mono (keyMin_le_left _ _) hy2
  · exact not_Before_mono (keyMax_ge_right _ _) hy1
  · exact Before_mono (keyMin_le_right _ _) hy2

theorem rsDisjB_sound {A B : List (RInterval α)} (h : rsDisjB A B = true) :
    ∀ y, ¬ (rsMem A y ∧ rsMem B y) := by
  rintro y ⟨⟨J, hJ, hJy⟩, ⟨K, hK, hKy⟩⟩
  unfold rsDisjB at h
  rw [List.all_eq_true] at h
  have h2 := h J hJ
  rw [List.all_eq_true] at h2
  exact ivDisjB_sound (h2 K hK) y ⟨hJy, hKy⟩

theorem are_pairwise_disjoint_sound :
    ∀ {ls : List (List (RInterval α))}, are_pairwise_disjoint ls = true →
    ls.Pairwise fun A B => ∀ y, ¬ (rsMem A y ∧ rsMem B y) := by
  intro ls
  induction ls with
  | nil => intro _; simp
  | cons A rest ih =>
    intro h
    unfold are_pairwise_disjoint at h
    rw [Bool.and_eq_true] at h
    rw [List.pairwise_cons]
    refine ⟨?_, ih h.2⟩
    intro B hB
    have := h.1
    rw [List.all_eq_true] at this
    exact rsDisjB_sound (this B hB)

end RealSetService

section PolyLayer

/-!
Concrete polynomial arithmetic over `ℚ`, as dense little-endian coefficient
lists with no trailing zero (the canonical dense representation used by the
polynomial service).  The primitive rational operations are wrapped in
`mkRat`-based functions because the core `Rat` operations are `irreducible`,
which would block kernel evaluation of witnesses.
-/

/-- Rational addition through `mkRat` (kernel-reducible). -/
def qadd (a b : ℚ) : ℚ := mkRat (a.num * (b.den : ℤ) + b.num * (a.den : ℤ)) (a.den * b.den)

/-- Rational multiplication through `mkRat` (kernel-reducible). -/
def qmul (a b : ℚ) : ℚ := mkRat (a.num * b.num) (a.den * b.den)

/-- Rational negation through `mkRat` (kernel-reducible). -/
def qneg (a : ℚ) : ℚ := mkRat (- a.num) a.den

theorem qadd_eq (a b : ℚ) : qadd a b = a + b := by
  unfold qadd
  rw [Rat.mkRat_eq_div]
  push_cast
  conv_rhs => rw [← Rat.num_div_den a, ← Rat.num_div_den b]
  have ha : (a.den : ℚ) ≠ 0 := by positivity
  have hb : (b.den : ℚ) ≠ 0 := by positivity
  field_simp

theorem qmul_eq (a b : ℚ) : qmul a b = a * b := by
  unfold qmul
  rw [Rat.mkRat_eq_div]
  push_cast
  conv_rhs => rw [← Rat.num_div_den a, ← Rat.num_div_den b]
  have ha : (a.den : ℚ) ≠ 0 := by positivity
  have hb : (b.den : ℚ) ≠ 0 := by positivity
  field_simp

theorem qneg_eq (a : ℚ) : qneg a = - a := by
  unfold qneg
  rw [Rat.mkRat_eq_div]
  push_cast
  conv_rhs => rw [← Rat.num_div_den a]
  ring

/-- Drop trailing zero coefficients, producing the canonical dense
representation. -/
def trimP : List ℚ → List ℚ
  | [] => []
  | a :: t =>
    match trimP t with
    | [] => if a = 0 then [] else [a]
    | b :: t2 => a :: b :: t2

/-- Horner evaluation of a coefficient list at a point. -/
def evalP (l : List ℚ) (x : ℚ) : ℚ := l.foldr (fun a acc => qadd a (qmul x acc)) 0

/-- Coefficientwise sum (no trimming). -/
def polyAddRaw : List ℚ → List ℚ → List ℚ
  | [], q => q
  | p, [] => p
  | a :: p, b :: q => qadd a b :: polyAddRaw p q

/-- Polynomial sum. -/
def polyAdd (p q : List ℚ) : List ℚ := trimP (polyAddRaw p q)

/-- Polynomial negation. -/
def polyNeg (p : List ℚ) : List ℚ := trimP (p.map qneg)

/-- Polynomial product (convolution). -/
def polyMulRaw : List ℚ → List ℚ → List ℚ
  | [], _ => []
  | a :: p, q => polyAddRaw (q.map (qmul a)) (0 :: polyMulRaw p q)

/-- Polynomial product. -/
def polyMul (p q : List ℚ) : List ℚ := trimP (polyMulRaw p q)

/-- Polynomial integer power. -/
def polyPow (p : List ℚ) : ℕ → List ℚ
  | 0 => [1]
  | n + 1 => polyMul p (polyPow p n)

/-- Constant polynomial. -/
def polyConst (c : ℚ) : List ℚ := trimP [c]

theorem evalP_nil (x : ℚ) : evalP [] x = 0 := rfl

theorem evalP_cons (a : ℚ) (t : List ℚ) (x : ℚ) :
    evalP (a :: t) x = a + x * evalP t x := by
  show qadd a (qmul x (evalP t x)) = _
  rw [qadd_eq, qmul_eq]

theorem evalP_eq_zero_of_trimP_nil {t : List ℚ} (h : trimP t = []) (x : ℚ) :
    evalP t x = 0 := by
  induction t with
  | nil => rfl
  | cons a t ih =>
    unfold trimP at h
    rcases ht : trimP t with _ | ⟨b, t2⟩
    · rw [ht] at h
      by_cases ha : a = 0
      · rw [evalP_cons, ih ht, ha]
        ring
      · rw [if_neg ha] at h
        simp at h
    · rw [ht] at h
      simp at h

theorem evalP_trimP (l : List ℚ) (x : ℚ) : evalP (trimP l) x = evalP l x := by
  induction l with
  | nil => rfl
  | cons a t ih =>
    unfold trimP
    rcases ht : trimP t with _ | ⟨b, t2⟩
    · by_cases ha : a = 0
      · rw [if_pos ha, evalP_cons, evalP_eq_zero_of_trimP_nil ht, ha]
        show (0:ℚ) = 0 + x * 0
        ring
      · rw [if_neg ha, evalP_cons, evalP_cons, evalP_eq_zero_of_trimP_nil ht]
        rw [← ht, ih]
        rw [evalP_eq_zero_of_trimP_nil ht]
    · rw [evalP_cons, evalP_cons, ← evalP_cons b t2 x, ← ht, ih, evalP_cons]

theorem polyAddRaw_nil_left (q : List ℚ) : polyAddRaw [] q = q := by
  cases q <;> rfl

theorem polyAddRaw_nil_right (p : List ℚ) : polyAddRaw p [] = p := by
  cases p <;> rfl

theorem polyAddRaw_cons (a b : ℚ) (p q : List ℚ) :
    polyAddRaw (a :: p) (b :: q) = qadd a b :: polyAddRaw p q := rfl

theorem evalP_addRaw (p q : List ℚ) (x : ℚ) :
    evalP (polyAddRaw p q) x = evalP p x + evalP q x := by
  induction p generalizing q with
  | nil =>
    rw [polyAddRaw_nil_left, evalP_nil]
    ring
  | cons a p ih =>
    cases q with
    | nil =>
      rw [polyAddRaw_nil_right, evalP_nil]
      ring
    | cons b q =>
      rw [polyAddRaw_cons, evalP_cons, evalP_cons, evalP_cons, ih q, qadd_eq]
      ring

theorem evalP_add (p q : List ℚ) (x : ℚ) :
    evalP (polyAdd p q) x = evalP p x + evalP q x := by
  rw [polyAdd, evalP_trimP, evalP_addRaw]

theorem evalP_neg (p : List ℚ) (x : ℚ) : evalP (polyNeg p) x = - evalP p x := by
  rw [polyNeg, evalP_trimP]
  induction p with
  | nil => simp [evalP_nil]
  | cons a t ih =>
    rw [List.map_cons, evalP_cons, evalP_cons, ih, qneg_eq]
    ring

theorem evalP_map_qmul (c : ℚ) (p : List ℚ) (x : ℚ) :
    evalP (p.map (qmul c)) x = c * evalP p x := by
  induction p with
  | nil => simp [evalP_nil]
  | cons a t ih =>
    rw [List.map_cons, evalP_cons, evalP_cons, ih, qmul_eq]
    ring

theorem evalP_mulRaw (p q : List ℚ) (x : ℚ) :
    evalP (polyMulRaw p q) x = evalP p x * evalP q x := by
  induction p with
  | nil => simp [polyMulRaw, evalP_nil]
  | cons a p ih =>
    show evalP (polyAddRaw (q.map (qmul a)) (0 :: polyMulRaw p q)) x = _
    rw [evalP_addRaw, evalP_map_qmul, evalP_cons, ih, evalP_cons]
    ring

theorem evalP_mul (p q : List ℚ) (x : ℚ) :
    evalP (polyMul p q) x = evalP p x * evalP q x := by
  rw [polyMul, evalP_trimP, evalP_mulRaw]

theorem evalP_pow (p : List ℚ) (n : ℕ) (x : ℚ) :
    evalP (polyPow p n) x = (evalP p x) ^ n := by
  induction n with
  | zero =>
    show evalP [1] x = _
    rw [evalP_cons, evalP_nil]
    ring
  | succ n ih =>
    show evalP (polyMul p (polyPow p n)) x = _
    rw [evalP_mul, ih]
    ring

theorem evalP_const (c : ℚ) (x : ℚ) : evalP (polyConst c) x = c := by
  rw [polyConst, evalP_trimP, evalP_cons, evalP_nil]
  ring

/-- Canonical (trimmed) coefficient lists. -/
def Trimmed (l : List ℚ) : Prop := trimP l = l

instance (l : List ℚ) : Decidable (Trimmed l) :=
  inferInstanceAs (Decidable (trimP l = l))

theorem trimP_getLast (l : List ℚ) :
    trimP l = [] ∨ ∃ c, (trimP l).getLast? = some c ∧ c ≠ 0 := by
  induction l with
  | nil => exact Or.inl rfl
  | cons a t ih =>
    unfold trimP
    rcases ht : trimP t with _ | ⟨b, t2⟩
    · by_cases ha : a = 0
      · rw [if_pos ha]
        exact Or.inl rfl
      · rw [if_neg ha]
        exact Or.inr ⟨a, rfl, ha⟩
    · rcases ih with h | ⟨c, hc, hc0⟩
      · rw [h] at ht; simp at ht
      · refine Or.inr ⟨c, ?_, hc0⟩
        rw [ht] at hc
        rw [List.getLast?_cons_cons]
        exact hc

theorem trimP_of_getLast {l : List ℚ} {c : ℚ} (h : l.getLast? = some c)
    (hc : c ≠ 0) : trimP l = l := by
  induction l with
  | nil => simp at h
  | cons a t ih =>
    cases t with
    | nil =>
      simp at h
      unfold trimP
      rw [show trimP [] = ([] : List ℚ) from rfl, if_neg (h ▸ hc)]
    | cons b t2 =>
      rw [List.getLast?_cons_cons] at h
      have h2 := ih h
      unfold trimP
      rw [h2]

theorem trimP_trimP (l : List ℚ) : trimP (trimP l) = trimP l := by
  rcases trimP_getLast l with h | ⟨c, hc, hc0⟩
  · rw [h]; rfl
  · exact trimP_of_getLast hc hc0

theorem trimmed_ops_add (p q : List ℚ) : Trimmed (polyAdd p q) := trimP_trimP _

theorem trimmed_ops_neg (p : List ℚ) : Trimmed (polyNeg p) := trimP_trimP _

theorem trimmed_ops_mul (p q : List ℚ) : Trimmed (polyMul p q) := trimP_trimP _

theorem trimmed_ops_pow (p : List ℚ) (n : ℕ) : Trimmed (polyPow p n) := by
  cases n with
  | zero => rfl
  | succ n => exact trimP_trimP _

theorem trimmed_const (c : ℚ) : Trimmed (polyConst c) := trimP_trimP _

theorem trimmed_cons {a : ℚ} {t : List ℚ} (h : Trimmed (a :: t)) :
    Trimmed t ∧ (t = [] → a ≠ 0) := by
  unfold Trimmed at h ⊢
  unfold trimP at h
  rcases ht : trimP t with _ | ⟨b, t2⟩
  · rw [ht] at h
    by_cases ha : a = 0
    · rw [if_pos ha] at h
      simp at h
    · rw [if_neg ha] at h
      simp at h
      refine ⟨?_, fun _ => ha⟩
      rw [h]
  · rw [ht] at h
    simp at h
    refine ⟨h, fun ht0 => ?_⟩
    rw [ht0] at ht
    simp [trimP] at ht

/-- Bridge to mathlib polynomials, for root-counting arguments. -/
noncomputable def toPoly (l : List ℚ) : Polynomial ℚ :=
  l.foldr (fun a p => Polynomial.C a + Polynomial.X * p) 0

theorem toPoly_eval (l : List ℚ) (x : ℚ) : (toPoly l).eval x = evalP l x := by
  induction l with
  | nil => simp [toPoly, evalP_nil]
  | cons a t ih =>
    show (Polynomial.C a + Polynomial.X * toPoly t).eval x = _
    rw [evalP_cons]
    simp [ih]

theorem toPoly_ne_zero : ∀ {l : List ℚ}, Trimmed l → l ≠ [] → toPoly l ≠ 0 := by
  intro l
  induction l with
  | nil => intro _ h; exact absurd rfl h
  | cons a t ih =>
    intro htr _
    obtain ⟨htt, hta⟩ := trimmed_cons htr
    cases t with
    | nil =>
      show Polynomial.C a + Polynomial.X * toPoly [] ≠ 0
      have : toPoly ([] : List ℚ) = 0 := rfl
      rw [this, mul_zero, add_zero]
      exact Polynomial.C_ne_zero.mpr (hta rfl)
    | cons b t2 =>
      have hne : toPoly (b :: t2) ≠ 0 := ih htt (by simp)
      show Polynomial.C a + Polynomial.X * toPoly (b :: t2) ≠ 0
      intro h0
      have hc := congrArg
        (fun q => Polynomial.coeff q ((toPoly (b :: t2)).natDegree + 1)) h0
      simp only [Polynomial.coeff_add, Polynomial.coeff_C, Polynomial.coeff_X_mul,
        Polynomial.coeff_zero] at hc
      rw [if_neg (by omega)] at hc
      rw [zero_add] at hc
      exact Polynomial.leadingCoeff_ne_zero.mpr hne hc

/-- A canonical coefficient list vanishing on an infinite set of points is the
zero polynomial `[]`. -/
theorem trimmed_eq_nil_of_infinite_zeros {l : List ℚ} (htr : Trimmed l)
    (h : {x : ℚ | evalP l x = 0}.Infinite) : l = [] := by
  by_contra hne
  have h1 : toPoly l ≠ 0 := toPoly_ne_zero htr hne
  have h2 : {x : ℚ | (toPoly l).IsRoot x}.Infinite := by
    refine h.mono ?_
    intro x hx
    show (toPoly l).eval x = 0
    rw [toPoly_eval]
    exact hx
  exact h1 (Polynomial.eq_zero_of_infinite_isRoot _ h2)

/-- A nonempty, non-degenerate interval over `ℚ` has infinitely many
members. -/
theorem rint_infinite_mem {J : RInterval ℚ} (hNE : J.NE)
    (hnp : J.lower ≠ J.upper) : {y : ℚ | J.Mem y}.Infinite := by
  have hlt : J.lower < J.upper := by
    rcases hNE with h | ⟨h, _⟩
    · exact h
    · exact absurd h hnp
  have hIoo : Set.Ioo J.lower J.upper ⊆ {y : ℚ | J.Mem y} := by
    intro y hy
    exact ⟨Or.inl hy.1, Or.inl hy.2⟩
  have : (Set.Ioo J.lower J.upper).Infinite := by
    rw [← Set.infinite_coe_iff]
    exact Set.Ioo.infinite hlt
  exact this.mono hIoo

/-- A polynomial value of the function service: a coefficient list together
with the name of its (single) free variable, mirroring sage polynomials which
carry their parent ring's variable. -/
structure PolyF where
  coeffs : List ℚ
  var : String
deriving DecidableEq, Repr

/-- Evaluation of a polynomial service value. -/
def PolyF.evalAt (f : PolyF) (x : ℚ) : ℚ := evalP f.coeffs x

end PolyLayer

section PiecewiseLayer

/-- A real set over `ℚ` as used by the piecewise layer. -/
abbrev RS := List (RInterval ℚ)

/-- The errors signalled by the piecewise container (all `ValueError` in the
source, distinguished here by the raise site). -/
inductive PWErr where
  | inconsistentVariable
  | overlappingDomains
  | domainMismatch
  | invalidArity
deriving DecidableEq, Repr

/-- Embedding of the `PiecewiseFunction` container: the ordered piece domains
and functions, the bound variable (None until the first piece is seen), and
the support computed at construction. -/
structure PiecewiseFunction where
  domain_list : List RS
  func_list : List PolyF
  var : Option String
  support : RS
deriving DecidableEq, Repr

/-- Intermediate state of the constructor loop over the input pieces. -/
structure BuildState where
  domain_list : List RS
  func_list : List PolyF
  var : Option String
  dict : List (PolyF × ℕ)
deriving Repr

/-- Lookup in the constructor's coalescing dictionary `p` (func to index). -/
def dictFind (d : List (PolyF × ℕ)) (f : PolyF) : Option ℕ :=
  (d.find? fun pr => pr.1 == f).map Prod.snd

/-- Constructor handling of one single-point interval component: evaluate the
function there, coalesce with an existing piece keyed by the resulting
constant (`value + 0*func`), or start a new piece `RealSet(interval)`. -/
def addPointPiece (st : BuildState) (J : RInterval ℚ) (fc : PolyF) : BuildState :=
  match dictFind st.dict fc with
  | some i =>
      { st with domain_list :=
          st.domain_list.set i (unionAll [st.domain_list.getD i [], [J]]) }
  | none =>
      { st with domain_list := st.domain_list ++ [[J]],
                func_list := st.func_list ++ [fc],
                dict := st.dict ++ [(fc, st.domain_list.length)] }

/-- Constructor handling of the non-point components of one piece: coalesce by
function identity with an existing piece, or start a new piece from their
union. -/
def addNonPointPieces (st : BuildState) (nps : RS) (f : PolyF) : BuildState :=
  match dictFind st.dict f with
  | some i =>
      { st with domain_list :=
          st.domain_list.set i (unionAll [st.domain_list.getD i [], nps]) }
  | none =>
      { st with domain_list := st.domain_list ++ [unionAll [nps]],
                func_list := st.func_list ++ [f],
                dict := st.dict ++ [(f, st.domain_list.length)] }

/-- The per-piece constructor body after the variable check: split the
domain's intervals into point and non-point components and coalesce them
into the state. -/
def processPieceBody (st : BuildState) (piece : RS × PolyF) : BuildState :=
  if (piece.1.filter fun J => ! (J.lower == J.upper)).isEmpty
  then (piece.1.filter fun J => J.lower == J.upper).foldl
    (fun s J => addPointPiece s J
      ⟨polyConst (evalP piece.2.coeffs J.lower), piece.2.var⟩) st
  else addNonPointPieces
    ((piece.1.filter fun J => J.lower == J.upper).foldl
      (fun s J => addPointPiece s J
        ⟨polyConst (evalP piece.2.coeffs J.lower), piece.2.var⟩) st)
    (piece.1.filter fun J => ! (J.lower == J.upper)) piece.2

/-- Constructor processing of one `(domain, func)` input piece: skip empty
domains, check variable consistency, split the domain's intervals into point
and non-point components and coalesce them into the state. -/
def processPiece (st : BuildState) (piece : RS × PolyF) : Except PWErr BuildState :=
  if piece.1.isEmpty then Except.ok st
  else
    match st.var with
    | none => Except.ok (processPieceBody { st with var := some piece.2.var } piece)
    | some v =>
      if piece.2.var = v then Except.ok (processPieceBody st piece)
      else Except.error PWErr.inconsistentVariable

/-- Embedding of the `PiecewiseFunction` constructor `__init__`: process the
input pieces, check pairwise disjointness of the coalesced domain list
(raising `OverlappingDomains` on failure), and compute the support. -/
def mkPiecewise (pieces : List (RS × PolyF)) : Except PWErr PiecewiseFunction := do
  let st ← pieces.foldlM processPiece ⟨[], [], none, []⟩
  if are_pairwise_disjoint st.domain_list then
    return ⟨st.domain_list, st.func_list, st.var, unionAll st.domain_list⟩
  else
    throw PWErr.overlappingDomains

/-- Python's `str(self.var)`: the variable name, or the string "None". -/
def varName (p : PiecewiseFunction) : String :=
  match p.var with
  | some v => v
  | none => "None"

/-- Linear scan of `__call__`: the value of the first piece whose domain
contains the point, `None` (with a printed warning) otherwise. -/
def pwEvalAt (p : PiecewiseFunction) (val : ℚ) : Option ℚ :=
  (List.zip p.domain_list p.func_list).findSome? fun df =>
    if rsMem df.1 val then some (evalP df.2.coeffs val) else none

/-- Embedding of `__call__`: argument handling (one positional value, or a
keyword value for the bound variable; extra keyword values beyond the bound
variable only produce a printed warning), then evaluation. -/
def pwCall (p : PiecewiseFunction) (args : List ℚ) (kwds : List (String × ℚ)) :
    Except PWErr (Option ℚ) :=
  match args with
  | [v] => if kwds.length > 0 then throw PWErr.invalidArity else pure (pwEvalAt p v)
  | [] =>
    match kwds.lookup (varName p) with
    | some v => pure (pwEvalAt p v)
    | none => throw PWErr.invalidArity
  | _ => throw PWErr.invalidArity

/-- Entry of the endpoint table `_end_points[x] = [val, [limLeft, limRight]]`
(the source's `is_continuous` unpacks the inner pair as `left, right`). -/
structure EPEntry where
  val : Option ℚ
  limLeft : Option ℚ
  limRight : Option ℚ
deriving DecidableEq, Repr

/-- Empty endpoint entry `[None, [None, None]]`. -/
def epDefault : EPEntry := ⟨none, none, none⟩

/-- Insertion-ordered dictionary update, as in the Python dict. -/
def epUpdate (t : List (ℚ × EPEntry)) (x : ℚ) (g : EPEntry → EPEntry) :
    List (ℚ × EPEntry) :=
  match t with
  | [] => [(x, g epDefault)]
  | (x0, e0) :: rest =>
    if x0 = x then (x0, g e0) :: rest else (x0, e0) :: epUpdate rest x g

/-- Modelled from the spec: `RealSet._scan()` of the external interval-set
service, which is not part of the given sources.  Section 4.2 specifies that
it scans a domain's boundary events "(open/closed, lower/upper) in the
canonical order (point, closed-before-open-for-lower, point,
closed-after-open-for-upper)", i.e. a lower boundary carries
`epsilon = 1 - lower_closed` and an upper boundary `epsilon = upper_closed`.
The sign of the `delta` tag distinguishing the two boundary kinds is fixed by
the source itself: the expected endpoint tables in the doctests of
`_init_end_points`, `limits` and `is_continuous_defined` (for example
`{0: [1, [None, 1]], 1: [0, [0, None]], ...}` for `1 - t` on
`[0, 1] ∪ [4, 5]`) force lower boundaries to carry `delta = -1` and upper
boundaries `delta = +1` — the comment "this delta is from RealSet._scan()" in
`_init_end_points` flags exactly this difference from `_iterator`. -/
def scanRS (D : RS) : List ((ℚ × ℕ) × ℤ) :=
  D.flatMap fun J =>
    [((J.lower, if J.lower_closed then 0 else 1), -1),
     ((J.upper, if J.upper_closed then 1 else 0), 1)]

/-- Embedding of `_init_end_points`: build the endpoint table by scanning each
piece's boundary events.  For `delta < 0` the function value is recorded in
slot `[1][1]` (the `right` of `is_continuous`), and into the value slot when
`epsilon == 0`; otherwise in slot `[1][0]` (`left`), and into the value slot
when `epsilon == 1`. -/
def init_end_points (p : PiecewiseFunction) : List (ℚ × EPEntry) :=
  (List.zip p.domain_list p.func_list).foldl
    (fun t df =>
      (scanRS df.1).foldl
        (fun t ev =>
          let x := ev.1.1
          let eps := ev.1.2
          let fv := evalP df.2.coeffs x
          if ev.2 < 0 then
            epUpdate t x fun e =>
              ⟨if eps = 0 then some fv else e.val, e.limLeft, some fv⟩
          else
            epUpdate t x fun e =>
              ⟨if eps = 1 then some fv else e.val, some fv, e.limRight⟩)
        t)
    []

/-- The sorted event list `_end_points_list` (built from `_iterator`). -/
def end_points_list (p : PiecewiseFunction) : List (SwEvent ℚ) :=
  sortedEvents p.domain_list

/-- Embedding of `is_continuous`: every endpoint with a truthy value (Python
`if val:` skips both `None` and `0`) must agree with its recorded adjacent
limits. -/
def is_continuous (p : PiecewiseFunction) : Bool :=
  (init_end_points p).all fun xe =>
    match xe.2.val with
    | none => true
    | some v =>
      if v = 0 then true
      else ! ((xe.2.limLeft.any fun l => decide (l ≠ v)) ||
              (xe.2.limRight.any fun r => decide (r ≠ v)))

/-- Strict Python tuple order on events, used by `bisect_left`. -/
def evLt (a b : SwEvent ℚ) : Prop :=
  keyLt a.key b.key ∨
    (a.key = b.key ∧ (a.delta < b.delta ∨ (a.delta = b.delta ∧ a.sid < b.sid)))

instance (a b : SwEvent ℚ) : Decidable (evLt a b) :=
  inferInstanceAs (Decidable (keyLt a.key b.key ∨
    (a.key = b.key ∧ (a.delta < b.delta ∨ (a.delta = b.delta ∧ a.sid < b.sid)))))

/-- The probe key `(((x0, 1), -1), 0)` used by `which_pair`. -/
def bisectKey (x0 : ℚ) : SwEvent ℚ := ⟨x0, 1, -1, 0⟩

/-- Embedding of `which_pair`: binary-search the endpoint event list for the
first event at or after `(((x0, 1), -1), 0)`; the pair is found when that
event is a closing event. -/
def which_pair (p : PiecewiseFunction) (x0 : ℚ) : Option (RS × PolyF) :=
  let l := end_points_list p
  let idx := l.countP fun e => decide (evLt e (bisectKey x0))
  if idx = 0 ∨ idx ≥ l.length then none
  else
    match l[idx]? with
    | some e =>
      if e.delta < 0 then
        some (p.domain_list.getD e.sid [], p.func_list.getD e.sid ⟨[], ""⟩)
      else none
    | none => none

/-- Lookup in the endpoint table (Python `x0 in self._end_points`). -/
def epLookup (t : List (ℚ × EPEntry)) (x : ℚ) : Option EPEntry :=
  (t.find? fun xe => xe.1 == x).map Prod.snd

/-- Embedding of `limits`: the cached entry at a recorded boundary point,
otherwise `(f(x), f(x), f(x))` via `which_pair`, otherwise three `None`. -/
def limits (p : PiecewiseFunction) (x0 : ℚ) : Option ℚ × Option ℚ × Option ℚ :=
  match epLookup (init_end_points p) x0 with
  | some e => (e.val, e.limLeft, e.limRight)
  | none =>
    match which_pair p x0 with
    | some df => (some (evalP df.2.coeffs x0), some (evalP df.2.coeffs x0),
        some (evalP df.2.coeffs x0))
    | none => (none, none, none)

/-- The zero polynomial of the function ring (`0 * func`). -/
def zeroPF (v : String) : PolyF := ⟨[], v⟩

/-- The unit polynomial of the function ring. -/
def onePF (v : String) : PolyF := ⟨[1], v⟩

/-- Sum of polynomial service values (`acc + func`; the variable follows the
polynomial operand, as in sage's coercion of `0 + f`). -/
def addPF (a f : PolyF) : PolyF := ⟨polyAdd a.coeffs f.coeffs, f.var⟩

/-- Product of polynomial service values. -/
def mulPF (a f : PolyF) : PolyF := ⟨polyMul a.coeffs f.coeffs, f.var⟩

/-- Negation of a polynomial service value. -/
def negPF (f : PolyF) : PolyF := ⟨polyNeg f.coeffs, f.var⟩

/-- Integer power of a polynomial service value. -/
def powPF (f : PolyF) (n : ℕ) : PolyF := ⟨polyPow f.coeffs n, f.var⟩

/-- The accumulation `new_pair[1] += funcs[i] for inds[i] > 0` of
`piecewise_add_general`, starting from the integer `0`. -/
def selectedSum (funcs : List PolyF) (inds : List ℤ) (v : String) : PolyF :=
  inds.enum.foldl
    (fun acc pr => if pr.2 > 0 then addPF acc (funcs.getD pr.1 (zeroPF v)) else acc)
    (zeroPF v)

/-- The accumulation `new_pair[1] *= funcs[i] for inds[i] > 0` of
`piecewise_mul_general`, starting from the integer `1`. -/
def selectedProd (funcs : List PolyF) (inds : List ℤ) (v : String) : PolyF :=
  inds.enum.foldl
    (fun acc pr => if pr.2 > 0 then mulPF acc (funcs.getD pr.1 (onePF v)) else acc)
    (onePF v)

/-- Embedding of `piecewise_add_general`: run the partitioner over both
functions' domains, sum the covering functions on each elementary interval
(skipping intervals not covered by both sides when `union` is false), and
rebuild through the constructor. -/
def piecewise_add_general (p q : PiecewiseFunction) (union : Bool) :
    Except PWErr PiecewiseFunction :=
  let funcs := p.func_list ++ q.func_list
  let prs := finest_partitions (p.domain_list ++ q.domain_list)
  let result_pairs := prs.foldr
    (fun pr acc =>
      if !union && pr.2.sum < 2 then acc
      else ([pr.1], selectedSum funcs pr.2 (varName p)) :: acc) []
  mkPiecewise result_pairs

/-- Embedding of `piecewise_add`: requires identical supports (sage `RealSet`
equality on the canonical form), then delegates to the union combine. -/
def piecewise_add (p q : PiecewiseFunction) : Except PWErr PiecewiseFunction :=
  if p.support = q.support then piecewise_add_general p q true
  else throw PWErr.domainMismatch

/-- Embedding of `piecewise_mul_general`. -/
def piecewise_mul_general (p q : PiecewiseFunction) (union : Bool) :
    Except PWErr PiecewiseFunction :=
  let funcs := p.func_list ++ q.func_list
  let prs := finest_partitions (p.domain_list ++ q.domain_list)
  let result_pairs := prs.foldr
    (fun pr acc =>
      if !union && pr.2.sum < 2 then acc
      else ([pr.1], selectedProd funcs pr.2 (varName p)) :: acc) []
  mkPiecewise result_pairs

/-- Embedding of `piecewise_mul`: requires identical supports, then delegates
to the union combine. -/
def piecewise_mul (p q : PiecewiseFunction) : Except PWErr PiecewiseFunction :=
  if p.support = q.support then piecewise_mul_general p q true
  else throw PWErr.domainMismatch

/-- Embedding of `__add__` between two piecewise functions: `None` (with a
printed message) on mismatched variables, otherwise `piecewise_add`. -/
def pwAdd (p q : PiecewiseFunction) : Except PWErr (Option PiecewiseFunction) :=
  if p.var ≠ q.var then pure none
  else (piecewise_add p q).map some

/-- Embedding of `__mul__` between two piecewise functions. -/
def pwMul (p q : PiecewiseFunction) : Except PWErr (Option PiecewiseFunction) :=
  if p.var ≠ q.var then pure none
  else (piecewise_mul p q).map some

/-- Embedding of `__neg__`: rebuild from the negated pieces. -/
def pwNeg (p : PiecewiseFunction) : Except PWErr PiecewiseFunction :=
  mkPiecewise (List.zip p.domain_list (p.func_list.map negPF))

/-- Embedding of `__sub__`: `self + (-other)`. -/
def pwSub (p q : PiecewiseFunction) : Except PWErr (Option PiecewiseFunction) := do
  let nq ← pwNeg q
  pwAdd p nq

/-- Embedding of `__pow__`: rebuild from the pieces raised to the power. -/
def pwPow (p : PiecewiseFunction) (n : ℕ) : Except PWErr PiecewiseFunction :=
  mkPiecewise (List.zip p.domain_list (p.func_list.map fun f => powPF f n))

/-- Embedding of `__mul__` with a scalar: rebuild from `func * c`. -/
def pwMulScalar (p : PiecewiseFunction) (c : ℚ) : Except PWErr PiecewiseFunction :=
  mkPiecewise (List.zip p.domain_list
    (p.func_list.map fun f => ⟨polyMul f.coeffs (polyConst c), f.var⟩))

/-- Embedding of `__eq__`: supports and variables must agree and every piece
of the difference must be the zero polynomial `0 * self.func_list[0]`.  A
`ValueError` escaping from the subtraction (impossible when the supports and
variables agree and the operands are well-formed) is collapsed to `false`. -/
def pwEq (p q : PiecewiseFunction) : Bool :=
  if p.support = q.support ∧ p.var = q.var then
    match pwSub p q with
    | .ok (some d) =>
      d.func_list.all fun f => f == ⟨[], (p.func_list.getD 0 ⟨[], varName p⟩).var⟩
    | _ => false
  else false

end PiecewiseLayer

section PiecewiseSemantics

/-- First-covering-piece evaluation of a list of `(domain, function)` pairs,
the common shape of `__call__`'s scan and of the constructor's input. -/
def piecesEval (pieces : List (RS × PolyF)) (x : ℚ) : Option ℚ :=
  pieces.findSome? fun pr => if rsMem pr.1 x then some (evalP pr.2.coeffs x) else none

theorem pwEvalAt_eq_piecesEval (p : PiecewiseFunction) (x : ℚ) :
    pwEvalAt p x = piecesEval (List.zip p.domain_list p.func_list) x := rfl

theorem piecesEval_eq_none {pieces : List (RS × PolyF)} {x : ℚ}
    (h : ∀ pr ∈ pieces, ¬ rsMem pr.1 x) : piecesEval pieces x = none := by
  unfold piecesEval
  rw [List.findSome?_eq_none_iff]
  intro pr hpr
  rw [if_neg (h pr hpr)]

theorem piecesEval_eq_some {pieces : List (RS × PolyF)} {x : ℚ} {pr : RS × PolyF}
    (hdisj : pieces.Pairwise fun a b => ∀ y, ¬ (rsMem a.1 y ∧ rsMem b.1 y))
    (hpr : pr ∈ pieces) (hx : rsMem pr.1 x) :
    piecesEval pieces x = some (evalP pr.2.coeffs x) := by
  induction pieces with
  | nil => simp at hpr
  | cons a t ih =>
    rcases List.mem_cons.mp hpr with h | h
    · subst h
      unfold piecesEval
      rw [List.findSome?_cons, if_pos hx]
    · have hna : ¬ rsMem a.1 x := by
        intro ha
        exact (List.pairwise_cons.mp hdisj).1 pr h x ⟨ha, hx⟩
      unfold piecesEval
      rw [List.findSome?_cons, if_neg hna]
      exact ih (List.pairwise_cons.mp hdisj).2 h

theorem getD_set_self2 {β : Type} {l : List β} {i : ℕ} (h : i < l.length)
    (v d : β) : (l.set i v).getD i d = v := by
  rw [List.getD_eq_getElem?_getD, List.getElem?_set_self (by simpa using h)]
  rfl

theorem getD_set_ne2 {β : Type} {l : List β} {i j : ℕ} (h : i ≠ j) (v d : β) :
    (l.set i v).getD j d = l.getD j d := by
  rw [List.getD_eq_getElem?_getD, List.getElem?_set_ne h, ← List.getD_eq_getElem?_getD]

theorem getD_map2 {β γ : Type} (g : β → γ) {l : List β} {k : ℕ}
    (h : k < l.length) (d : β) (d2 : γ) : (l.map g).getD k d2 = g (l.getD k d) := by
  rw [List.getD_eq_getElem?_getD, List.getElem?_map,
    List.getElem?_eq_getElem h, List.getD_eq_getElem?_getD,
    List.getElem?_eq_getElem h]
  rfl

theorem getD_append_left2 {β : Type} {l l2 : List β} {j : ℕ} (h : j < l.length)
    (d : β) : (l ++ l2).getD j d = l.getD j d := by
  rw [List.getD_eq_getElem?_getD, List.getElem?_append_left h,
    ← List.getD_eq_getElem?_getD]

theorem getD_append_right2 {β : Type} {l l2 : List β} {j : ℕ} (h : l.length ≤ j)
    (d : β) : (l ++ l2).getD j d = l2.getD (j - l.length) d := by
  rw [List.getD_eq_getElem?_getD, List.getElem?_append_right h,
    ← List.getD_eq_getElem?_getD]

/-- In a well-formed set, intervals are pairwise ordered by closing key
before opening key. -/
theorem RSetWF_pairwise_lt {D : RS} (h : RSetWF D) :
    List.Pairwise (fun J K : RInterval ℚ => keyLt J.cKey K.oKey) D := by
  induction D with
  | nil => simp
  | cons J t ih =>
    exact List.pairwise_cons.mpr ⟨RSetWF_head_lt h, ih (RSetWF_tail h)⟩

/-- In a well-formed set, distinct component intervals are disjoint. -/
theorem RSetWF_pairwise_disjoint {D : RS} (h : RSetWF D) :
    List.Pairwise (fun J K : RInterval ℚ => ∀ y, ¬ (J.Mem y ∧ K.Mem y)) D := by
  refine (RSetWF_pairwise_lt h).imp ?_
  rintro J K hlt y ⟨hJ, hK⟩
  rw [RInterval.mem_iff_keys] at hJ hK
  exact hK.1 (Before_mono (keyLe_of_keyLt hlt) hJ.2)

/-- Well-formedness descends to sublists. -/
theorem RSetWF_sublist {D D2 : RS} (h : RSetWF D) (hs : D2.Sublist D) :
    RSetWF D2 := by
  refine ⟨fun J hJ => h.1 J (hs.mem hJ), ?_⟩
  refine List.Pairwise.chain' ?_
  exact ((RSetWF_pairwise_lt h).sublist hs).imp (fun hlt => hlt)

/-- A nonempty point interval is closed on both sides. -/
theorem point_iv_closed {J : RInterval ℚ} (hNE : J.NE) (hpt : J.lower = J.upper) :
    J.lower_closed = true ∧ J.upper_closed = true := by
  unfold RInterval.NE RInterval.oKey RInterval.cKey keyLt at hNE
  cases hlc : J.lower_closed <;> cases huc : J.upper_closed <;>
    rw [hlc, huc] at hNE <;> simp [hpt] at hNE <;> try omega
  exact ⟨rfl, rfl⟩

/-- A nonempty point interval contains exactly its coordinate. -/
theorem point_iv_mem {J : RInterval ℚ} (hNE : J.NE) (hpt : J.lower = J.upper)
    (y : ℚ) : J.Mem y ↔ y = J.lower := by
  obtain ⟨h1, h2⟩ := point_iv_closed hNE hpt
  unfold RInterval.Mem
  rw [h1, h2]
  constructor
  · rintro ⟨hl, hr⟩
    rcases hr with h | ⟨h, _⟩
    · rcases hl with hl | ⟨hl, _⟩
      · rw [hpt] at hl
        exact absurd h (not_lt.mpr (le_of_lt hl))
      · exact hl
    · rw [hpt]; exact h
  · rintro rfl
    exact ⟨Or.inr ⟨rfl, rfl⟩, Or.inr ⟨hpt, rfl⟩⟩

/-- Members of an interval lie between its bounds. -/
theorem mem_bounds {J : RInterval ℚ} {y : ℚ} (h : J.Mem y) :
    J.lower ≤ y ∧ y ≤ J.upper := by
  obtain ⟨h1, h2⟩ := h
  constructor
  · rcases h1 with h | ⟨h, _⟩
    · exact le_of_lt h
    · exact le_of_eq h.symm
  · rcases h2 with h | ⟨h, _⟩
    · exact le_of_lt h
    · exact le_of_eq h

/-- A real set with infinitely many members has a non-point component. -/
theorem rs_infinite_nonpoint {D : RS}
    (h : Set.Infinite {y : ℚ | rsMem D y}) : ∃ K ∈ D, K.lower ≠ K.upper := by
  by_contra hc
  push_neg at hc
  refine h ?_
  have hsub : {y : ℚ | rsMem D y} ⊆ ↑(D.map RInterval.lower).toFinset := by
    rintro y ⟨J, hJ, hy⟩
    obtain ⟨hl, hu⟩ := mem_bounds hy
    rw [hc J hJ] at hl
    have : y = J.lower := le_antisymm (hc J hJ ▸ hu) (hc J hJ ▸ hl)
    simp only [List.coe_toFinset, List.mem_map, Set.mem_setOf_eq]
    exact ⟨J, hJ, this.symm⟩
  exact Set.Finite.subset (Set.finite_coe_iff.mp (by infer_instance)) hsub

/-- A well-formed nonempty real set has a member. -/
theorem rs_nonempty_mem {D : RS} (hwf : RSetWF D) (hne : D ≠ []) :
    ∃ y, rsMem D y := by
  cases D with
  | nil => exact absurd rfl hne
  | cons J t =>
    obtain ⟨y, hy⟩ := RInterval.mem_nonempty (hwf.1 J (by simp))
    exact ⟨y, J, by simp, hy⟩

end PiecewiseSemantics

section PiecewiseSemantics2

theorem rsDisjB_complete {A B : RS}
    (h : ∀ y, ¬ (rsMem A y ∧ rsMem B y)) : rsDisjB A B = true := by
  unfold rsDisjB
  rw [List.all_eq_true]
  intro J hJ
  rw [List.all_eq_true]
  intro K hK
  refine ivDisjB_complete ?_
  rintro y ⟨h1, h2⟩
  exact h y ⟨⟨J, hJ, h1⟩, ⟨K, hK, h2⟩⟩

theorem are_pairwise_disjoint_complete :
    ∀ {ls : List RS}, (ls.Pairwise fun A B => ∀ y, ¬ (rsMem A y ∧ rsMem B y)) →
    are_pairwise_disjoint ls = true := by
  intro ls
  induction ls with
  | nil => intro _; rfl
  | cons A rest ih =>
    intro h
    rw [List.pairwise_cons] at h
    unfold are_pairwise_disjoint
    rw [Bool.and_eq_true]
    refine ⟨?_, ih h.2⟩
    rw [List.all_eq_true]
    intro B hB
    exact rsDisjB_complete (h.1 B hB)

/-- Pairwise disjointness of domains transfers to zipped pairs. -/
theorem pairwise_zip_fst {doms : List RS} {funcs : List PolyF}
    (hlen : doms.length = funcs.length)
    (h : doms.Pairwise fun A B => ∀ y, ¬ (rsMem A y ∧ rsMem B y)) :
    (List.zip doms funcs).Pairwise fun a b => ∀ y, ¬ (rsMem a.1 y ∧ rsMem b.1 y) := by
  have hmap : (List.zip doms funcs).map Prod.fst = doms :=
    List.map_fst_zip doms funcs (le_of_eq hlen)
  rw [← hmap] at h
  rw [List.pairwise_map] at h
  exact h

theorem zip_getD_mem {doms : List RS} {funcs : List PolyF} {k : ℕ}
    (hlen : doms.length = funcs.length) (hk : k < doms.length) (df : PolyF) :
    (doms.getD k [], funcs.getD k df) ∈ List.zip doms funcs := by
  have hk2 : k < funcs.length := hlen ▸ hk
  have hkz : k < (List.zip doms funcs).length := by
    rw [List.length_zip]
    omega
  have hget : (List.zip doms funcs)[k] = (doms[k], funcs[k]) :=
    List.getElem_zip
  have h1 : doms.getD k [] = doms[k] := by
    rw [List.getD_eq_getElem?_getD, List.getElem?_eq_getElem hk]
    rfl
  have h2 : funcs.getD k df = funcs[k] := by
    rw [List.getD_eq_getElem?_getD, List.getElem?_eq_getElem hk2]
    rfl
  rw [h1, h2, ← hget]
  exact List.getElem_mem hkz

/-- Evaluation scan: no piece domain contains the point. -/
theorem pwEval_none {doms : List RS} {funcs : List PolyF} {x : ℚ}
    (h : ∀ D ∈ doms, ¬ rsMem D x) :
    piecesEval (List.zip doms funcs) x = none := by
  refine piecesEval_eq_none ?_
  intro pr hpr
  obtain ⟨l, r⟩ := pr
  exact h l (List.of_mem_zip hpr).1

/-- Evaluation scan: the (unique) containing piece determines the value. -/
theorem pwEval_some {doms : List RS} {funcs : List PolyF} {x : ℚ} {k : ℕ}
    (hlen : doms.length = funcs.length)
    (hdisj : doms.Pairwise fun A B => ∀ y, ¬ (rsMem A y ∧ rsMem B y))
    (hk : k < doms.length) (hx : rsMem (doms.getD k []) x) (df : PolyF) :
    piecesEval (List.zip doms funcs) x = some (evalP (funcs.getD k df).coeffs x) :=
  piecesEval_eq_some (pairwise_zip_fst hlen hdisj) (zip_getD_mem hlen hk df) hx

/-- The well-formedness bundle guaranteed by the constructor, as a decidable
predicate over the container. -/
def PWGood (p : PiecewiseFunction) : Prop :=
  p.domain_list.length = p.func_list.length ∧
  (∀ D ∈ p.domain_list, RSetWF D ∧ D ≠ []) ∧
  (∀ f ∈ p.func_list, Trimmed f.coeffs ∧ p.var = some f.var) ∧
  (p.func_list = [] → p.var = none) ∧
  p.support = unionAll p.domain_list ∧
  are_pairwise_disjoint p.domain_list = true

instance (p : PiecewiseFunction) : Decidable (PWGood p) :=
  inferInstanceAs (Decidable (p.domain_list.length = p.func_list.length ∧
    (∀ D ∈ p.domain_list, RSetWF D ∧ D ≠ []) ∧
    (∀ f ∈ p.func_list, Trimmed f.coeffs ∧ p.var = some f.var) ∧
    (p.func_list = [] → p.var = none) ∧
    p.support = unionAll p.domain_list ∧
    are_pairwise_disjoint p.domain_list = true))

theorem PWGood_disj {p : PiecewiseFunction} (h : PWGood p) :
    p.domain_list.Pairwise fun A B => ∀ y, ¬ (rsMem A y ∧ rsMem B y) :=
  are_pairwise_disjoint_sound h.2.2.2.2.2

theorem PWGood_support_mem {p : PiecewiseFunction} (h : PWGood p) (x : ℚ) :
    rsMem p.support x ↔ ∃ D ∈ p.domain_list, rsMem D x := by
  rw [h.2.2.2.2.1]
  exact unionAll_mem p.domain_list x

/-- Every piece of a well-formed container is nonempty as a set. -/
theorem PWGood_var_of_ne {p : PiecewiseFunction} (h : PWGood p)
    (hne : p.func_list ≠ []) : p.var = some (varName p) := by
  cases hv : p.var with
  | none =>
    exact absurd (h.2.2.2.1) (by intro h2; by_cases hf : p.func_list = []
                                 · exact hne hf
                                 · cases hf2 : p.func_list with
                                   | nil => exact hne hf2
                                   | cons f t =>
                                     have := (h.2.2.1 f (by rw [hf2]; simp)).2
                                     rw [hv] at this
                                     exact Option.noConfusion this)
  | some v =>
    unfold varName
    rw [hv]

end PiecewiseSemantics2

section EndPointTable

/-- All scan events of all pieces, each paired with its piece's function, in
the order `_init_end_points` processes them. -/
def allScans (p : PiecewiseFunction) : List (((ℚ × ℕ) × ℤ) × PolyF) :=
  (List.zip p.domain_list p.func_list).flatMap fun df =>
    (scanRS df.1).map fun ev => (ev, df.2)

/-- One table update of `_init_end_points`, on an event-function pair. -/
def epStep (t : List (ℚ × EPEntry)) (evf : ((ℚ × ℕ) × ℤ) × PolyF) :
    List (ℚ × EPEntry) :=
  if evf.1.2 < 0 then
    epUpdate t evf.1.1.1 fun e =>
      ⟨if evf.1.1.2 = 0 then some (evalP evf.2.coeffs evf.1.1.1) else e.val,
       e.limLeft, some (evalP evf.2.coeffs evf.1.1.1)⟩
  else
    epUpdate t evf.1.1.1 fun e =>
      ⟨if evf.1.1.2 = 1 then some (evalP evf.2.coeffs evf.1.1.1) else e.val,
       some (evalP evf.2.coeffs evf.1.1.1), e.limRight⟩

/-- What one event writes over an existing entry. -/
def epWrite (evf : ((ℚ × ℕ) × ℤ) × PolyF) (e : EPEntry) : EPEntry :=
  if evf.1.2 < 0 then
    ⟨if evf.1.1.2 = 0 then some (evalP evf.2.coeffs evf.1.1.1) else e.val,
     e.limLeft, some (evalP evf.2.coeffs evf.1.1.1)⟩
  else
    ⟨if evf.1.1.2 = 1 then some (evalP evf.2.coeffs evf.1.1.1) else e.val,
     some (evalP evf.2.coeffs evf.1.1.1), e.limRight⟩

theorem foldl_flatMap {β γ δ : Type} (f : δ → γ → δ) (g : β → List γ)
    (l : List β) (init : δ) :
    (l.flatMap g).foldl f init = l.foldl (fun acc b => (g b).foldl f acc) init := by
  induction l generalizing init with
  | nil => rfl
  | cons a t ih => simp only [List.flatMap_cons, List.foldl_append, List.foldl_cons, ih]

theorem init_end_points_eq_fold (p : PiecewiseFunction) :
    init_end_points p = (allScans p).foldl epStep [] := by
  unfold init_end_points allScans
  rw [foldl_flatMap]
  congr 1
  funext t df
  rw [List.foldl_map]
  rfl

theorem epLookup_epUpdate_self (t : List (ℚ × EPEntry)) (x : ℚ)
    (g : EPEntry → EPEntry) :
    epLookup (epUpdate t x g) x = some (g ((epLookup t x).getD epDefault)) := by
  induction t with
  | nil =>
    unfold epUpdate epLookup
    simp
  | cons he rest ih =>
    obtain ⟨x0, e0⟩ := he
    unfold epUpdate
    by_cases h : x0 = x
    · rw [if_pos h]
      unfold epLookup
      subst h
      simp
    · rw [if_neg h]
      unfold epLookup at ih ⊢
      rw [List.find?_cons_of_neg, List.find?_cons_of_neg]
      · exact ih
      · simp [h]
      · simp [h]

theorem epLookup_epUpdate_ne (t : List (ℚ × EPEntry)) {x y : ℚ} (h : y ≠ x)
    (g : EPEntry → EPEntry) : epLookup (epUpdate t x g) y = epLookup t y := by
  induction t with
  | nil =>
    unfold epUpdate epLookup
    simp [Ne.symm h]
  | cons he rest ih =>
    obtain ⟨x0, e0⟩ := he
    unfold epUpdate
    by_cases h0 : x0 = x
    · rw [if_pos h0]
      unfold epLookup
      subst h0
      rw [List.find?_cons_of_neg, List.find?_cons_of_neg]
      · simp [Ne.symm h]
      · simp [Ne.symm h]
    · rw [if_neg h0]
      unfold epLookup at ih ⊢
      by_cases hy : x0 = y
      · subst hy
        rw [List.find?_cons_of_pos, List.find?_cons_of_pos] <;> simp
      · rw [List.find?_cons_of_neg, List.find?_cons_of_neg]
        · exact ih
        · simp [hy]
        · simp [hy]

theorem epStep_lookup_self (t : List (ℚ × EPEntry)) (evf : ((ℚ × ℕ) × ℤ) × PolyF) :
    epLookup (epStep t evf) evf.1.1.1 =
      some (epWrite evf ((epLookup t evf.1.1.1).getD epDefault)) := by
  unfold epStep epWrite
  by_cases h : evf.1.2 < 0
  · rw [if_pos h, if_pos h, epLookup_epUpdate_self]
  · rw [if_neg h, if_neg h, epLookup_epUpdate_self]

theorem epStep_lookup_ne (t : List (ℚ × EPEntry)) {evf : ((ℚ × ℕ) × ℤ) × PolyF}
    {y : ℚ} (h : y ≠ evf.1.1.1) : epLookup (epStep t evf) y = epLookup t y := by
  unfold epStep
  by_cases h0 : evf.1.2 < 0
  · rw [if_pos h0, epLookup_epUpdate_ne _ h]
  · rw [if_neg h0, epLookup_epUpdate_ne _ h]

theorem foldl_epStep_lookup_ne {l : List (((ℚ × ℕ) × ℤ) × PolyF)}
    {y : ℚ} (h : ∀ evf ∈ l, evf.1.1.1 ≠ y) (t : List (ℚ × EPEntry)) :
    epLookup (l.foldl epStep t) y = epLookup t y := by
  induction l generalizing t with
  | nil => rfl
  | cons e rest ih =>
    rw [List.foldl_cons, ih (fun evf hm => h evf (by simp [hm]))]
    exact epStep_lookup_ne t (Ne.symm (h e (by simp)))

theorem epLookup_fold_none_iff (l : List (((ℚ × ℕ) × ℤ) × PolyF)) (x : ℚ) :
    ∀ t, epLookup (l.foldl epStep t) x = none ↔
      (epLookup t x = none ∧ ∀ evf ∈ l, evf.1.1.1 ≠ x) := by
  induction l with
  | nil => intro t; simp
  | cons e rest ih =>
    intro t
    rw [List.foldl_cons, ih (epStep t e)]
    by_cases h : e.1.1.1 = x
    · constructor
      · rintro ⟨h1, _⟩
        rw [← h, epStep_lookup_self] at h1
        exact absurd h1 (by simp)
      · rintro ⟨_, h2⟩
        exact absurd h (h2 e (by simp))
    · rw [epStep_lookup_ne t (Ne.symm h)]
      constructor
      · rintro ⟨h1, h2⟩
        refine ⟨h1, ?_⟩
        intro evf hm
        rcases List.mem_cons.mp hm with hm | hm
        · rw [hm]; exact h
        · exact h2 evf hm
      · rintro ⟨h1, h2⟩
        exact ⟨h1, fun evf hm => h2 evf (by simp [hm])⟩

theorem count_one_split {β : Type} (pred : β → Bool) {l : List β} {a : β}
    (h1 : l.countP pred = 1) (ha : a ∈ l) (hpa : pred a = true) :
    ∃ l1 l2, l = l1 ++ a :: l2 ∧ (∀ b ∈ l1, pred b = false) ∧
      (∀ b ∈ l2, pred b = false) := by
  obtain ⟨l1, l2, rfl⟩ := List.append_of_mem ha
  refine ⟨l1, l2, rfl, ?_, ?_⟩
  · intro b hb
    by_contra hc
    rw [Bool.not_eq_false] at hc
    have : 2 ≤ (l1 ++ a :: l2).countP pred := by
      rw [List.countP_append, List.countP_cons_of_pos _ _ hpa]
      have : 1 ≤ l1.countP pred := List.countP_pos_iff.mpr ⟨b, hb, hc⟩
      omega
    omega
  · intro b hb
    by_contra hc
    rw [Bool.not_eq_false] at hc
    have : 2 ≤ (l1 ++ a :: l2).countP pred := by
      rw [List.countP_append, List.countP_cons_of_pos _ _ hpa]
      have : 1 ≤ l2.countP pred := List.countP_pos_iff.mpr ⟨b, hb, hc⟩
      omega
    omega

/-- The number of scan events at coordinate `x`. -/
def scanCount (p : PiecewiseFunction) (x : ℚ) : ℕ :=
  (allScans p).countP fun evf => evf.1.1.1 == x

/-- A coordinate scanned exactly once ends with exactly that event's write
over the empty entry. -/
theorem table_single_write {p : PiecewiseFunction} {evf : ((ℚ × ℕ) × ℤ) × PolyF}
    (hm : evf ∈ allScans p) (hc : scanCount p evf.1.1.1 = 1) :
    epLookup (init_end_points p) evf.1.1.1 = some (epWrite evf epDefault) := by
  unfold scanCount at hc
  obtain ⟨l1, l2, hsplit, hn1, hn2⟩ :=
    count_one_split (fun e => e.1.1.1 == evf.1.1.1) hc hm (by simp)
  rw [init_end_points_eq_fold, hsplit]
  rw [List.foldl_append, List.foldl_cons]
  rw [foldl_epStep_lookup_ne (fun e he => by simpa using hn2 e he)]
  rw [epStep_lookup_self]
  rw [foldl_epStep_lookup_ne (fun e he => by simpa using hn1 e he)]
  rfl

end EndPointTable

section ConstructorInvariant

theorem normalizeIv_single {J : RInterval ℚ} (h : J.NE) : normalizeIv [J] = [J] := by
  unfold normalizeIv
  have h1 : ([J].filter fun K => decide K.NE) = [J] := by
    simp [List.filter, h]
  rw [h1]
  have h2 : List.insertionSort ivLe [J] = [J] := rfl
  rw [h2]
  show coalesceGo [] (J.oKey, J.cKey) = [J]
  unfold coalesceGo
  rw [fromKeys_keys_self]

theorem unionAll_single {J : RInterval ℚ} (h : J.NE) : unionAll [[J]] = [J] := by
  unfold unionAll
  rw [show ([[J]] : List RS).flatten = [J] by simp]
  exact normalizeIv_single h

theorem addPointPiece_eq {st : BuildState} {J : RInterval ℚ} {fc : PolyF}
    (h : J.NE) : addPointPiece st J fc = addNonPointPieces st [J] fc := by
  unfold addPointPiece addNonPointPieces
  cases dictFind st.dict fc with
  | none => rw [unionAll_single h]
  | some i => rfl

theorem getD_mem2 {β : Type} {l : List β} {k : ℕ} (h : k < l.length) (d : β) :
    l.getD k d ∈ l := by
  rw [List.getD_eq_getElem?_getD, List.getElem?_eq_getElem h]
  exact List.getElem_mem h

theorem exists_mem_iff_index {β : Type} (l : List β) (pred : β → Prop) (d : β) :
    (∃ a ∈ l, pred a) ↔ ∃ k, k < l.length ∧ pred (l.getD k d) := by
  constructor
  · rintro ⟨a, ha, hpa⟩
    obtain ⟨k, hk, rfl⟩ := List.mem_iff_getElem.mp ha
    refine ⟨k, hk, ?_⟩
    rw [List.getD_eq_getElem?_getD, List.getElem?_eq_getElem hk]
    exact hpa
  · rintro ⟨k, hk, hpk⟩
    exact ⟨l.getD k d, getD_mem2 hk d, hpk⟩

theorem pairwise_of_indexed {β : Type} {R : β → β → Prop} {l : List β} (d : β)
    (h : ∀ j k, j < k → k < l.length → R (l.getD j d) (l.getD k d)) :
    l.Pairwise R := by
  rw [List.pairwise_iff_getElem]
  intro j k hj hk hjk
  have := h j k hjk hk
  rw [List.getD_eq_getElem?_getD, List.getElem?_eq_getElem hj,
    List.getD_eq_getElem?_getD, List.getElem?_eq_getElem hk] at this
  exact this

theorem rsMem_filter_split (P : RInterval ℚ → Bool) (D : RS) (y : ℚ) :
    rsMem D y ↔ rsMem (D.filter P) y ∨ rsMem (D.filter fun J => ! P J) y := by
  constructor
  · rintro ⟨J, hJ, hy⟩
    by_cases h : P J
    · exact Or.inl ⟨J, List.mem_filter.mpr ⟨hJ, h⟩, hy⟩
    · refine Or.inr ⟨J, List.mem_filter.mpr ⟨hJ, ?_⟩, hy⟩
      simp [h]
  · rintro (⟨J, hJ, hy⟩ | ⟨J, hJ, hy⟩) <;>
      exact ⟨J, (List.mem_filter.mp hJ).1, hy⟩

theorem unionAll_pair_mem (A B : RS) (y : ℚ) :
    rsMem (unionAll [A, B]) y ↔ rsMem A y ∨ rsMem B y := by
  rw [unionAll_mem]
  constructor
  · rintro ⟨D, hD, hy⟩
    rcases List.mem_cons.mp hD with h | h
    · exact Or.inl (h ▸ hy)
    · rw [List.mem_singleton] at h
      exact Or.inr (h ▸ hy)
  · rintro (h | h)
    · exact ⟨A, by simp, h⟩
    · exact ⟨B, by simp, h⟩

theorem unionAll_single_mem (A : RS) (y : ℚ) :
    rsMem (unionAll [A]) y ↔ rsMem A y := by
  rw [unionAll_mem]
  constructor
  · rintro ⟨D, hD, hy⟩
    rw [List.mem_singleton] at hD
    exact hD ▸ hy
  · intro h
    exact ⟨A, by simp, h⟩

theorem rsMem_ne_nil {D : RS} {y : ℚ} (h : rsMem D y) : D ≠ [] := by
  rintro rfl
  obtain ⟨J, hJ, _⟩ := h
  simp at hJ

/-- Invariant of the constructor state after processing a prefix of the input
whose semantic content is the atom list `atoms`. -/
structure BSInv (v : String) (atoms : List (RS × PolyF)) (st : BuildState) : Prop where
  len : st.domain_list.length = st.func_list.length
  wf : ∀ D ∈ st.domain_list, RSetWF D
  dne : ∀ D ∈ st.domain_list, D ≠ []
  trm : ∀ f ∈ st.func_list, Trimmed f.coeffs
  varf : ∀ f ∈ st.func_list, f.var = v
  dict : ∀ pr ∈ st.dict, pr.2 < st.func_list.length ∧
      st.func_list.getD pr.2 (zeroPF v) = pr.1
  disj : ∀ j k, j < k → k < st.domain_list.length → ∀ y,
      ¬ (rsMem (st.domain_list.getD j []) y ∧ rsMem (st.domain_list.getD k []) y)
  cover : ∀ x, (∃ k, k < st.domain_list.length ∧
      rsMem (st.domain_list.getD k []) x) ↔ ∃ A ∈ atoms, rsMem A.1 x
  value : ∀ x k, k < st.domain_list.length → rsMem (st.domain_list.getD k []) x →
      ∃ A ∈ atoms, rsMem A.1 x ∧
        evalP ((st.func_list.getD k (zeroPF v)).coeffs) x = evalP A.2.coeffs x
  cinf : ∀ k, k < st.domain_list.length →
      (∃ c, (st.func_list.getD k (zeroPF v)).coeffs = polyConst c) ∨
      Set.Infinite {y : ℚ | rsMem (st.domain_list.getD k []) y}

/-- The variable slot tracks whether any piece has been recorded. -/
def VarOk (v : String) (st : BuildState) : Prop :=
  (st.var = some v ∧ st.func_list ≠ []) ∨ (st.var = none ∧ st.func_list = [])

theorem dictFind_sound {v : String} {atoms : List (RS × PolyF)} {st : BuildState}
    (inv : BSInv v atoms st) {f : PolyF} {i : ℕ}
    (h : dictFind st.dict f = some i) :
    i < st.func_list.length ∧ st.func_list.getD i (zeroPF v) = f := by
  unfold dictFind at h
  cases hfind : st.dict.find? fun pr => pr.1 == f with
  | none => rw [hfind] at h; simp at h
  | some pr =>
    rw [hfind] at h
    have hmem := List.mem_of_find?_eq_some hfind
    have hbeq := List.find?_some hfind
    have hval : pr.1 = f := by
      simpa using hbeq
    have hi : pr.2 = i := by simpa using h
    obtain ⟨h1, h2⟩ := inv.dict pr hmem
    rw [hi] at h1 h2
    exact ⟨h1, hval ▸ h2⟩

/-- The semantic atoms of one input piece: one constant atom per point
component and one atom for the non-point components. -/
def pieceAtoms (pr : RS × PolyF) : List (RS × PolyF) :=
  ((pr.1.filter fun J => J.lower == J.upper).map
    fun J => ([J], (⟨polyConst (evalP pr.2.coeffs J.lower), pr.2.var⟩ : PolyF)))
  ++ (if (pr.1.filter fun J => ! (J.lower == J.upper)) = [] then []
      else [(pr.1.filter fun J => ! (J.lower == J.upper), pr.2)])

theorem pieceAtoms_mem_sub {pr : RS × PolyF} {A : RS × PolyF} {y : ℚ}
    (hA : A ∈ pieceAtoms pr) (hy : rsMem A.1 y) : rsMem pr.1 y := by
  unfold pieceAtoms at hA
  rcases List.mem_append.mp hA with h | h
  · rw [List.mem_map] at h
    obtain ⟨J, hJ, rfl⟩ := h
    obtain ⟨K, hK, hKy⟩ := hy
    rw [List.mem_singleton] at hK
    subst hK
    exact ⟨K, (List.mem_filter.mp hJ).1, hKy⟩
  · by_cases hnil : (pr.1.filter fun J => ! (J.lower == J.upper)) = []
    · rw [if_pos hnil] at h
      simp at h
    · rw [if_neg hnil] at h
      rw [List.mem_singleton] at h
      subst h
      obtain ⟨K, hK, hKy⟩ := hy
      exact ⟨K, (List.mem_filter.mp hK).1, hKy⟩

theorem pieceAtoms_mem_sup {pr : RS × PolyF} {y : ℚ} (hy : rsMem pr.1 y) :
    ∃ A ∈ pieceAtoms pr, rsMem A.1 y := by
  obtain ⟨J, hJ, hJy⟩ := hy
  unfold pieceAtoms
  by_cases hp : J.lower == J.upper
  · refine ⟨([J], ⟨polyConst (evalP pr.2.coeffs J.lower), pr.2.var⟩), ?_, ?_⟩
    · refine List.mem_append_left _ ?_
      exact List.mem_map_of_mem _ (List.mem_filter.mpr ⟨hJ, hp⟩)
    · exact ⟨J, by simp, hJy⟩
  · have hJn : J ∈ pr.1.filter fun K => ! (K.lower == K.upper) :=
      List.mem_filter.mpr ⟨hJ, by simp [hp]⟩
    have hnil : (pr.1.filter fun K => ! (K.lower == K.upper)) ≠ [] :=
      List.ne_nil_of_mem hJn
    refine ⟨(pr.1.filter fun K => ! (K.lower == K.upper), pr.2), ?_, ⟨J, hJn, hJy⟩⟩
    refine List.mem_append_right _ ?_
    rw [if_neg hnil]
    simp

theorem pieceAtoms_value {pr : RS × PolyF} {A : RS × PolyF} {x : ℚ}
    (hA : A ∈ pieceAtoms pr) (hx : rsMem A.1 x) :
    evalP A.2.coeffs x = evalP pr.2.coeffs x := by
  unfold pieceAtoms at hA
  rcases List.mem_append.mp hA with h | h
  · rw [List.mem_map] at h
    obtain ⟨J, hJ, rfl⟩ := h
    obtain ⟨K, hK, hKy⟩ := hx
    rw [List.mem_singleton] at hK
    subst hK
    have hpt : K.lower = K.upper := by
      have := (List.mem_filter.mp hJ).2
      simpa using this
    have hxK : x = K.lower := (point_iv_mem (NE_of_mem hKy) hpt x).mp hKy
    show evalP (polyConst (evalP pr.2.coeffs K.lower)) x = _
    rw [evalP_const, hxK]
  · by_cases hnil : (pr.1.filter fun J => ! (J.lower == J.upper)) = []
    · rw [if_pos hnil] at h
      simp at h
    · rw [if_neg hnil] at h
      rw [List.mem_singleton] at h
      subst h
      rfl

end ConstructorInvariant

section ConstructorStep

theorem BSInv_addNonPoint {v : String} {atoms : List (RS × PolyF)} {st : BuildState}
    {nps : RS} {f : PolyF}
    (inv : BSInv v atoms st) (hwfn : RSetWF nps) (hnne : nps ≠ [])
    (hfv : f.var = v) (hft : Trimmed f.coeffs)
    (hdisj : ∀ y, rsMem nps y → ¬ ∃ A ∈ atoms, rsMem A.1 y)
    (hci : (∃ c, f.coeffs = polyConst c) ∨ Set.Infinite {y : ℚ | rsMem nps y}) :
    BSInv v (atoms ++ [(nps, f)]) (addNonPointPieces st nps f) := by
  obtain ⟨y0, hy0⟩ := rs_nonempty_mem hwfn hnne
  unfold addNonPointPieces
  cases hfind : dictFind st.dict f with
  | some i =>
    obtain ⟨hif, hgi⟩ := dictFind_sound inv hfind
    have hin : i < st.domain_list.length := by rw [inv.len]; exact hif
    have hUm : ∀ y, rsMem (unionAll [st.domain_list.getD i [], nps]) y ↔
        rsMem (st.domain_list.getD i []) y ∨ rsMem nps y :=
      unionAll_pair_mem _ _
    refine ⟨by simp [inv.len], ?_, ?_, inv.trm, inv.varf, inv.dict, ?_, ?_, ?_, ?_⟩
    · intro D hD
      rcases List.mem_or_eq_of_mem_set hD with h | h
      · exact inv.wf D h
      · rw [h]; exact unionAll_wf _
    · intro D hD
      rcases List.mem_or_eq_of_mem_set hD with h | h
      · exact inv.dne D h
      · rw [h]; exact rsMem_ne_nil ((hUm y0).mpr (Or.inr hy0))
    · intro j k hjk hk y hyy
      obtain ⟨hyj, hyk⟩ := hyy
      rw [List.length_set] at hk
      by_cases hji : j = i
      · subst hji
        have hki : k ≠ j := fun h => absurd h.symm (Nat.ne_of_lt hjk)
        rw [getD_set_self2 hin] at hyj
        rw [getD_set_ne2 (fun h => hki h.symm)] at hyk
        rcases (hUm y).mp hyj with h | h
        · exact inv.disj j k hjk hk y ⟨h, hyk⟩
        · exact hdisj y h ((inv.cover y).mp ⟨k, hk, hyk⟩)
      · rw [getD_set_ne2 (fun h => hji h.symm)] at hyj
        by_cases hki : k = i
        · subst hki
          rw [getD_set_self2 hin] at hyk
          rcases (hUm y).mp hyk with h | h
          · exact inv.disj j k hjk hk y ⟨hyj, h⟩
          · exact hdisj y h ((inv.cover y).mp ⟨j, lt_trans hjk hk, hyj⟩)
        · rw [getD_set_ne2 (fun h => hki h.symm)] at hyk
          exact inv.disj j k hjk hk y ⟨hyj, hyk⟩
    · intro x
      constructor
      · rintro ⟨k, hk, hyk⟩
        rw [List.length_set] at hk
        by_cases hki : k = i
        · subst hki
          rw [getD_set_self2 hin] at hyk
          rcases (hUm x).mp hyk with h | h
          · obtain ⟨A, hA, hAx⟩ := (inv.cover x).mp ⟨k, hk, h⟩
            exact ⟨A, List.mem_append_left _ hA, hAx⟩
          · exact ⟨(nps, f), List.mem_append_right _ (by simp), h⟩
        · rw [getD_set_ne2 (fun h => hki h.symm)] at hyk
          obtain ⟨A, hA, hAx⟩ := (inv.cover x).mp ⟨k, hk, hyk⟩
          exact ⟨A, List.mem_append_left _ hA, hAx⟩
      · rintro ⟨A, hA, hAx⟩
        rcases List.mem_append.mp hA with h | h
        · obtain ⟨k, hk, hyk⟩ := (inv.cover x).mpr ⟨A, h, hAx⟩
          by_cases hki : k = i
          · subst hki
            refine ⟨k, by simpa using hk, ?_⟩
            rw [getD_set_self2 hin]
            exact (hUm x).mpr (Or.inl hyk)
          · refine ⟨k, by simpa using hk, ?_⟩
            rw [getD_set_ne2 (fun h2 => hki h2.symm)]
            exact hyk
        · rw [List.mem_singleton] at h
          subst h
          refine ⟨i, by simpa using hin, ?_⟩
          rw [getD_set_self2 hin]
          exact (hUm x).mpr (Or.inr hAx)
    · intro x k hk hyk
      rw [List.length_set] at hk
      by_cases hki : k = i
      · subst hki
        rw [getD_set_self2 hin] at hyk
        rcases (hUm x).mp hyk with h | h
        · obtain ⟨A, hA, hAx, hAv⟩ := inv.value x k hk h
          exact ⟨A, List.mem_append_left _ hA, hAx, hAv⟩
        · refine ⟨(nps, f), List.mem_append_right _ (by simp), h, ?_⟩
          rw [hgi]
      · rw [getD_set_ne2 (fun h => hki h.symm)] at hyk
        obtain ⟨A, hA, hAx, hAv⟩ := inv.value x k hk hyk
        exact ⟨A, List.mem_append_left _ hA, hAx, hAv⟩
    · intro k hk
      rw [List.length_set] at hk
      by_cases hki : k = i
      · subst hki
        rcases hci with ⟨c, hc⟩ | hinf
        · left
          exact ⟨c, by rw [hgi, hc]⟩
        · right
          rw [getD_set_self2 hin]
          refine hinf.mono ?_
          intro y hy
          exact (hUm y).mpr (Or.inr hy)
      · rw [getD_set_ne2 (fun h => hki h.symm)]
        exact inv.cinf k hk
  | none =>
    have hU'm : ∀ y, rsMem (unionAll [nps]) y ↔ rsMem nps y :=
      unionAll_single_mem nps
    have hlen2 : st.domain_list.length = st.func_list.length := inv.len
    refine ⟨by simp [inv.len], ?_, ?_, ?_, ?_, ?_, ?_, ?_, ?_, ?_⟩
    · intro D hD
      rcases List.mem_append.mp hD with h | h
      · exact inv.wf D h
      · rw [List.mem_singleton] at h
        rw [h]; exact unionAll_wf _
    · intro D hD
      rcases List.mem_append.mp hD with h | h
      · exact inv.dne D h
      · rw [List.mem_singleton] at h
        rw [h]; exact rsMem_ne_nil ((hU'm y0).mpr hy0)
    · intro g hg
      rcases List.mem_append.mp hg with h | h
      · exact inv.trm g h
      · rw [List.mem_singleton] at h
        rw [h]; exact hft
    · intro g hg
      rcases List.mem_append.mp hg with h | h
      · exact inv.varf g h
      · rw [List.mem_singleton] at h
        rw [h]; exact hfv
    · intro pr hpr
      rcases List.mem_append.mp hpr with h | h
      · obtain ⟨h1, h2⟩ := inv.dict pr h
        refine ⟨by simp; omega, ?_⟩
        rw [getD_append_left2 h1]
        exact h2
      · rw [List.mem_singleton] at h
        subst h
        refine ⟨by simp [hlen2], ?_⟩
        rw [hlen2, getD_append_right2 (le_refl _), Nat.sub_self]
        rfl
    · intro j k hjk hk y hyy
      obtain ⟨hyj, hyk⟩ := hyy
      rw [List.length_append, List.length_singleton] at hk
      by_cases hkn : k = st.domain_list.length
      · have hjn : j < st.domain_list.length := by omega
        rw [getD_append_left2 hjn] at hyj
        rw [hkn, getD_append_right2 (le_refl _), Nat.sub_self] at hyk
        have hyk2 : rsMem (unionAll [nps]) y := hyk
        exact hdisj y ((hU'm y).mp hyk2) ((inv.cover y).mp ⟨j, hjn, hyj⟩)
      · have hkn2 : k < st.domain_list.length := by omega
        have hjn : j < st.domain_list.length := by omega
        rw [getD_append_left2 hjn] at hyj
        rw [getD_append_left2 hkn2] at hyk
        exact inv.disj j k hjk hkn2 y ⟨hyj, hyk⟩
    · intro x
      constructor
      · rintro ⟨k, hk, hyk⟩
        rw [List.length_append, List.length_singleton] at hk
        by_cases hkn : k = st.domain_list.length
        · rw [hkn, getD_append_right2 (le_refl _), Nat.sub_self] at hyk
          have hyk2 : rsMem (unionAll [nps]) x := hyk
          exact ⟨(nps, f), List.mem_append_right _ (by simp), (hU'm x).mp hyk2⟩
        · have hkn2 : k < st.domain_list.length := by omega
          rw [getD_append_left2 hkn2] at hyk
          obtain ⟨A, hA, hAx⟩ := (inv.cover x).mp ⟨k, hkn2, hyk⟩
          exact ⟨A, List.mem_append_left _ hA, hAx⟩
      · rintro ⟨A, hA, hAx⟩
        rcases List.mem_append.mp hA with h | h
        · obtain ⟨k, hk, hyk⟩ := (inv.cover x).mpr ⟨A, h, hAx⟩
          refine ⟨k, by simp; omega, ?_⟩
          rw [getD_append_left2 hk]
          exact hyk
        · rw [List.mem_singleton] at h
          subst h
          refine ⟨st.domain_list.length, by simp, ?_⟩
          rw [getD_append_right2 (le_refl _), Nat.sub_self]
          exact (hU'm x).mpr hAx
    · intro x k hk hyk
      rw [List.length_append, List.length_singleton] at hk
      by_cases hkn : k = st.domain_list.length
      · rw [hkn, getD_append_right2 (le_refl _), Nat.sub_self] at hyk
        have hyk2 : rsMem (unionAll [nps]) x := hyk
        refine ⟨(nps, f), List.mem_append_right _ (by simp), (hU'm x).mp hyk2, ?_⟩
        rw [hkn, hlen2, getD_append_right2 (le_refl _), Nat.sub_self]
        rfl
      · have hkn2 : k < st.domain_list.length := by omega
        rw [getD_append_left2 hkn2] at hyk
        obtain ⟨A, hA, hAx, hAv⟩ := inv.value x k hkn2 hyk
        refine ⟨A, List.mem_append_left _ hA, hAx, ?_⟩
        rw [getD_append_left2 (hlen2 ▸ hkn2)]
        exact hAv
    · intro k hk
      rw [List.length_append, List.length_singleton] at hk
      by_cases hkn : k = st.domain_list.length
      · rcases hci with ⟨c, hc⟩ | hinf
        · left
          refine ⟨c, ?_⟩
          rw [hkn, hlen2, getD_append_right2 (le_refl _), Nat.sub_self]
          exact hc
        · right
          rw [hkn, getD_append_right2 (le_refl _), Nat.sub_self]
          refine hinf.mono ?_
          intro y hy
          exact (hU'm y).mpr hy
      · have hkn2 : k < st.domain_list.length := by omega
        rw [getD_append_left2 hkn2, getD_append_left2 (hlen2 ▸ hkn2)]
        exact inv.cinf k hkn2

end ConstructorStep

section ConstructorPiece

theorem addNonPointPieces_var (st : BuildState) (nps : RS) (f : PolyF) :
    (addNonPointPieces st nps f).var = st.var := by
  unfold addNonPointPieces
  cases dictFind st.dict f <;> rfl

theorem addPointPiece_var (st : BuildState) (J : RInterval ℚ) (fc : PolyF) :
    (addPointPiece st J fc).var = st.var := by
  unfold addPointPiece
  cases dictFind st.dict fc <;> rfl

theorem foldPoints_var (g : RInterval ℚ → PolyF) :
    ∀ (pts : List (RInterval ℚ)) (st : BuildState),
    (pts.foldl (fun s J => addPointPiece s J (g J)) st).var = st.var := by
  intro pts
  induction pts with
  | nil => intro st; rfl
  | cons J rest ih =>
    intro st
    rw [List.foldl_cons, ih, addPointPiece_var]

theorem disj_symm : Symmetric (fun J K : RInterval ℚ => ∀ y, ¬ (J.Mem y ∧ K.Mem y)) := by
  rintro J K h y ⟨h1, h2⟩
  exact h y ⟨h2, h1⟩

theorem BSInv_foldPoints {v : String} {f : PolyF} (hfv : f.var = v)
    (hft : Trimmed f.coeffs) :
    ∀ (pts : List (RInterval ℚ)) {atoms : List (RS × PolyF)} {st : BuildState},
    BSInv v atoms st →
    (∀ J ∈ pts, J.NE ∧ J.lower = J.upper) →
    (∀ J ∈ pts, ∀ y, J.Mem y → ¬ ∃ A ∈ atoms, rsMem A.1 y) →
    List.Pairwise (fun J K => ∀ y, ¬ (J.Mem y ∧ K.Mem y)) pts →
    BSInv v (atoms ++ pts.map fun J =>
        ([J], (⟨polyConst (evalP f.coeffs J.lower), f.var⟩ : PolyF)))
      (pts.foldl (fun s J => addPointPiece s J
        ⟨polyConst (evalP f.coeffs J.lower), f.var⟩) st) := by
  intro pts
  induction pts with
  | nil =>
    intro atoms st inv _ _ _
    simpa using inv
  | cons J rest ih =>
    intro atoms st inv hpt hdisj hpair
    rw [List.foldl_cons]
    obtain ⟨hJNE, hJpt⟩ := hpt J (by simp)
    rw [addPointPiece_eq hJNE]
    have hwfJ : RSetWF [J] := by
      refine ⟨?_, List.chain'_singleton _⟩
      intro K hK
      rw [List.mem_singleton] at hK
      subst hK
      exact hJNE
    have hstep := BSInv_addNonPoint inv hwfJ (by simp)
      (show (⟨polyConst (evalP f.coeffs J.lower), f.var⟩ : PolyF).var = v from hfv)
      (trimmed_const _)
      (by
        intro y hy
        obtain ⟨K, hK, hKy⟩ := hy
        rw [List.mem_singleton] at hK
        rw [hK] at hKy
        exact hdisj J (by simp) y hKy)
      (Or.inl ⟨evalP f.coeffs J.lower, rfl⟩)
    have hassoc : atoms ++ (J :: rest).map (fun K =>
        ([K], (⟨polyConst (evalP f.coeffs K.lower), f.var⟩ : PolyF)))
        = (atoms ++ [([J], (⟨polyConst (evalP f.coeffs J.lower), f.var⟩ : PolyF))])
          ++ rest.map fun K =>
            ([K], (⟨polyConst (evalP f.coeffs K.lower), f.var⟩ : PolyF)) := by
      simp
    rw [hassoc]
    refine ih hstep (fun K hK => hpt K (by simp [hK])) ?_
      (List.pairwise_cons.mp hpair).2
    intro K hK y hKy
    rintro ⟨A, hA, hAy⟩
    rcases List.mem_append.mp hA with h | h
    · exact hdisj K (by simp [hK]) y hKy ⟨A, h, hAy⟩
    · rw [List.mem_singleton] at h
      subst h
      obtain ⟨M, hM, hMy⟩ := hAy
      rw [List.mem_singleton] at hM
      subst hM
      exact (List.pairwise_cons.mp hpair).1 K hK y ⟨hMy, hKy⟩

theorem processPiece_eq_varnone {st : BuildState} (h : st.var = none)
    (piece : RS × PolyF) (hne : ¬ piece.1.isEmpty = true) :
    processPiece st piece =
      Except.ok (processPieceBody { st with var := some piece.2.var } piece) := by
  unfold processPiece
  rw [if_neg hne, h]

theorem processPiece_eq_varsome {st : BuildState} {v0 : String}
    (h : st.var = some v0) (piece : RS × PolyF) (hne : ¬ piece.1.isEmpty = true) :
    processPiece st piece =
      if piece.2.var = v0 then Except.ok (processPieceBody st piece)
      else Except.error PWErr.inconsistentVariable := by
  unfold processPiece
  rw [if_neg hne, h]

theorem processPiece_ok {v : String} {atoms : List (RS × PolyF)} {st : BuildState}
    {dom : RS} {f : PolyF}
    (inv : BSInv v atoms st) (hva : VarOk v st)
    (hdwf : RSetWF dom) (hfv : f.var = v) (hft : Trimmed f.coeffs)
    (hdisj : ∀ y, rsMem dom y → ¬ ∃ A ∈ atoms, rsMem A.1 y) :
    ∃ st2, processPiece st (dom, f) = Except.ok st2 ∧
      BSInv v (atoms ++ pieceAtoms (dom, f)) st2 ∧ VarOk v st2 := by
  have hbody : ∀ (stb : BuildState), BSInv v atoms stb → stb.var = some v →
      dom ≠ [] →
      BSInv v (atoms ++ pieceAtoms (dom, f)) (processPieceBody stb (dom, f)) ∧
      (processPieceBody stb (dom, f)).var = some v := by
    intro stb invb hvb hdne
    have hptc : ∀ J ∈ (dom.filter fun J => J.lower == J.upper),
        J.NE ∧ J.lower = J.upper := by
      intro J hJ
      obtain ⟨h1, h2⟩ := List.mem_filter.mp hJ
      exact ⟨hdwf.1 J h1, by simpa using h2⟩
    have hdisjp : ∀ J ∈ (dom.filter fun J => J.lower == J.upper),
        ∀ y, J.Mem y → ¬ ∃ A ∈ atoms, rsMem A.1 y := by
      intro J hJ y hy
      exact hdisj y ⟨J, (List.mem_filter.mp hJ).1, hy⟩
    have hpairp : List.Pairwise (fun J K => ∀ y, ¬ (J.Mem y ∧ K.Mem y))
        (dom.filter fun J => J.lower == J.upper) :=
      (RSetWF_pairwise_disjoint hdwf).sublist (List.filter_sublist _)
    have hfold := BSInv_foldPoints hfv hft
      (dom.filter fun J => J.lower == J.upper) invb hptc hdisjp hpairp
    have hfvar := foldPoints_var
      (fun J => (⟨polyConst (evalP f.coeffs J.lower), f.var⟩ : PolyF))
      (dom.filter fun J => J.lower == J.upper) stb
    unfold processPieceBody
    by_cases hne : ((dom, f).1.filter fun J => ! (J.lower == J.upper)).isEmpty
    · rw [if_pos hne]
      have hnil : (dom.filter fun J => ! (J.lower == J.upper)) = [] :=
        List.isEmpty_iff.mp hne
      have hpa : pieceAtoms (dom, f) = (dom.filter fun J => J.lower == J.upper).map
          fun J => ([J], (⟨polyConst (evalP f.coeffs J.lower), f.var⟩ : PolyF)) := by
        unfold pieceAtoms
        rw [if_pos hnil, List.append_nil]
      rw [hpa]
      exact ⟨hfold, by rw [hfvar]; exact hvb⟩
    · rw [if_neg hne]
      have hnil : (dom.filter fun J => ! (J.lower == J.upper)) ≠ [] := by
        intro h
        exact hne (by rw [h]; rfl)
      have hwfn : RSetWF (dom.filter fun J => ! (J.lower == J.upper)) :=
        RSetWF_sublist hdwf (List.filter_sublist _)
      have hdisjn : ∀ y, rsMem (dom.filter fun J => ! (J.lower == J.upper)) y →
          ¬ ∃ A ∈ atoms ++ (dom.filter fun J => J.lower == J.upper).map
            (fun J => ([J], (⟨polyConst (evalP f.coeffs J.lower), f.var⟩ : PolyF))),
            rsMem A.1 y := by
        intro y hy
        obtain ⟨K, hK, hKy⟩ := hy
        rintro ⟨A, hA, hAy⟩
        rcases List.mem_append.mp hA with h | h
        · exact hdisj y ⟨K, (List.mem_filter.mp hK).1, hKy⟩ ⟨A, h, hAy⟩
        · rw [List.mem_map] at h
          obtain ⟨J, hJ, rfl⟩ := h
          obtain ⟨M, hM, hMy⟩ := hAy
          rw [List.mem_singleton] at hM
          rw [hM] at hMy
          have hJK : J ≠ K := by
            intro h
            have h1 : (J.lower == J.upper) = true := (List.mem_filter.mp hJ).2
            have h2 : (! (K.lower == K.upper)) = true := (List.mem_filter.mp hK).2
            rw [h] at h1
            rw [h1] at h2
            simp at h2
          exact (RSetWF_pairwise_disjoint hdwf).forall disj_symm
            (List.mem_of_mem_filter hJ) (List.mem_of_mem_filter hK) hJK y ⟨hMy, hKy⟩
      have hcin : (∃ c, f.coeffs = polyConst c) ∨
          Set.Infinite {y : ℚ | rsMem (dom.filter fun J => ! (J.lower == J.upper)) y} := by
        right
        cases hnps : (dom.filter fun J => ! (J.lower == J.upper)) with
        | nil => exact absurd hnps hnil
        | cons J0 tl =>
          have hJ0f : J0 ∈ (dom.filter fun J => ! (J.lower == J.upper)) := by
            rw [hnps]
            simp
          have hJ0NE : J0.NE := hdwf.1 J0 (List.mem_of_mem_filter hJ0f)
          have hJ0pt : J0.lower ≠ J0.upper := by
            have := (List.mem_filter.mp hJ0f).2
            simpa using this
          refine (rint_infinite_mem hJ0NE hJ0pt).mono ?_
          intro y hy
          exact ⟨J0, by simp, hy⟩
      have hstep := BSInv_addNonPoint hfold hwfn hnil hfv hft hdisjn hcin
      have hassoc : (atoms ++ (dom.filter fun J => J.lower == J.upper).map
          (fun J => ([J], (⟨polyConst (evalP f.coeffs J.lower), f.var⟩ : PolyF))))
          ++ [((dom.filter fun J => ! (J.lower == J.upper)), f)]
          = atoms ++ pieceAtoms (dom, f) := by
        unfold pieceAtoms
        rw [if_neg hnil, List.append_assoc]
      rw [hassoc] at hstep
      refine ⟨hstep, ?_⟩
      rw [addNonPointPieces_var, hfvar]
      exact hvb
  by_cases hde : ((dom, f) : RS × PolyF).1.isEmpty
  · have hdnil : dom = [] := List.isEmpty_iff.mp hde
    have heq : processPiece st (dom, f) = Except.ok st := by
      unfold processPiece
      rw [if_pos hde]
    refine ⟨st, heq, ?_, hva⟩
    have hpa : pieceAtoms (dom, f) = [] := by
      unfold pieceAtoms
      subst hdnil
      simp
    rw [hpa, List.append_nil]
    exact inv
  · have hdne : dom ≠ [] := by
      intro h
      rw [h] at hde
      exact hde rfl
    have hfuncs_ne : ∀ st2, BSInv v (atoms ++ pieceAtoms (dom, f)) st2 →
        st2.func_list ≠ [] := by
      intro st2 inv2
      obtain ⟨y1, hy1⟩ := rs_nonempty_mem hdwf hdne
      obtain ⟨A, hA, hAy⟩ := @pieceAtoms_mem_sup (dom, f) y1 hy1
      obtain ⟨k, hk, _⟩ := (inv2.cover y1).mpr
        ⟨A, List.mem_append_right _ hA, hAy⟩
      intro hf0
      rw [inv2.len, hf0] at hk
      simp at hk
    rcases hva with ⟨hv, _⟩ | ⟨hv, hf0⟩
    · have heq : processPiece st (dom, f) =
          Except.ok (processPieceBody st (dom, f)) := by
        rw [processPiece_eq_varsome hv (dom, f) hde]
        rw [if_pos (show ((dom, f) : RS × PolyF).2.var = v from hfv)]
      obtain ⟨hinv2, hvar2⟩ := hbody st inv hv hdne
      exact ⟨processPieceBody st (dom, f), heq,
        hinv2, Or.inl ⟨hvar2, hfuncs_ne _ hinv2⟩⟩
    · have heq : processPiece st (dom, f) =
          Except.ok (processPieceBody { st with var := some f.var } (dom, f)) :=
        processPiece_eq_varnone hv (dom, f) hde
      have hinvb : BSInv v atoms { st with var := some f.var } :=
        ⟨inv.len, inv.wf, inv.dne, inv.trm, inv.varf, inv.dict, inv.disj,
          inv.cover, inv.value, inv.cinf⟩
      obtain ⟨hinv2, hvar2⟩ := hbody { st with var := some f.var } hinvb
        (by rw [hfv]) hdne
      exact ⟨processPieceBody { st with var := some f.var } (dom, f), heq,
        hinv2, Or.inl ⟨hvar2, hfuncs_ne _ hinv2⟩⟩

end ConstructorPiece

section ConstructorFold

theorem build_fold_ok {v : String} :
    ∀ (pieces : List (RS × PolyF)) {atoms : List (RS × PolyF)} {st : BuildState},
    BSInv v atoms st → VarOk v st →
    (∀ pr ∈ pieces, RSetWF pr.1 ∧ pr.2.var = v ∧ Trimmed pr.2.coeffs) →
    (∀ pr ∈ pieces, ∀ y, rsMem pr.1 y → ¬ ∃ A ∈ atoms, rsMem A.1 y) →
    List.Pairwise (fun a b => ∀ y, ¬ (rsMem a.1 y ∧ rsMem b.1 y)) pieces →
    ∃ st2, pieces.foldlM processPiece st = Except.ok st2 ∧
      BSInv v (atoms ++ pieces.flatMap pieceAtoms) st2 ∧ VarOk v st2 := by
  intro pieces
  induction pieces with
  | nil =>
    intro atoms st inv hva _ _ _
    exact ⟨st, rfl, by simpa using inv, hva⟩
  | cons pr rest ih =>
    intro atoms st inv hva hgood hdisj hpair
    obtain ⟨dom, f⟩ := pr
    obtain ⟨hwf, hfv, hft⟩ := hgood (dom, f) (by simp)
    obtain ⟨st1, heq1, hinv1, hva1⟩ :=
      processPiece_ok inv hva hwf hfv hft (hdisj (dom, f) (by simp))
    have hdisj1 : ∀ pr2 ∈ rest, ∀ y, rsMem pr2.1 y →
        ¬ ∃ A ∈ atoms ++ pieceAtoms (dom, f), rsMem A.1 y := by
      intro pr2 hpr2 y hy
      rintro ⟨A, hA, hAy⟩
      rcases List.mem_append.mp hA with h | h
      · exact hdisj pr2 (by simp [hpr2]) y hy ⟨A, h, hAy⟩
      · exact (List.pairwise_cons.mp hpair).1 pr2 hpr2 y
          ⟨pieceAtoms_mem_sub h hAy, hy⟩
    obtain ⟨st2, heq2, hinv2, hva2⟩ := ih hinv1 hva1
      (fun pr2 hpr2 => hgood pr2 (by simp [hpr2])) hdisj1
      (List.pairwise_cons.mp hpair).2
    refine ⟨st2, ?_, ?_, hva2⟩
    · rw [List.foldlM_cons, heq1]
      exact heq2
    · have hassoc : (atoms ++ pieceAtoms (dom, f)) ++ rest.flatMap pieceAtoms
          = atoms ++ ((dom, f) :: rest).flatMap pieceAtoms := by
        rw [List.flatMap_cons, List.append_assoc]
      rw [← hassoc]
      exact hinv2

theorem mkPiecewise_sem (v : String) (pieces : List (RS × PolyF))
    (hgood : ∀ pr ∈ pieces, RSetWF pr.1 ∧ pr.2.var = v ∧ Trimmed pr.2.coeffs)
    (hdisj : List.Pairwise (fun a b => ∀ y, ¬ (rsMem a.1 y ∧ rsMem b.1 y)) pieces) :
    ∃ r, mkPiecewise pieces = Except.ok r ∧ PWGood r ∧
      ((∃ pr ∈ pieces, pr.1 ≠ []) → r.var = some v) ∧
      (∀ x, rsMem r.support x ↔ ∃ pr ∈ pieces, rsMem pr.1 x) ∧
      (∀ x, pwEvalAt r x = piecesEval pieces x) ∧
      (∀ k, k < r.domain_list.length →
        (∃ c, (r.func_list.getD k (zeroPF v)).coeffs = polyConst c) ∨
        Set.Infinite {y : ℚ | rsMem (r.domain_list.getD k []) y}) := by
  have inv0 : BSInv v [] ⟨[], [], none, []⟩ := by
    refine ⟨rfl, by simp, by simp, by simp, by simp, by simp, ?_, ?_, ?_, ?_⟩
    · intro j k _ hk
      simp at hk
    · intro x
      simp
    · intro x k hk
      simp at hk
    · intro k hk
      simp at hk
  obtain ⟨st2, hfold, hinv0, hva⟩ := build_fold_ok pieces inv0
    (Or.inr ⟨rfl, rfl⟩) hgood
    (by
      intro pr _ y _
      rintro ⟨A, hA, _⟩
      simp at hA) hdisj
  have hinv : BSInv v (pieces.flatMap pieceAtoms) st2 := by
    rwa [List.nil_append] at hinv0
  have hdisjSem : List.Pairwise (fun A B => ∀ y, ¬ (rsMem A y ∧ rsMem B y))
      st2.domain_list :=
    pairwise_of_indexed [] fun j k hjk hk => hinv.disj j k hjk hk
  have hdisjB : are_pairwise_disjoint st2.domain_list = true :=
    are_pairwise_disjoint_complete hdisjSem
  have hmk : mkPiecewise pieces = Except.ok
      ⟨st2.domain_list, st2.func_list, st2.var, unionAll st2.domain_list⟩ := by
    unfold mkPiecewise
    rw [hfold]
    show (if are_pairwise_disjoint st2.domain_list = true
        then (pure ⟨st2.domain_list, st2.func_list, st2.var,
          unionAll st2.domain_list⟩ : Except PWErr PiecewiseFunction)
        else throw PWErr.overlappingDomains) = _
    rw [if_pos hdisjB]
    rfl
  have hatoms_mem : ∀ x, (∃ A ∈ pieces.flatMap pieceAtoms, rsMem A.1 x) ↔
      ∃ pr ∈ pieces, rsMem pr.1 x := by
    intro x
    constructor
    · rintro ⟨A, hA, hAx⟩
      obtain ⟨pr1, hpr1, hA1⟩ := List.mem_flatMap.mp hA
      exact ⟨pr1, hpr1, pieceAtoms_mem_sub hA1 hAx⟩
    · rintro ⟨pr1, hpr1, hx⟩
      obtain ⟨A, hA, hAx⟩ := pieceAtoms_mem_sup hx
      exact ⟨A, List.mem_flatMap.mpr ⟨pr1, hpr1, hA⟩, hAx⟩
  have hfuncs_var : ∀ g ∈ st2.func_list, st2.var = some g.var := by
    intro g hg
    rcases hva with ⟨hv, _⟩ | ⟨_, hf0⟩
    · rw [hv, hinv.varf g hg]
    · rw [hf0] at hg
      simp at hg
  refine ⟨⟨st2.domain_list, st2.func_list, st2.var, unionAll st2.domain_list⟩,
    hmk, ?_, ?_, ?_, ?_, hinv.cinf⟩
  · refine ⟨hinv.len, ?_, ?_, ?_, rfl, hdisjB⟩
    · intro D hD
      exact ⟨hinv.wf D hD, hinv.dne D hD⟩
    · intro g hg
      exact ⟨hinv.trm g hg, hfuncs_var g hg⟩
    · intro hf0
      rcases hva with ⟨_, hne⟩ | ⟨hv, _⟩
      · exact absurd hf0 hne
      · exact hv
  · rintro ⟨pr0, hpr0, hne0⟩
    obtain ⟨y1, hy1⟩ := rs_nonempty_mem (hgood pr0 hpr0).1 hne0
    obtain ⟨A, hA, hAy⟩ := pieceAtoms_mem_sup hy1
    obtain ⟨k, hk, _⟩ := (hinv.cover y1).mpr
      ⟨A, List.mem_flatMap.mpr ⟨pr0, hpr0, hA⟩, hAy⟩
    rcases hva with ⟨hv, _⟩ | ⟨_, hf0⟩
    · exact hv
    · rw [hinv.len, hf0] at hk
      simp at hk
  · intro x
    show rsMem (unionAll st2.domain_list) x ↔ _
    rw [unionAll_mem]
    rw [exists_mem_iff_index st2.domain_list (fun D => rsMem D x) []]
    rw [hinv.cover x]
    exact hatoms_mem x
  · intro x
    by_cases hcov : ∃ pr ∈ pieces, rsMem pr.1 x
    · obtain ⟨k, hk, hky⟩ := (hinv.cover x).mpr ((hatoms_mem x).mpr hcov)
      obtain ⟨A, hAf, hAx, hAv⟩ := hinv.value x k hk hky
      obtain ⟨pr2, hpr2, hA2⟩ := List.mem_flatMap.mp hAf
      have hx2 : rsMem pr2.1 x := pieceAtoms_mem_sub hA2 hAx
      have hL : pwEvalAt ⟨st2.domain_list, st2.func_list, st2.var,
          unionAll st2.domain_list⟩ x =
          some (evalP ((st2.func_list.getD k (zeroPF v)).coeffs) x) :=
        pwEval_some hinv.len hdisjSem hk hky (zeroPF v)
      rw [hL, piecesEval_eq_some hdisj hpr2 hx2, hAv, pieceAtoms_value hA2 hAx]
    · have hR : piecesEval pieces x = none := by
        refine piecesEval_eq_none ?_
        intro pr hpr hx
        exact hcov ⟨pr, hpr, hx⟩
      have hL : pwEvalAt ⟨st2.domain_list, st2.func_list, st2.var,
          unionAll st2.domain_list⟩ x = none := by
        refine pwEval_none ?_
        intro D hD hDx
        obtain ⟨k, hk, hky⟩ := (exists_mem_iff_index st2.domain_list
          (fun D => rsMem D x) []).mp ⟨D, hD, hDx⟩
        exact hcov ((hatoms_mem x).mp ((hinv.cover x).mp ⟨k, hk, hky⟩))
      rw [hL, hR]

end ConstructorFold

section ConstructorErrors

theorem processPiece_err {st : BuildState} {piece : RS × PolyF} {e : PWErr}
    (h : processPiece st piece = Except.error e) :
    e = PWErr.inconsistentVariable := by
  by_cases hde : piece.1.isEmpty
  · unfold processPiece at h
    rw [if_pos hde] at h
    exact absurd h (by simp)
  · cases hv : st.var with
    | none =>
      rw [processPiece_eq_varnone hv piece hde] at h
      exact absurd h (by simp)
    | some v0 =>
      rw [processPiece_eq_varsome hv piece hde] at h
      by_cases hfv : piece.2.var = v0
      · rw [if_pos hfv] at h
        exact absurd h (by simp)
      · rw [if_neg hfv] at h
        have h2 := h
        injection h2 with h3
        exact h3.symm

theorem foldlM_processPiece_err :
    ∀ {pieces : List (RS × PolyF)} {st : BuildState} {e : PWErr},
    pieces.foldlM processPiece st = Except.error e →
    e = PWErr.inconsistentVariable := by
  intro pieces
  induction pieces with
  | nil =>
    intro st e h
    exact Except.noConfusion h
  | cons pr rest ih =>
    intro st e h
    rw [List.foldlM_cons] at h
    cases hp : processPiece st pr with
    | error e2 =>
      rw [hp] at h
      have h2 : (Except.error e2 : Except PWErr BuildState) >>=
          (fun s => rest.foldlM processPiece s) = Except.error e2 := rfl
      rw [h2] at h
      injection h with h3
      rw [← h3]
      exact processPiece_err hp
    | ok st1 =>
      rw [hp] at h
      have h2 : (Except.ok st1 : Except PWErr BuildState) >>=
          (fun s => rest.foldlM processPiece s) = rest.foldlM processPiece st1 := rfl
      rw [h2] at h
      exact ih h

theorem mkPiecewise_err {pieces : List (RS × PolyF)} {e : PWErr}
    (h : mkPiecewise pieces = Except.error e) :
    e = PWErr.inconsistentVariable ∨ e = PWErr.overlappingDomains := by
  unfold mkPiecewise at h
  cases hp : pieces.foldlM processPiece ⟨[], [], none, []⟩ with
  | error e2 =>
    rw [hp] at h
    have h2 : (Except.error e2 : Except PWErr BuildState) >>= (fun st =>
        if are_pairwise_disjoint st.domain_list then
          (pure ⟨st.domain_list, st.func_list, st.var, unionAll st.domain_list⟩ :
            Except PWErr PiecewiseFunction)
        else throw PWErr.overlappingDomains) = Except.error e2 := rfl
    rw [h2] at h
    injection h with h3
    rw [← h3]
    exact Or.inl (foldlM_processPiece_err hp)
  | ok st2 =>
    rw [hp] at h
    have h2 : (Except.ok st2 : Except PWErr BuildState) >>= (fun st =>
        if are_pairwise_disjoint st.domain_list then
          (pure ⟨st.domain_list, st.func_list, st.var, unionAll st.domain_list⟩ :
            Except PWErr PiecewiseFunction)
        else throw PWErr.overlappingDomains) =
        (if are_pairwise_disjoint st2.domain_list then
          (pure ⟨st2.domain_list, st2.func_list, st2.var,
            unionAll st2.domain_list⟩ : Except PWErr PiecewiseFunction)
        else throw PWErr.overlappingDomains) := rfl
    rw [h2] at h
    by_cases hd : are_pairwise_disjoint st2.domain_list = true
    · rw [if_pos hd] at h
      exact Except.noConfusion h
    · rw [if_neg hd] at h
      have h3 := h
      injection h3 with h4
      exact Or.inr h4.symm

/-- The successful constructor run, characterized: success happens exactly
when the coalesced state passes the disjointness check. -/
theorem mkPiecewise_ok_iff (pieces : List (RS × PolyF)) (r : PiecewiseFunction) :
    mkPiecewise pieces = Except.ok r ↔
      ∃ st2, pieces.foldlM processPiece ⟨[], [], none, []⟩ = Except.ok st2 ∧
        are_pairwise_disjoint st2.domain_list = true ∧
        r = ⟨st2.domain_list, st2.func_list, st2.var, unionAll st2.domain_list⟩ := by
  constructor
  · intro h
    unfold mkPiecewise at h
    cases hp : pieces.foldlM processPiece ⟨[], [], none, []⟩ with
    | error e2 =>
      rw [hp] at h
      have h2 : (Except.error e2 : Except PWErr BuildState) >>= (fun st =>
          if are_pairwise_disjoint st.domain_list then
            (pure ⟨st.domain_list, st.func_list, st.var, unionAll st.domain_list⟩ :
              Except PWErr PiecewiseFunction)
          else throw PWErr.overlappingDomains) = Except.error e2 := rfl
      rw [h2] at h
      exact absurd h (by simp)
    | ok st2 =>
      rw [hp] at h
      have h2 : (Except.ok st2 : Except PWErr BuildState) >>= (fun st =>
          if are_pairwise_disjoint st.domain_list then
            (pure ⟨st.domain_list, st.func_list, st.var, unionAll st.domain_list⟩ :
              Except PWErr PiecewiseFunction)
          else throw PWErr.overlappingDomains) =
          (if are_pairwise_disjoint st2.domain_list then
            (pure ⟨st2.domain_list, st2.func_list, st2.var,
              unionAll st2.domain_list⟩ : Except PWErr PiecewiseFunction)
          else throw PWErr.overlappingDomains) := rfl
      rw [h2] at h
      by_cases hd : are_pairwise_disjoint st2.domain_list = true
      · rw [if_pos hd] at h
        refine ⟨st2, rfl, hd, ?_⟩
        have h3 := h
        injection h3 with h4
        exact h4.symm
      · rw [if_neg hd] at h
        exact absurd h (by simp)
  · rintro ⟨st2, hp, hd, rfl⟩
    unfold mkPiecewise
    rw [hp]
    show (if are_pairwise_disjoint st2.domain_list = true
        then (pure ⟨st2.domain_list, st2.func_list, st2.var,
          unionAll st2.domain_list⟩ : Except PWErr PiecewiseFunction)
        else throw PWErr.overlappingDomains) = _
    rw [if_pos hd]
    rfl

end ConstructorErrors

section CombineSemantics

/-- The defined value of a piecewise function at a point, with `0` for the
undefined case (the additive identity used by the combiners). -/
def valD (p : PiecewiseFunction) (x : ℚ) : ℚ := (pwEvalAt p x).getD 0

theorem coverCount_pos_iff (D : RS) (x : ℚ) :
    0 < coverCount D x ↔ rsMem D x := by
  unfold coverCount
  rw [show (0 : ℤ) < (D.countP fun J => decide (J.Mem x)) ↔
      0 < D.countP fun J => decide (J.Mem x) by exact_mod_cast Iff.rfl]
  rw [List.countP_pos_iff]
  constructor
  · rintro ⟨J, hJ, hy⟩
    exact ⟨J, hJ, of_decide_eq_true hy⟩
  · rintro ⟨J, hJ, hy⟩
    exact ⟨J, hJ, decide_eq_true hy⟩

theorem coverCount_eq_zero {D : RS} {x : ℚ} (h : ¬ rsMem D x) :
    coverCount D x = 0 := by
  unfold coverCount
  have : D.countP (fun J => decide (J.Mem x)) = 0 := by
    rw [List.countP_eq_zero]
    intro J hJ hd
    exact h ⟨J, hJ, of_decide_eq_true hd⟩
  rw [this]
  rfl

theorem getD_default2 {β : Type} {l : List β} {k : ℕ} (h : l.length ≤ k) (d : β) :
    l.getD k d = d := by
  rw [List.getD_eq_getElem?_getD, List.getElem?_eq_none h]
  rfl

theorem getD_funcs_var {funcs : List PolyF} {v : String}
    (h : ∀ g ∈ funcs, g.var = v) (k : ℕ) : (funcs.getD k (zeroPF v)).var = v := by
  by_cases hk : k < funcs.length
  · exact h _ (getD_mem2 hk _)
  · rw [getD_default2 (le_of_not_lt hk)]
    rfl

theorem selectedSum_var {funcs : List PolyF} {v : String}
    (h : ∀ g ∈ funcs, g.var = v) (inds : List ℤ) :
    (selectedSum funcs inds v).var = v := by
  unfold selectedSum
  have haux : ∀ (l : List (ℕ × ℤ)) (acc : PolyF), acc.var = v →
      (l.foldl (fun acc pr => if pr.2 > 0
        then addPF acc (funcs.getD pr.1 (zeroPF v)) else acc) acc).var = v := by
    intro l
    induction l with
    | nil => intro acc hacc; exact hacc
    | cons pr t ih =>
      intro acc hacc
      rw [List.foldl_cons]
      by_cases hp : pr.2 > 0
      · rw [if_pos hp]
        exact ih _ (getD_funcs_var h pr.1)
      · rw [if_neg hp]
        exact ih _ hacc
  exact haux _ _ rfl

theorem selectedProd_var {funcs : List PolyF} {v : String}
    (h : ∀ g ∈ funcs, g.var = v) (inds : List ℤ) :
    (selectedProd funcs inds v).var = v := by
  unfold selectedProd
  have haux : ∀ (l : List (ℕ × ℤ)) (acc : PolyF), acc.var = v →
      (l.foldl (fun acc pr => if pr.2 > 0
        then mulPF acc (funcs.getD pr.1 (onePF v)) else acc) acc).var = v := by
    intro l
    induction l with
    | nil => intro acc hacc; exact hacc
    | cons pr t ih =>
      intro acc hacc
      rw [List.foldl_cons]
      by_cases hp : pr.2 > 0
      · rw [if_pos hp]
        refine ih _ ?_
        show (funcs.getD pr.1 (onePF v)).var = v
        by_cases hk : pr.1 < funcs.length
        · exact h _ (getD_mem2 hk _)
        · rw [getD_default2 (le_of_not_lt hk)]
          rfl
      · rw [if_neg hp]
        exact ih _ hacc
  exact haux _ _ rfl

theorem selectedSum_trimmed (funcs : List PolyF) (inds : List ℤ) (v : String) :
    Trimmed (selectedSum funcs inds v).coeffs := by
  unfold selectedSum
  have haux : ∀ (l : List (ℕ × ℤ)) (acc : PolyF), Trimmed acc.coeffs →
      Trimmed (l.foldl (fun acc pr => if pr.2 > 0
        then addPF acc (funcs.getD pr.1 (zeroPF v)) else acc) acc).coeffs := by
    intro l
    induction l with
    | nil => intro acc hacc; exact hacc
    | cons pr t ih =>
      intro acc hacc
      rw [List.foldl_cons]
      by_cases hp : pr.2 > 0
      · rw [if_pos hp]
        exact ih _ (trimmed_ops_add _ _)
      · rw [if_neg hp]
        exact ih _ hacc
  exact haux _ _ rfl

theorem selectedSum_eval (funcs : List PolyF) (v : String) (x : ℚ) :
    ∀ (l : List (ℕ × ℤ)) (acc : PolyF),
    evalP ((l.foldl (fun acc pr => if pr.2 > 0
        then addPF acc (funcs.getD pr.1 (zeroPF v)) else acc) acc).coeffs) x
      = evalP acc.coeffs x +
        (l.map fun pr => if pr.2 > 0
          then evalP ((funcs.getD pr.1 (zeroPF v)).coeffs) x else 0).sum := by
  intro l
  induction l with
  | nil =>
    intro acc
    simp
  | cons pr t ih =>
    intro acc
    rw [List.foldl_cons, List.map_cons, List.sum_cons]
    by_cases hp : pr.2 > 0
    · rw [if_pos hp, if_pos hp, ih]
      show evalP (polyAdd acc.coeffs (funcs.getD pr.1 (zeroPF v)).coeffs) x + _ = _
      rw [evalP_add]
      ring
    · rw [if_neg hp, if_neg hp, ih]
      ring

theorem enum_map_sum (g : ℕ → ℚ) :
    ∀ (cs : List ℤ) (k : ℕ),
    ((cs.enumFrom k).map fun pr => if pr.2 > 0 then g pr.1 else 0).sum
      = ∑ i ∈ Finset.range cs.length, if 0 < cs.getD i 0 then g (k + i) else 0 := by
  intro cs
  induction cs with
  | nil =>
    intro k
    simp
  | cons c t ih =>
    intro k
    rw [List.enumFrom_cons, List.map_cons, List.sum_cons, ih (k + 1)]
    rw [List.length_cons, Finset.sum_range_succ']
    have h1 : ∀ i ∈ Finset.range t.length,
        (if 0 < (c :: t).getD (i + 1) 0 then g (k + (i + 1)) else 0)
        = (if 0 < t.getD i 0 then g (k + 1 + i) else 0) := by
      intro i _
      rw [List.getD_cons_succ]
      rw [show k + (i + 1) = k + 1 + i by omega]
    rw [Finset.sum_congr rfl h1, List.getD_cons_zero]
    rw [show k + 0 = k by omega]
    exact add_comm _ _

end CombineSemantics

section CombineSemantics2

theorem PWGood_disj_index {p : PiecewiseFunction} (h : PWGood p)
    {j k : ℕ} (hne : j ≠ k) (hj : j < p.domain_list.length)
    (hk : k < p.domain_list.length) (y : ℚ) :
    ¬ (rsMem (p.domain_list.getD j []) y ∧ rsMem (p.domain_list.getD k []) y) := by
  have hp := PWGood_disj h
  rw [List.pairwise_iff_getElem] at hp
  have hgd : ∀ m, (hm : m < p.domain_list.length) →
      p.domain_list.getD m [] = p.domain_list[m] := by
    intro m hm
    rw [List.getD_eq_getElem?_getD, List.getElem?_eq_getElem hm]
    rfl
  rcases Nat.lt_or_ge j k with hlt | hge
  · rw [hgd j hj, hgd k hk]
    exact hp j k hj hk hlt y
  · have hlt : k < j := by omega
    rw [hgd j hj, hgd k hk]
    rintro ⟨h1, h2⟩
    exact hp k j hk hj hlt y ⟨h2, h1⟩

/-- The value of a one-sided selection sum: the summand of the unique covering
piece, or `0` when the point is uncovered. -/
theorem side_sum {P : PiecewiseFunction} (hP : PWGood P) (x : ℚ) (v : String)
    (c : ℕ → ℤ)
    (hc : ∀ i, i < P.domain_list.length →
      c i = coverCount (P.domain_list.getD i []) x) :
    (∑ i ∈ Finset.range P.domain_list.length,
      if 0 < c i then evalP ((P.func_list.getD i (zeroPF v)).coeffs) x else 0)
    = valD P x := by
  by_cases hcov : ∃ k, k < P.domain_list.length ∧
      rsMem (P.domain_list.getD k []) x
  · obtain ⟨k, hk, hkx⟩ := hcov
    have hsum := @Finset.sum_eq_single_of_mem _ _ _
      (Finset.range P.domain_list.length)
      (fun i => if 0 < c i
        then evalP ((P.func_list.getD i (zeroPF v)).coeffs) x else 0)
      k (Finset.mem_range.mpr hk) ?_
    · rw [hsum]
      dsimp only
      rw [if_pos]
      · unfold valD
        rw [pwEvalAt_eq_piecesEval, pwEval_some hP.1 (PWGood_disj hP) hk hkx (zeroPF v)]
        rfl
      · rw [hc k hk]
        exact (coverCount_pos_iff _ _).mpr hkx
    · intro i hi hik
      dsimp only
      rw [if_neg]
      rw [hc i (Finset.mem_range.mp hi)]
      intro hpos
      have hix := (coverCount_pos_iff _ _).mp hpos
      exact PWGood_disj_index hP hik (Finset.mem_range.mp hi) hk x ⟨hix, hkx⟩
  · have hzero : ∀ i ∈ Finset.range P.domain_list.length,
        (if 0 < c i then evalP ((P.func_list.getD i (zeroPF v)).coeffs) x else 0)
          = 0 := by
      intro i hi
      rw [if_neg]
      rw [hc i (Finset.mem_range.mp hi)]
      intro hpos
      exact hcov ⟨i, Finset.mem_range.mp hi, (coverCount_pos_iff _ _).mp hpos⟩
    rw [Finset.sum_congr rfl hzero, Finset.sum_const_zero]
    unfold valD
    rw [pwEvalAt_eq_piecesEval, pwEval_none]
    · rfl
    · intro D hD hDx
      obtain ⟨i, hi, hix⟩ := (exists_mem_iff_index P.domain_list
        (fun D => rsMem D x) []).mp ⟨D, hD, hDx⟩
      exact hcov ⟨i, hi, hix⟩

theorem foldr_union_true (fs : List PolyF) (v : String) :
    ∀ l : List (RInterval ℚ × List ℤ),
    (l.foldr (fun pr acc => if !true && pr.2.sum < 2 then acc
      else ([pr.1], selectedSum fs pr.2 v) :: acc) [])
    = l.map fun pr => ([pr.1], selectedSum fs pr.2 v) := by
  intro l
  induction l with
  | nil => rfl
  | cons pr t ih =>
    rw [List.foldr_cons, List.map_cons, ih]
    rw [if_neg]
    simp

theorem mulfoldr_union_true (fs : List PolyF) (v : String) :
    ∀ l : List (RInterval ℚ × List ℤ),
    (l.foldr (fun pr acc => if !true && pr.2.sum < 2 then acc
      else ([pr.1], selectedProd fs pr.2 v) :: acc) [])
    = l.map fun pr => ([pr.1], selectedProd fs pr.2 v) := by
  intro l
  induction l with
  | nil => rfl
  | cons pr t ih =>
    rw [List.foldr_cons, List.map_cons, ih]
    rw [if_neg]
    simp

end CombineSemantics2

section AddGeneralSemantics

theorem PWGood_funcs_var {p : PiecewiseFunction} (hp : PWGood p) :
    ∀ g ∈ p.func_list, g.var = varName p := by
  intro g hg
  have h := (hp.2.2.1 g hg).2
  unfold varName
  rw [h]

theorem piecewise_add_general_sem {p q : PiecewiseFunction}
    (hp : PWGood p) (hq : PWGood q) (hv : p.var = q.var) :
    ∃ r, piecewise_add_general p q true = Except.ok r ∧ PWGood r ∧
      ((∃ x, rsMem p.support x ∨ rsMem q.support x) → r.var = some (varName p)) ∧
      ((∀ x, ¬ (rsMem p.support x ∨ rsMem q.support x)) → r.var = none) ∧
      (∀ x, rsMem r.support x ↔ rsMem p.support x ∨ rsMem q.support x) ∧
      (∀ x, rsMem p.support x ∨ rsMem q.support x →
        pwEvalAt r x = some (valD p x + valD q x)) ∧
      (∀ x, ¬ (rsMem p.support x ∨ rsMem q.support x) → pwEvalAt r x = none) ∧
      (∀ k, k < r.domain_list.length →
        (∃ c, (r.func_list.getD k (zeroPF (varName p))).coeffs = polyConst c) ∨
        Set.Infinite {y : ℚ | rsMem (r.domain_list.getD k []) y}) := by
  have hfvars : ∀ g ∈ p.func_list ++ q.func_list, g.var = varName p := by
    intro g hg
    rcases List.mem_append.mp hg with h | h
    · exact PWGood_funcs_var hp g h
    · have h2 := (hq.2.2.1 g h).2
      unfold varName
      rw [hv, h2]
  have hwfall : ∀ D ∈ p.domain_list ++ q.domain_list, RSetWF D := by
    intro D hD
    rcases List.mem_append.mp hD with h | h
    · exact (hp.2.1 D h).1
    · exact (hq.2.1 D h).1
  obtain ⟨hmem, hdisjP, hcnt, hNE⟩ := fp_spec (p.domain_list ++ q.domain_list) hwfall
  have hred : piecewise_add_general p q true = mkPiecewise
      ((finest_partitions (p.domain_list ++ q.domain_list)).map
        fun pr => ([pr.1], selectedSum (p.func_list ++ q.func_list) pr.2 (varName p))) := by
    unfold piecewise_add_general
    show mkPiecewise ((finest_partitions (p.domain_list ++ q.domain_list)).foldr
      (fun pr acc => if !true && pr.2.sum < 2 then acc
        else ([pr.1], selectedSum (p.func_list ++ q.func_list) pr.2 (varName p)) :: acc)
      []) = _
    rw [foldr_union_true]
  have hunion : ∀ x, (∃ D ∈ p.domain_list ++ q.domain_list, rsMem D x) ↔
      (rsMem p.support x ∨ rsMem q.support x) := by
    intro x
    rw [PWGood_support_mem hp, PWGood_support_mem hq]
    constructor
    · rintro ⟨D, hD, hx⟩
      rcases List.mem_append.mp hD with h | h
      · exact Or.inl ⟨D, h, hx⟩
      · exact Or.inr ⟨D, h, hx⟩
    · rintro (⟨D, hD, hx⟩ | ⟨D, hD, hx⟩)
      · exact ⟨D, List.mem_append_left _ hD, hx⟩
      · exact ⟨D, List.mem_append_right _ hD, hx⟩
  have hgood : ∀ pr ∈ (finest_partitions (p.domain_list ++ q.domain_list)).map
      (fun pr => ([pr.1], selectedSum (p.func_list ++ q.func_list) pr.2 (varName p))),
      RSetWF pr.1 ∧ pr.2.var = varName p ∧ Trimmed pr.2.coeffs := by
    intro pr hpr
    rw [List.mem_map] at hpr
    obtain ⟨pr0, hpr0, rfl⟩ := hpr
    refine ⟨?_, selectedSum_var hfvars _, selectedSum_trimmed _ _ _⟩
    refine ⟨?_, List.chain'_singleton _⟩
    intro K hK
    rw [List.mem_singleton] at hK
    rw [hK]
    exact hNE pr0 hpr0
  have hdisjRP : ((finest_partitions (p.domain_list ++ q.domain_list)).map
      (fun pr => ([pr.1], selectedSum (p.func_list ++ q.func_list) pr.2 (varName p)))).Pairwise
      fun a b => ∀ y, ¬ (rsMem a.1 y ∧ rsMem b.1 y) := by
    refine List.pairwise_map.mpr ?_
    refine hdisjP.imp ?_
    intro a b hab y hy
    obtain ⟨h1, h2⟩ := hy
    obtain ⟨K1, hK1, hKy1⟩ := h1
    obtain ⟨K2, hK2, hKy2⟩ := h2
    rw [List.mem_singleton] at hK1 hK2
    rw [hK1] at hKy1
    rw [hK2] at hKy2
    exact hab y ⟨hKy1, hKy2⟩
  obtain ⟨r, hmk, hPW, hvar, hsup, heval, hcinf⟩ :=
    mkPiecewise_sem (varName p) _ hgood hdisjRP
  have hsupm : ∀ x, rsMem r.support x ↔ rsMem p.support x ∨ rsMem q.support x := by
    intro x
    rw [hsup x, ← hunion x, ← hmem x]
    constructor
    · rintro ⟨pr, hpr, hx⟩
      rw [List.mem_map] at hpr
      obtain ⟨pr0, hpr0, rfl⟩ := hpr
      obtain ⟨K, hK, hKy⟩ := hx
      rw [List.mem_singleton] at hK
      rw [hK] at hKy
      exact ⟨pr0, hpr0, hKy⟩
    · rintro ⟨pr0, hpr0, hx⟩
      exact ⟨([pr0.1], selectedSum (p.func_list ++ q.func_list) pr0.2 (varName p)),
        List.mem_map_of_mem _ hpr0, ⟨pr0.1, by simp, hx⟩⟩
  refine ⟨r, by rw [hred]; exact hmk, hPW, ?_, ?_, hsupm, ?_, ?_, hcinf⟩
  · rintro ⟨x0, hx0⟩
    obtain ⟨pr0, hpr0, hprx⟩ := (hmem x0).mpr ((hunion x0).mpr hx0)
    exact hvar ⟨([pr0.1], selectedSum (p.func_list ++ q.func_list) pr0.2 (varName p)),
      List.mem_map_of_mem _ hpr0, by simp⟩
  · intro hvempty
    apply hPW.2.2.2.1
    by_contra hf
    have hd : r.domain_list ≠ [] := by
      intro h0
      refine hf (List.length_eq_zero.mp ?_)
      rw [← hPW.1, h0]
      rfl
    cases hD : r.domain_list with
    | nil => exact hd hD
    | cons D t =>
      have hDm := hPW.2.1 D (by rw [hD]; simp)
      obtain ⟨y, hy⟩ := rs_nonempty_mem hDm.1 hDm.2
      have hys : rsMem r.support y :=
        (PWGood_support_mem hPW y).mpr ⟨D, by rw [hD]; simp, hy⟩
      exact hvempty y ((hsupm y).mp hys)
  · intro x hx
    obtain ⟨pr0, hpr0, hx0⟩ := (hmem x).mpr ((hunion x).mpr hx)
    have hpe : piecesEval ((finest_partitions (p.domain_list ++ q.domain_list)).map
        (fun pr => ([pr.1], selectedSum (p.func_list ++ q.func_list) pr.2 (varName p)))) x
        = some (evalP (selectedSum (p.func_list ++ q.func_list) pr0.2 (varName p)).coeffs x) :=
      piecesEval_eq_some hdisjRP (List.mem_map_of_mem _ hpr0) ⟨pr0.1, by simp, hx0⟩
    rw [heval x, hpe]
    congr 1
    obtain ⟨hlen0, hcnt0⟩ := hcnt pr0 hpr0
    have h1 : evalP (selectedSum (p.func_list ++ q.func_list) pr0.2 (varName p)).coeffs x
        = ((pr0.2.enum).map fun pr => if pr.2 > 0
            then evalP (((p.func_list ++ q.func_list).getD pr.1
              (zeroPF (varName p))).coeffs) x else 0).sum := by
      unfold selectedSum
      rw [selectedSum_eval]
      rw [show ((zeroPF (varName p)).coeffs) = ([] : List ℚ) from rfl, evalP_nil,
        zero_add]
    rw [h1]
    rw [show pr0.2.enum = pr0.2.enumFrom 0 from rfl]
    rw [enum_map_sum (fun i => evalP (((p.func_list ++ q.func_list).getD i
      (zeroPF (varName p))).coeffs) x) pr0.2 0]
    beta_reduce
    rw [hlen0, List.length_append]
    rw [Finset.sum_range_add]
    beta_reduce
    have hpside : (∑ i ∈ Finset.range p.domain_list.length,
        if 0 < pr0.2.getD i 0
        then evalP (((p.func_list ++ q.func_list).getD (0 + i)
          (zeroPF (varName p))).coeffs) x else 0) = valD p x := by
      have hcong : ∀ i ∈ Finset.range p.domain_list.length,
          (if 0 < pr0.2.getD i 0
            then evalP (((p.func_list ++ q.func_list).getD (0 + i)
              (zeroPF (varName p))).coeffs) x else 0)
          = (if 0 < pr0.2.getD i 0
            then evalP ((p.func_list.getD i (zeroPF (varName p))).coeffs) x else 0) := by
        intro i hi
        have hi2 : i < p.domain_list.length := Finset.mem_range.mp hi
        rw [Nat.zero_add]
        have hif : i < p.func_list.length := by rw [← hp.1]; exact hi2
        rw [getD_append_left2 hif]
      rw [Finset.sum_congr rfl hcong]
      refine side_sum hp x (varName p) (fun i => pr0.2.getD i 0) ?_
      intro i hi
      have hin : i < (p.domain_list ++ q.domain_list).length := by
        rw [List.length_append]
        omega
      show pr0.2.getD i 0 = _
      rw [hcnt0 x hx0 i hin, getD_append_left2 hi]
    have hqside : (∑ i ∈ Finset.range q.domain_list.length,
        if 0 < pr0.2.getD (p.domain_list.length + i) 0
        then evalP (((p.func_list ++ q.func_list).getD
          (0 + (p.domain_list.length + i)) (zeroPF (varName p))).coeffs) x else 0)
        = valD q x := by
      have hcong : ∀ i ∈ Finset.range q.domain_list.length,
          (if 0 < pr0.2.getD (p.domain_list.length + i) 0
            then evalP (((p.func_list ++ q.func_list).getD
              (0 + (p.domain_list.length + i)) (zeroPF (varName p))).coeffs) x else 0)
          = (if 0 < pr0.2.getD (p.domain_list.length + i) 0
            then evalP ((q.func_list.getD i (zeroPF (varName p))).coeffs) x else 0) := by
        intro i hi
        rw [Nat.zero_add]
        have hge : p.func_list.length ≤ p.domain_list.length + i := by
          rw [← hp.1]
          omega
        rw [getD_append_right2 hge]
        have hsub : p.domain_list.length + i - p.func_list.length = i := by
          rw [← hp.1]
          omega
        rw [hsub]
      rw [Finset.sum_congr rfl hcong]
      refine side_sum hq x (varName p) (fun i => pr0.2.getD (p.domain_list.length + i) 0) ?_
      intro i hi
      have hin : p.domain_list.length + i < (p.domain_list ++ q.domain_list).length := by
        rw [List.length_append]
        omega
      show pr0.2.getD (p.domain_list.length + i) 0 = _
      rw [hcnt0 x hx0 _ hin, getD_append_right2 (Nat.le_add_right _ _),
        Nat.add_sub_cancel_left]
    rw [hpside, hqside]
  · intro x hnx
    rw [heval x]
    refine piecesEval_eq_none ?_
    intro pr hpr hx
    rw [List.mem_map] at hpr
    obtain ⟨pr0, hpr0, rfl⟩ := hpr
    obtain ⟨K, hK, hKy⟩ := hx
    rw [List.mem_singleton] at hK
    rw [hK] at hKy
    exact hnx ((hunion x).mp ((hmem x).mp ⟨pr0, hpr0, hKy⟩))

end AddGeneralSemantics

section MapSemantics

theorem PWGood_eval_some {P : PiecewiseFunction} (hP : PWGood P) {k : ℕ} {x : ℚ}
    (hk : k < P.domain_list.length) (hx : rsMem (P.domain_list.getD k []) x)
    (df : PolyF) :
    pwEvalAt P x = some (evalP ((P.func_list.getD k df).coeffs) x) := by
  rw [pwEvalAt_eq_piecesEval]
  exact pwEval_some hP.1 (PWGood_disj hP) hk hx df

theorem PWGood_eval_none {P : PiecewiseFunction} {x : ℚ}
    (h : ∀ D ∈ P.domain_list, ¬ rsMem D x) : pwEvalAt P x = none := by
  rw [pwEvalAt_eq_piecesEval]
  exact pwEval_none h

theorem PWGood_eval_ne_none {P : PiecewiseFunction} (hP : PWGood P) (x : ℚ) :
    pwEvalAt P x ≠ none ↔ ∃ D ∈ P.domain_list, rsMem D x := by
  constructor
  · intro h
    by_contra hc
    push_neg at hc
    exact h (PWGood_eval_none hc)
  · rintro ⟨D, hD, hx⟩
    obtain ⟨k, hk, hkx⟩ := (exists_mem_iff_index P.domain_list
      (fun D => rsMem D x) []).mp ⟨D, hD, hx⟩
    rw [PWGood_eval_some hP hk hkx (zeroPF (varName P))]
    simp

/-- Semantics of the rebuild-through-the-constructor pattern used by negation,
powers and scalar multiplication. -/
theorem pw_map_sem {p : PiecewiseFunction} (hp : PWGood p) (g : PolyF → PolyF)
    (hgv : ∀ f, (g f).var = f.var) (hgt : ∀ f, Trimmed (g f).coeffs) :
    ∃ r, mkPiecewise (List.zip p.domain_list (p.func_list.map g)) = Except.ok r ∧
      PWGood r ∧
      (p.func_list ≠ [] → r.var = p.var) ∧
      (p.func_list = [] → r.var = none) ∧
      (∀ x, rsMem r.support x ↔ rsMem p.support x) ∧
      (∀ x k, k < p.domain_list.length → rsMem (p.domain_list.getD k []) x →
        pwEvalAt r x =
          some (evalP (g (p.func_list.getD k (zeroPF (varName p)))).coeffs x)) ∧
      (∀ x, (∀ D ∈ p.domain_list, ¬ rsMem D x) → pwEvalAt r x = none) := by
  have hlen : p.domain_list.length = (p.func_list.map g).length := by
    rw [List.length_map]
    exact hp.1
  have hgood : ∀ pr ∈ List.zip p.domain_list (p.func_list.map g),
      RSetWF pr.1 ∧ pr.2.var = varName p ∧ Trimmed pr.2.coeffs := by
    intro pr hpr
    obtain ⟨hd, hf⟩ := List.of_mem_zip hpr
    rw [List.mem_map] at hf
    obtain ⟨f0, hf0, hfg⟩ := hf
    refine ⟨(hp.2.1 pr.1 hd).1, ?_, ?_⟩
    · rw [← hfg, hgv f0]
      exact PWGood_funcs_var hp f0 hf0
    · rw [← hfg]
      exact hgt f0
  have hdisjz := pairwise_zip_fst hlen (PWGood_disj hp)
  obtain ⟨r, hmk, hPW, hvar, hsup, heval, _⟩ :=
    mkPiecewise_sem (varName p) _ hgood hdisjz
  have hsupm : ∀ x, rsMem r.support x ↔ rsMem p.support x := by
    intro x
    rw [hsup x, PWGood_support_mem hp]
    constructor
    · rintro ⟨pr, hpr, hx⟩
      exact ⟨pr.1, (List.of_mem_zip hpr).1, hx⟩
    · rintro ⟨D, hD, hx⟩
      obtain ⟨k, hk, hkx⟩ := (exists_mem_iff_index p.domain_list
        (fun D => rsMem D x) []).mp ⟨D, hD, hx⟩
      exact ⟨(p.domain_list.getD k [], (p.func_list.map g).getD k (zeroPF (varName p))),
        zip_getD_mem hlen hk _, hkx⟩
  refine ⟨r, hmk, hPW, ?_, ?_, hsupm, ?_, ?_⟩
  · intro hfne
    have hdne : p.domain_list ≠ [] := by
      intro h0
      refine hfne (List.length_eq_zero.mp ?_)
      rw [← hp.1, h0]
      rfl
    have h0 : 0 < p.domain_list.length := List.length_pos.mpr hdne
    have hDm := hp.2.1 _ (getD_mem2 h0 ([] : RS))
    have hvp := hvar ⟨(p.domain_list.getD 0 [],
      (p.func_list.map g).getD 0 (zeroPF (varName p))),
      zip_getD_mem hlen h0 _, hDm.2⟩
    rw [hvp, PWGood_var_of_ne hp hfne]
  · intro hf0
    have hd0 : p.domain_list = [] := by
      refine List.length_eq_zero.mp ?_
      rw [hp.1, hf0]
      rfl
    apply hPW.2.2.2.1
    by_contra hf
    have hd : r.domain_list ≠ [] := by
      intro h0
      refine hf (List.length_eq_zero.mp ?_)
      rw [← hPW.1, h0]
      rfl
    cases hD : r.domain_list with
    | nil => exact hd hD
    | cons D t =>
      have hDm := hPW.2.1 D (by rw [hD]; simp)
      obtain ⟨y, hy⟩ := rs_nonempty_mem hDm.1 hDm.2
      have hys : rsMem r.support y :=
        (PWGood_support_mem hPW y).mpr ⟨D, by rw [hD]; simp, hy⟩
      obtain ⟨pr, hpr, _⟩ := (hsup y).mp hys
      rw [hd0] at hpr
      simp [List.zip] at hpr
  · intro x k hk hkx
    rw [heval x]
    have hpe := piecesEval_eq_some
      hdisjz (zip_getD_mem hlen hk (g (zeroPF (varName p)))) hkx
    rw [hpe]
    congr 1
    have hkf : k < p.func_list.length := by rw [← hp.1]; exact hk
    rw [getD_map2 g hkf (zeroPF (varName p)) (g (zeroPF (varName p)))]
  · intro x hnone
    rw [heval x]
    refine piecesEval_eq_none ?_
    intro pr hpr
    exact hnone pr.1 (List.of_mem_zip hpr).1

end MapSemantics

section EqSemantics

theorem PWGood_support_wf {P : PiecewiseFunction} (hP : PWGood P) :
    RSetWF P.support := by
  rw [hP.2.2.2.2.1]
  exact unionAll_wf _

/-- Canonical supports with the same members are structurally equal. -/
theorem support_ext {A B : PiecewiseFunction} (hA : PWGood A) (hB : PWGood B)
    (h : ∀ x, rsMem A.support x ↔ rsMem B.support x) : A.support = B.support :=
  rs_canonical (PWGood_support_wf hA) (PWGood_support_wf hB) h

/-- Structural equality of the containers follows from well-formedness,
equal variables and pointwise-equal evaluation: `__eq__` returns `True`. -/
theorem pwEq_of_sem {A B : PiecewiseFunction} (hA : PWGood A) (hB : PWGood B)
    (hv : A.var = B.var) (he : ∀ x, pwEvalAt A x = pwEvalAt B x) :
    pwEq A B = true := by
  have hm : ∀ x, rsMem A.support x ↔ rsMem B.support x := by
    intro x
    rw [PWGood_support_mem hA, PWGood_support_mem hB]
    rw [← PWGood_eval_ne_none hA, ← PWGood_eval_ne_none hB, he x]
  have hsupp : A.support = B.support := support_ext hA hB hm
  -- the negation of B
  obtain ⟨nB, hnBmk, hnBPW, hnBvar1, hnBvar2, hnBsup, hnBeval, hnBnone⟩ :=
    pw_map_sem hB negPF (fun f => rfl) (fun f => trimmed_ops_neg _)
  have hnBeq : pwNeg B = Except.ok nB := hnBmk
  have hvarAnB : A.var = nB.var := by
    by_cases hfB : B.func_list = []
    · rw [hnBvar2 hfB, hv, hB.2.2.2.1 hfB]
    · rw [hnBvar1 hfB, hv]
  -- value of the negation at covered points
  have hnBval : ∀ x, rsMem B.support x → pwEvalAt nB x = some (- valD B x) := by
    intro x hx
    obtain ⟨D, hD, hDx⟩ := (PWGood_support_mem hB x).mp hx
    obtain ⟨k, hk, hkx⟩ := (exists_mem_iff_index B.domain_list
      (fun D => rsMem D x) []).mp ⟨D, hD, hDx⟩
    rw [hnBeval x k hk hkx]
    have hBx := PWGood_eval_some hB hk hkx (zeroPF (varName B))
    unfold valD
    rw [hBx]
    show some (evalP (polyNeg (B.func_list.getD k (zeroPF (varName B))).coeffs) x) = _
    rw [evalP_neg]
    rfl
  -- supports of A and the negation agree structurally
  have hnBsupp : A.support = nB.support := by
    refine support_ext hA hnBPW ?_
    intro x
    rw [hm x, hnBsup x]
  -- the difference through the union combiner
  obtain ⟨d, hdmk, hdPW, hdvar1, _, hdsup, hdeval, hdnone, hdcinf⟩ :=
    piecewise_add_general_sem hA hnBPW hvarAnB
  have hsubEq : pwSub A B = Except.ok (some d) := by
    have h1 : pwSub A B = pwAdd A nB := by
      unfold pwSub
      rw [hnBeq]
      rfl
    rw [h1]
    unfold pwAdd
    rw [if_neg (fun hne => hne hvarAnB)]
    unfold piecewise_add
    rw [if_pos hnBsupp, hdmk]
    rfl
  -- every function of the difference is the zero polynomial
  have hzero : ∀ f ∈ d.func_list,
      f = ⟨[], (A.func_list.getD 0 ⟨[], varName A⟩).var⟩ := by
    intro f hf
    obtain ⟨k, hkf, hfk⟩ := List.mem_iff_getElem.mp hf
    have hgetf : d.func_list.getD k (zeroPF (varName A)) = f := by
      rw [List.getD_eq_getElem?_getD, List.getElem?_eq_getElem hkf]
      exact hfk
    have hk : k < d.domain_list.length := by rw [hdPW.1]; exact hkf
    have hDk := hdPW.2.1 _ (getD_mem2 hk ([] : RS))
    -- the function vanishes on its whole domain
    have hvanish : ∀ x, rsMem (d.domain_list.getD k []) x → evalP f.coeffs x = 0 := by
      intro x hx
      have hxs : rsMem d.support x :=
        (PWGood_support_mem hdPW x).mpr ⟨_, getD_mem2 hk ([] : RS), hx⟩
      have hxAB := (hdsup x).mp hxs
      have hxA : rsMem A.support x := by
        rcases hxAB with h | h
        · exact h
        · exact (hm x).mpr ((hnBsup x).mp h)
      have hxB : rsMem B.support x := (hm x).mp hxA
      have h1 : pwEvalAt d x = some (valD A x + valD nB x) :=
        hdeval x (Or.inl hxA)
      have h2 : pwEvalAt d x = some (evalP f.coeffs x) := by
        rw [PWGood_eval_some hdPW hk hx (zeroPF (varName A)), hgetf]
      have h3 : valD nB x = - valD B x := by
        unfold valD
        rw [hnBval x hxB]
        rfl
      have h4 : valD A x = valD B x := by
        unfold valD
        rw [he x]
      rw [h1] at h2
      have h5 : evalP f.coeffs x = valD A x + valD nB x :=
        (Option.some_inj.mp h2).symm
      rw [h5, h3, h4]
      ring
    have hcoe : f.coeffs = [] := by
      rcases hdcinf k hk with ⟨c, hc⟩ | hinf
      · rw [hgetf] at hc
        obtain ⟨y0, hy0⟩ := rs_nonempty_mem hDk.1 hDk.2
        have hc0 : c = 0 := by
          have := hvanish y0 hy0
          rw [hc, evalP_const] at this
          exact this
        rw [hc, hc0]
        rfl
      · refine trimmed_eq_nil_of_infinite_zeros ?_ ?_
        · have := (hdPW.2.2.1 f hf).1
          exact this
        · refine hinf.mono ?_
          intro y hy
          exact hvanish y hy
    -- the variable of the zero comparison function
    have hdne : d.func_list ≠ [] := List.ne_nil_of_mem hf
    have hAfne : A.func_list ≠ [] := by
      intro hA0
      have hd0 : A.domain_list = [] := by
        refine List.length_eq_zero.mp ?_
        rw [hA.1, hA0]
        rfl
      obtain ⟨y0, hy0⟩ := rs_nonempty_mem hDk.1 hDk.2
      have hxs : rsMem d.support y0 :=
        (PWGood_support_mem hdPW y0).mpr ⟨_, getD_mem2 hk ([] : RS), hy0⟩
      have hxA : rsMem A.support y0 := by
        rcases (hdsup y0).mp hxs with h | h
        · exact h
        · exact (hm y0).mpr ((hnBsup y0).mp h)
      obtain ⟨D, hD, _⟩ := (PWGood_support_mem hA y0).mp hxA
      rw [hd0] at hD
      simp at hD
    have hdvar : d.var = some (varName A) := by
      refine hdvar1 ?_
      obtain ⟨y0, hy0⟩ := rs_nonempty_mem hDk.1 hDk.2
      have hxs : rsMem d.support y0 :=
        (PWGood_support_mem hdPW y0).mpr ⟨_, getD_mem2 hk ([] : RS), hy0⟩
      exact ⟨y0, (hdsup y0).mp hxs⟩
    have hfvar : f.var = varName A := by
      have h1 := (hdPW.2.2.1 f hf).2
      rw [hdvar] at h1
      exact (Option.some_inj.mp h1).symm
    have htvar : (A.func_list.getD 0 ⟨[], varName A⟩).var = varName A := by
      have h0 : 0 < A.func_list.length := List.length_pos.mpr hAfne
      have h1 := (hA.2.2.1 _ (getD_mem2 h0 (⟨[], varName A⟩ : PolyF))).2
      rw [PWGood_var_of_ne hA hAfne] at h1
      exact (Option.some_inj.mp h1).symm
    obtain ⟨fc, fv⟩ := f
    show (⟨fc, fv⟩ : PolyF) = _
    rw [show fc = [] from hcoe, show fv = varName A from hfvar, htvar]
  -- assemble `__eq__`
  unfold pwEq
  rw [if_pos ⟨hsupp, hv⟩, hsubEq]
  show d.func_list.all
    (fun f => f == ⟨[], (A.func_list.getD 0 ⟨[], varName A⟩).var⟩) = true
  rw [List.all_eq_true]
  intro f hf
  exact beq_iff_eq.mpr (hzero f hf)

end EqSemantics

section BisectMachinery

theorem evLe_refl2 (a : SwEvent ℚ) : evLe a a :=
  Or.inr ⟨rfl, Or.inr ⟨rfl, le_refl _⟩⟩

theorem evLt_of_le_of_lt {a b c : SwEvent ℚ} (h1 : evLe a b) (h2 : evLt b c) :
    evLt a c := by
  rcases h1 with h1 | ⟨e1, d1⟩ <;> rcases h2 with h2 | ⟨e2, d2⟩
  · exact Or.inl (keyLt_trans h1 h2)
  · exact Or.inl (e2 ▸ h1)
  · exact Or.inl (e1 ▸ h2)
  · refine Or.inr ⟨e1.trans e2, ?_⟩
    rcases d1 with d1 | ⟨d1, s1⟩ <;> rcases d2 with d2 | ⟨d2, s2⟩
    · exact Or.inl (lt_trans d1 d2)
    · exact Or.inl (d2 ▸ d1)
    · exact Or.inl (d1 ▸ d2)
    · exact Or.inr ⟨d1.trans d2, lt_of_le_of_lt s1 s2⟩

theorem key_of_not_evLt {e K : SwEvent ℚ} (h : ¬ evLt e K) :
    keyLe K.key e.key := by
  by_contra hc
  exact h (Or.inl (not_keyLe_iff.mp hc))

theorem not_evLe_of_lt_key {a b : SwEvent ℚ} (h : keyLt b.key a.key) :
    ¬ evLe a b := by
  rintro (h2 | ⟨h2, _⟩)
  · exact keyLt_irrefl _ (keyLt_trans h h2)
  · rw [h2] at h
    exact keyLt_irrefl _ h

/-- First element at or after the probe in a sorted list: `bisect_left`. -/
theorem sorted_bisect {pred : SwEvent ℚ → Bool} :
    ∀ {l : List (SwEvent ℚ)}, List.Pairwise evLe l →
    (∀ a b, evLe a b → pred b = true → pred a = true) →
    l.countP pred < l.length →
    ∃ e, l[l.countP pred]? = some e ∧ pred e = false ∧
      ∀ e2 ∈ l, pred e2 = false → evLe e e2 := by
  intro l
  induction l with
  | nil =>
    intro _ _ h
    simp at h
  | cons a t ih =>
    intro hs hdc hlt
    by_cases hpa : pred a = true
    · rw [List.countP_cons_of_pos _ _ hpa] at hlt ⊢
      rw [List.length_cons] at hlt
      obtain ⟨e, h1, h2, h3⟩ := ih (List.pairwise_cons.mp hs).2 hdc (by omega)
      refine ⟨e, ?_, h2, ?_⟩
      · rw [List.getElem?_cons_succ]
        exact h1
      · intro e2 he2 hpe2
        rcases List.mem_cons.mp he2 with h | h
        · rw [h] at hpe2
          rw [hpa] at hpe2
          exact absurd hpe2 (by simp)
        · exact h3 e2 h hpe2
    · have hpa2 : pred a = false := Bool.eq_false_iff.mpr hpa
      have hct : t.countP pred = 0 := by
        rw [List.countP_eq_zero]
        intro b hb hpb
        exact hpa (hdc a b ((List.pairwise_cons.mp hs).1 b hb) hpb)
      rw [List.countP_cons_of_neg _ _ (by rw [hpa2]; simp), hct]
      refine ⟨a, by simp, hpa2, ?_⟩
      intro e2 he2 _
      rcases List.mem_cons.mp he2 with h | h
      · rw [h]
        exact evLe_refl2 _
      · exact (List.pairwise_cons.mp hs).1 e2 h

/-- The opening event of one interval. -/
def openEv (J : RInterval ℚ) (i : ℕ) : SwEvent ℚ :=
  ⟨J.lower, if J.lower_closed then 0 else 1, 1, i⟩

/-- The closing event of one interval. -/
def closeEv (J : RInterval ℚ) (i : ℕ) : SwEvent ℚ :=
  ⟨J.upper, if J.upper_closed then 1 else 0, -1, i⟩

theorem openEv_key (J : RInterval ℚ) (i : ℕ) : (openEv J i).key = J.oKey := rfl

theorem closeEv_key (J : RInterval ℚ) (i : ℕ) : (closeEv J i).key = J.cKey := rfl

theorem enumFrom_mem_getD {β : Type} (d : β) :
    ∀ (l : List β) (j k : ℕ), k < l.length → (j + k, l.getD k d) ∈ l.enumFrom j := by
  intro l
  induction l with
  | nil =>
    intro j k hk
    simp at hk
  | cons a t ih =>
    intro j k hk
    cases k with
    | zero =>
      rw [List.enumFrom_cons]
      simp
    | succ k2 =>
      rw [List.enumFrom_cons]
      refine List.mem_cons_of_mem _ ?_
      have := ih (j + 1) k2 (by simpa using hk)
      rw [show j + (k2 + 1) = j + 1 + k2 by omega]
      exact this

theorem mem_sortedEvents_iff (Ds : List RS) (e : SwEvent ℚ) :
    e ∈ sortedEvents Ds ↔
      ∃ k, k < Ds.length ∧ ∃ J ∈ Ds.getD k [],
        (e = openEv J k ∨ e = closeEv J k) := by
  unfold sortedEvents
  rw [(List.perm_insertionSort evLe _).mem_iff, List.mem_flatten]
  constructor
  · rintro ⟨l2, hl2, hel⟩
    rw [List.mem_map] at hl2
    obtain ⟨pr, hpr, rfl⟩ := hl2
    obtain ⟨i0, D0⟩ := pr
    have hpr2 := List.mem_enumFrom
      (show (i0, D0) ∈ List.enumFrom 0 Ds from hpr)
    have hilt : i0 < Ds.length := by simpa using hpr2.2.1
    have hD0 : D0 = Ds.getD i0 [] := by
      have h3 := hpr2.2.2
      simp at h3
      rw [List.getD_eq_getElem?_getD, List.getElem?_eq_getElem hilt]
      exact h3
    unfold iteratorEvents at hel
    rw [List.mem_flatMap] at hel
    obtain ⟨J, hJ, heJ⟩ := hel
    refine ⟨i0, hilt, J, hD0 ▸ hJ, ?_⟩
    rcases List.mem_cons.mp heJ with h | h
    · exact Or.inl h
    · rw [List.mem_singleton] at h
      exact Or.inr h
  · rintro ⟨k, hk, J, hJ, he⟩
    refine ⟨iteratorEvents (Ds.getD k []) k, ?_, ?_⟩
    · have hmem2 : ((k, Ds.getD k []) : ℕ × RS) ∈ Ds.enum := by
        have := enumFrom_mem_getD ([] : RS) Ds 0 k hk
        rw [Nat.zero_add] at this
        exact this
      exact List.mem_map_of_mem (fun pr : ℕ × RS => iteratorEvents pr.2 pr.1) hmem2
    · unfold iteratorEvents
      rw [List.mem_flatMap]
      refine ⟨J, hJ, ?_⟩
      rcases he with h | h
      · rw [h]
        simp [openEv]
      · rw [h]
        simp [closeEv]

end BisectMachinery

section WhichPairSemantics

theorem keyLt_fst_le {a b : BKey ℚ} (h : keyLt a b) : a.1 ≤ b.1 := by
  rcases h with h | ⟨h, _⟩
  · exact le_of_lt h
  · exact le_of_eq h

theorem keyLt_of_keyLe_of_ne {a b : BKey ℚ} (h : keyLe a b) (hne : a ≠ b) :
    keyLt a b := by
  rcases h with h | ⟨h1, h2⟩
  · exact Or.inl h
  · rcases Nat.lt_or_ge a.2 b.2 with h3 | h3
    · exact Or.inr ⟨h1, h3⟩
    · have h4 : a.2 = b.2 := by omega
      exact absurd (Prod.ext h1 h4) hne

/-- For an event away from the probe coordinate, `bisect_left`'s comparison
is exactly the coordinate comparison. -/
theorem pred_char {e : SwEvent ℚ} {x : ℚ} (hne : e.x ≠ x) :
    evLt e (bisectKey x) ↔ e.x < x := by
  constructor
  · rintro (h | ⟨h, _⟩)
    · rcases h with h | ⟨h, _⟩
      · exact h
      · exact absurd h hne
    · exact absurd (congrArg Prod.fst h) hne
  · intro h
    exact Or.inl (Or.inl h)

theorem which_pair_eq (p : PiecewiseFunction) (x : ℚ) :
    which_pair p x =
      (if (sortedEvents p.domain_list).countP (fun e => decide (evLt e (bisectKey x))) = 0 ∨
          (sortedEvents p.domain_list).countP (fun e => decide (evLt e (bisectKey x))) ≥
            (sortedEvents p.domain_list).length
        then none
        else match (sortedEvents p.domain_list)[(sortedEvents p.domain_list).countP
            (fun e => decide (evLt e (bisectKey x)))]? with
          | some e => if e.delta < 0
              then some (p.domain_list.getD e.sid [], p.func_list.getD e.sid ⟨[], ""⟩)
              else none
          | none => none) := rfl

theorem sortedEvents_x_ne {p : PiecewiseFunction} {x : ℚ}
    (hnb : ∀ D ∈ p.domain_list, ∀ J ∈ D, J.lower ≠ x ∧ J.upper ≠ x) :
    ∀ e ∈ sortedEvents p.domain_list, e.x ≠ x := by
  intro e he
  rw [mem_sortedEvents_iff] at he
  obtain ⟨k, hk, J, hJ, hor⟩ := he
  have hb := hnb _ (getD_mem2 hk ([] : RS)) J hJ
  rcases hor with h | h
  · rw [h]
    exact hb.1
  · rw [h]
    exact hb.2

/-- If the minimal event at or after the probe is a closing event, the probe
point lies inside the piece that event closes. -/
theorem close_min_mem {p : PiecewiseFunction} (hp : PWGood p) {x : ℚ}
    (hnb : ∀ D ∈ p.domain_list, ∀ J ∈ D, J.lower ≠ x ∧ J.upper ≠ x)
    {e : SwEvent ℚ} (he : e ∈ sortedEvents p.domain_list)
    (hpe : ¬ evLt e (bisectKey x))
    (hmin : ∀ e2 ∈ sortedEvents p.domain_list, ¬ evLt e2 (bisectKey x) → evLe e e2)
    {M : RInterval ℚ} {m : ℕ} (hm : m < p.domain_list.length)
    (hM : M ∈ p.domain_list.getD m []) (heq : e = closeEv M m) :
    rsMem (p.domain_list.getD m []) x := by
  have hexe : e.x ≠ x := sortedEvents_x_ne hnb e he
  have hxe : x < e.x := by
    rcases lt_trichotomy e.x x with h | h | h
    · exact absurd ((pred_char hexe).mpr h) hpe
    · exact absurd h hexe
    · exact h
  have hux : x < M.upper := by
    rw [heq] at hxe
    exact hxe
  rcases lt_trichotomy M.lower x with h | h | h
  · exact ⟨M, hM, Or.inl h, Or.inl hux⟩
  · exact absurd h (hnb _ (getD_mem2 hm ([] : RS)) M hM).1
  · exfalso
    have hoM : openEv M m ∈ sortedEvents p.domain_list :=
      (mem_sortedEvents_iff _ _).mpr ⟨m, hm, M, hM, Or.inl rfl⟩
    have hpoM : ¬ evLt (openEv M m) (bisectKey x) := by
      intro hlt
      exact lt_asymm h ((pred_char (sortedEvents_x_ne hnb _ hoM)).mp hlt)
    have hle := hmin _ hoM hpoM
    have hMNE : keyLt (openEv M m).key e.key := by
      rw [openEv_key, heq, closeEv_key]
      exact (hp.2.1 _ (getD_mem2 hm ([] : RS))).1.1 M hM
    exact not_evLe_of_lt_key hMNE hle

end WhichPairSemantics

theorem bisect_downclosed (x : ℚ) : ∀ a b : SwEvent ℚ, evLe a b →
    decide (evLt b (bisectKey x)) = true → decide (evLt a (bisectKey x)) = true :=
  fun _ _ hab hb => decide_eq_true (evLt_of_le_of_lt hab (of_decide_eq_true hb))

/-- At a non-boundary point covered by piece `k`, `which_pair` finds piece
`k`. -/
theorem which_pair_covered {p : PiecewiseFunction} (hp : PWGood p) {x : ℚ}
    (hnb : ∀ D ∈ p.domain_list, ∀ J ∈ D, J.lower ≠ x ∧ J.upper ≠ x)
    {k : ℕ} (hk : k < p.domain_list.length)
    (hkx : rsMem (p.domain_list.getD k []) x) :
    which_pair p x = some (p.domain_list.getD k [], p.func_list.getD k ⟨[], ""⟩) := by
  obtain ⟨J, hJ, hJx⟩ := hkx
  have hJb := hnb _ (getD_mem2 hk ([] : RS)) J hJ
  have hJl : J.lower < x := by
    rcases hJx.1 with h | ⟨h, _⟩
    · exact h
    · exact absurd h.symm hJb.1
  have hJu : x < J.upper := by
    rcases hJx.2 with h | ⟨h, _⟩
    · exact h
    · exact absurd h.symm hJb.2
  have hoJ : openEv J k ∈ sortedEvents p.domain_list :=
    (mem_sortedEvents_iff _ _).mpr ⟨k, hk, J, hJ, Or.inl rfl⟩
  have hcJ : closeEv J k ∈ sortedEvents p.domain_list :=
    (mem_sortedEvents_iff _ _).mpr ⟨k, hk, J, hJ, Or.inr rfl⟩
  have hpoJ : decide (evLt (openEv J k) (bisectKey x)) = true :=
    decide_eq_true ((pred_char hJb.1).mpr hJl)
  have hpcJ : ¬ evLt (closeEv J k) (bisectKey x) :=
    fun hlt => lt_asymm hJu ((pred_char hJb.2).mp hlt)
  have hpos : 0 < (sortedEvents p.domain_list).countP
      (fun e => decide (evLt e (bisectKey x))) :=
    List.countP_pos.mpr ⟨_, hoJ, hpoJ⟩
  have hlt : (sortedEvents p.domain_list).countP
      (fun e => decide (evLt e (bisectKey x))) < (sortedEvents p.domain_list).length := by
    rcases Nat.lt_or_ge ((sortedEvents p.domain_list).countP
      (fun e => decide (evLt e (bisectKey x)))) (sortedEvents p.domain_list).length with h | h
    · exact h
    · exfalso
      have heq : (sortedEvents p.domain_list).countP
          (fun e => decide (evLt e (bisectKey x))) = (sortedEvents p.domain_list).length :=
        le_antisymm (List.countP_le_length _) h
      have := (List.countP_eq_length.mp heq) _ hcJ
      exact hpcJ (of_decide_eq_true this)
  obtain ⟨e, hgete, hpe, hmin⟩ := sorted_bisect (sortedEvents_sorted p.domain_list)
    (bisect_downclosed x) hlt
  have he : e ∈ sortedEvents p.domain_list := List.getElem?_mem hgete
  have hnlt : ¬ evLt e (bisectKey x) := by
    intro h
    rw [decide_eq_true h] at hpe
    exact Bool.noConfusion hpe
  have hminP : ∀ e2 ∈ sortedEvents p.domain_list,
      ¬ evLt e2 (bisectKey x) → evLe e e2 :=
    fun e2 h2 hn => hmin e2 h2 (decide_eq_false hn)
  have he2 := he
  rw [mem_sortedEvents_iff] at he2
  obtain ⟨m, hm, M, hM, hMor⟩ := he2
  rcases hMor with hOpen | hClose
  · exfalso
    have hexe : e.x ≠ x := sortedEvents_x_ne hnb e he
    have hxe : x < e.x := by
      rcases lt_trichotomy e.x x with h | h | h
      · exact absurd ((pred_char hexe).mpr h) hnlt
      · exact absurd h hexe
      · exact h
    have hMl : x < M.lower := by
      rw [hOpen] at hxe
      exact hxe
    have hlecJ : evLe e (closeEv J k) := hminP _ hcJ hpcJ
    by_cases hmk : m = k
    · subst hmk
      by_cases hMJ : M = J
      · subst hMJ
        exact lt_asymm hJl hMl
      · have hwfk : RSetWF (p.domain_list.getD m []) :=
          (hp.2.1 _ (getD_mem2 hm ([] : RS))).1
        have hpw2 : List.Pairwise
            (fun A B : RInterval ℚ => keyLt A.cKey B.oKey ∨ keyLt B.cKey A.oKey)
            (p.domain_list.getD m []) :=
          (RSetWF_pairwise_lt hwfk).imp fun h => Or.inl h
        have hsymm : Symmetric
            (fun A B : RInterval ℚ => keyLt A.cKey B.oKey ∨ keyLt B.cKey A.oKey) :=
          fun _ _ h => Or.symm h
        rcases List.Pairwise.forall hsymm hpw2 hM hJ hMJ with h1 | h1
        · have hNEM : keyLt M.oKey M.cKey := hwfk.1 M hM
          have hf : M.lower < x :=
            lt_of_le_of_lt (le_trans (keyLt_fst_le hNEM) (keyLt_fst_le h1)) hJl
          exact lt_asymm hMl hf
        · have hklt : keyLt (closeEv J m).key e.key := by
            rw [closeEv_key, hOpen, openEv_key]
            exact h1
          exact not_evLe_of_lt_key hklt hlecJ
    · have hokle : keyLe M.oKey J.cKey := by
        have h2 := evLe_key hlecJ
        rwa [hOpen, openEv_key, closeEv_key] at h2
      by_cases hkeq : M.oKey = J.cKey
      · rcases hlecJ with hlt2 | ⟨_, hd⟩
        · rw [hOpen, openEv_key, closeEv_key, hkeq] at hlt2
          exact keyLt_irrefl _ hlt2
        · rw [hOpen] at hd
          have hd1 : (openEv M m).delta = 1 := rfl
          have hd2 : (closeEv J k).delta = -1 := rfl
          rw [hd1, hd2] at hd
          rcases hd with hd | ⟨hd, _⟩
          · exact absurd hd (by decide)
          · exact absurd hd (by decide)
      · have hklt2 : keyLt M.oKey J.cKey := keyLt_of_keyLe_of_ne hokle hkeq
        have hwfm : RSetWF (p.domain_list.getD m []) :=
          (hp.2.1 _ (getD_mem2 hm ([] : RS))).1
        have hNEM : keyLt M.oKey M.cKey := hwfm.1 M hM
        have hmlt : keyLt M.oKey (keyMin M.cKey J.cKey) := by
          show keyLt M.oKey (if keyLt M.cKey J.cKey then M.cKey else J.cKey)
          by_cases h2 : keyLt M.cKey J.cKey
          · rw [if_pos h2]
            exact hNEM
          · rw [if_neg h2]
            exact hklt2
        obtain ⟨y, hy1, hy2⟩ := mem_of_NE_keys (oKey_eps M)
          (keyMin_eps (cKey_eps M) (cKey_eps J)) hmlt
        have hyM : M.Mem y :=
          (M.mem_iff_keys y).mpr ⟨hy1, Before_mono (keyMin_le_left _ _) hy2⟩
        have hyJ : J.Mem y := by
          refine (J.mem_iff_keys y).mpr
            ⟨not_Before_mono (Or.inl (lt_trans hJl hMl)) hy1,
             Before_mono (keyMin_le_right _ _) hy2⟩
        exact (PWGood_disj_index hp hmk hm hk y) ⟨⟨M, hM, hyM⟩, ⟨J, hJ, hyJ⟩⟩
  · have hmm : rsMem (p.domain_list.getD m []) x :=
      close_min_mem hp hnb he hnlt hminP hm hM hClose
    have hmk : m = k := by
      by_contra hne
      exact (PWGood_disj_index hp hne hm hk x) ⟨hmm, ⟨J, hJ, hJx⟩⟩
    rw [which_pair_eq]
    have hguard : ¬ ((sortedEvents p.domain_list).countP
        (fun e => decide (evLt e (bisectKey x))) = 0 ∨
        (sortedEvents p.domain_list).countP
          (fun e => decide (evLt e (bisectKey x))) ≥ (sortedEvents p.domain_list).length) := by
      rintro (h | h)
      · rw [h] at hpos
        exact lt_irrefl _ hpos
      · exact absurd hlt (not_lt.mpr h)
    rw [if_neg hguard, hgete]
    show (if e.delta < 0
        then some (p.domain_list.getD e.sid [], p.func_list.getD e.sid ⟨[], ""⟩)
        else none) = _
    have hd : e.delta < 0 := by
      rw [hClose]
      exact (by decide : (-1 : ℤ) < 0)
    rw [if_pos hd]
    have hsid : e.sid = k := by
      rw [hClose]
      exact hmk
    rw [hsid]

/-- At a non-boundary point outside every piece, `which_pair` reports
failure. -/
theorem which_pair_none {p : PiecewiseFunction} (hp : PWGood p) {x : ℚ}
    (hnb : ∀ D ∈ p.domain_list, ∀ J ∈ D, J.lower ≠ x ∧ J.upper ≠ x)
    (hnc : ∀ D ∈ p.domain_list, ¬ rsMem D x) :
    which_pair p x = none := by
  rw [which_pair_eq]
  by_cases hguard : ((sortedEvents p.domain_list).countP
      (fun e => decide (evLt e (bisectKey x))) = 0 ∨
      (sortedEvents p.domain_list).countP
        (fun e => decide (evLt e (bisectKey x))) ≥ (sortedEvents p.domain_list).length)
  · rw [if_pos hguard]
  · have hlt : (sortedEvents p.domain_list).countP
        (fun e => decide (evLt e (bisectKey x))) < (sortedEvents p.domain_list).length := by
      rcases Nat.lt_or_ge ((sortedEvents p.domain_list).countP
        (fun e => decide (evLt e (bisectKey x)))) (sortedEvents p.domain_list).length with h | h
      · exact h
      · exact absurd (Or.inr h) hguard
    obtain ⟨e, hgete, hpe, hmin⟩ := sorted_bisect (sortedEvents_sorted p.domain_list)
      (bisect_downclosed x) hlt
    have he : e ∈ sortedEvents p.domain_list := List.getElem?_mem hgete
    have hnlt : ¬ evLt e (bisectKey x) := by
      intro h2
      rw [decide_eq_true h2] at hpe
      exact Bool.noConfusion hpe
    have hminP : ∀ e2 ∈ sortedEvents p.domain_list,
        ¬ evLt e2 (bisectKey x) → evLe e e2 :=
      fun e2 h2 hn => hmin e2 h2 (decide_eq_false hn)
    have he2 := he
    rw [mem_sortedEvents_iff] at he2
    obtain ⟨m, hm, M, hM, hMor⟩ := he2
    rw [if_neg hguard, hgete]
    show (if e.delta < 0
        then some (p.domain_list.getD e.sid [], p.func_list.getD e.sid ⟨[], ""⟩)
        else none) = none
    rcases hMor with hOpen | hClose
    · have hd : ¬ e.delta < 0 := by
        rw [hOpen]
        exact (by decide : ¬ (1 : ℤ) < 0)
      rw [if_neg hd]
    · exact absurd (close_min_mem hp hnb he hnlt hminP hm hM hClose)
        (hnc _ (getD_mem2 hm ([] : RS)))

/-- A coordinate absent from the endpoint table is no interval boundary. -/
theorem epLookup_none_nb {p : PiecewiseFunction} (hp : PWGood p) {x : ℚ}
    (h : epLookup (init_end_points p) x = none) :
    ∀ D ∈ p.domain_list, ∀ J ∈ D, J.lower ≠ x ∧ J.upper ≠ x := by
  rw [init_end_points_eq_fold p, epLookup_fold_none_iff] at h
  intro D hD J hJ
  obtain ⟨k, hk, hDk⟩ := List.getElem_of_mem hD
  have hDgd : p.domain_list.getD k [] = D := by
    rw [List.getD_eq_getElem?_getD, List.getElem?_eq_getElem hk]
    exact hDk
  have hzip := zip_getD_mem hp.1 hk (zeroPF "")
  rw [hDgd] at hzip
  have hmemS : ∀ ev ∈ scanRS D,
      ((ev, p.func_list.getD k (zeroPF "")) : ((ℚ × ℕ) × ℤ) × PolyF) ∈ allScans p := by
    intro ev hev
    unfold allScans
    rw [List.mem_flatMap]
    exact ⟨_, hzip, List.mem_map_of_mem _ hev⟩
  constructor
  · refine h.2 _ (hmemS ((J.lower, if J.lower_closed then 0 else 1), -1) ?_)
    unfold scanRS
    rw [List.mem_flatMap]
    exact ⟨J, hJ, by simp⟩
  · refine h.2 _ (hmemS ((J.upper, if J.upper_closed then 1 else 0), 1) ?_)
    unfold scanRS
    rw [List.mem_flatMap]
    exact ⟨J, hJ, by simp⟩

/-- The three-way semantics of `limits`. -/
theorem limits_sem {p : PiecewiseFunction} (hp : PWGood p) (x : ℚ) :
    (∀ e, epLookup (init_end_points p) x = some e →
      limits p x = (e.val, e.limLeft, e.limRight)) ∧
    (epLookup (init_end_points p) x = none →
      (∀ k, k < p.domain_list.length → rsMem (p.domain_list.getD k []) x →
        limits p x = (some (evalP (p.func_list.getD k ⟨[], ""⟩).coeffs x),
          some (evalP (p.func_list.getD k ⟨[], ""⟩).coeffs x),
          some (evalP (p.func_list.getD k ⟨[], ""⟩).coeffs x))) ∧
      ((∀ D ∈ p.domain_list, ¬ rsMem D x) → limits p x = (none, none, none))) := by
  refine ⟨?_, ?_⟩
  · intro e hsome
    unfold limits
    rw [hsome]
  · intro hnone
    have hnb := epLookup_none_nb hp hnone
    refine ⟨?_, ?_⟩
    · intro k hk hkx
      unfold limits
      rw [hnone, which_pair_covered hp hnb hk hkx]
    · intro hnc
      unfold limits
      rw [hnone, which_pair_none hp hnb hnc]

section MulGeneralSemantics

theorem selectedProd_trimmed (funcs : List PolyF) (inds : List ℤ) (v : String) :
    Trimmed (selectedProd funcs inds v).coeffs := by
  unfold selectedProd
  have haux : ∀ (l : List (ℕ × ℤ)) (acc : PolyF), Trimmed acc.coeffs →
      Trimmed (l.foldl (fun acc pr => if pr.2 > 0
        then mulPF acc (funcs.getD pr.1 (onePF v)) else acc) acc).coeffs := by
    intro l
    induction l with
    | nil => intro acc hacc; exact hacc
    | cons pr t ih =>
      intro acc hacc
      rw [List.foldl_cons]
      by_cases hp : pr.2 > 0
      · rw [if_pos hp]
        exact ih _ (trimmed_ops_mul _ _)
      · rw [if_neg hp]
        exact ih _ hacc
  exact haux _ _ rfl

/-- The union product combiner succeeds on well-formed same-variable inputs,
with support the union of the two supports. -/
theorem piecewise_mul_general_ok {p q : PiecewiseFunction}
    (hp : PWGood p) (hq : PWGood q) (hv : p.var = q.var) :
    ∃ r, piecewise_mul_general p q true = Except.ok r ∧ PWGood r ∧
      (∀ x, rsMem r.support x ↔ rsMem p.support x ∨ rsMem q.support x) := by
  have hfvars : ∀ g ∈ p.func_list ++ q.func_list, g.var = varName p := by
    intro g hg
    rcases List.mem_append.mp hg with h | h
    · exact PWGood_funcs_var hp g h
    · have h2 := (hq.2.2.1 g h).2
      unfold varName
      rw [hv, h2]
  have hwfall : ∀ D ∈ p.domain_list ++ q.domain_list, RSetWF D := by
    intro D hD
    rcases List.mem_append.mp hD with h | h
    · exact (hp.2.1 D h).1
    · exact (hq.2.1 D h).1
  obtain ⟨hmem, hdisjP, _, hNE⟩ := fp_spec (p.domain_list ++ q.domain_list) hwfall
  have hred : piecewise_mul_general p q true = mkPiecewise
      ((finest_partitions (p.domain_list ++ q.domain_list)).map
        fun pr => ([pr.1], selectedProd (p.func_list ++ q.func_list) pr.2 (varName p))) := by
    unfold piecewise_mul_general
    show mkPiecewise ((finest_partitions (p.domain_list ++ q.domain_list)).foldr
      (fun pr acc => if !true && pr.2.sum < 2 then acc
        else ([pr.1], selectedProd (p.func_list ++ q.func_list) pr.2 (varName p)) :: acc)
      []) = _
    rw [mulfoldr_union_true]
  have hunion : ∀ x, (∃ D ∈ p.domain_list ++ q.domain_list, rsMem D x) ↔
      (rsMem p.support x ∨ rsMem q.support x) := by
    intro x
    rw [PWGood_support_mem hp, PWGood_support_mem hq]
    constructor
    · rintro ⟨D, hD, hx⟩
      rcases List.mem_append.mp hD with h | h
      · exact Or.inl ⟨D, h, hx⟩
      · exact Or.inr ⟨D, h, hx⟩
    · rintro (⟨D, hD, hx⟩ | ⟨D, hD, hx⟩)
      · exact ⟨D, List.mem_append_left _ hD, hx⟩
      · exact ⟨D, List.mem_append_right _ hD, hx⟩
  have hgood : ∀ pr ∈ (finest_partitions (p.domain_list ++ q.domain_list)).map
      (fun pr => ([pr.1], selectedProd (p.func_list ++ q.func_list) pr.2 (varName p))),
      RSetWF pr.1 ∧ pr.2.var = varName p ∧ Trimmed pr.2.coeffs := by
    intro pr hpr
    rw [List.mem_map] at hpr
    obtain ⟨pr0, hpr0, rfl⟩ := hpr
    refine ⟨?_, selectedProd_var hfvars _, selectedProd_trimmed _ _ _⟩
    refine ⟨?_, List.chain'_singleton _⟩
    intro K hK
    rw [List.mem_singleton] at hK
    rw [hK]
    exact hNE pr0 hpr0
  have hdisjRP : ((finest_partitions (p.domain_list ++ q.domain_list)).map
      (fun pr => ([pr.1], selectedProd (p.func_list ++ q.func_list) pr.2 (varName p)))).Pairwise
      fun a b => ∀ y, ¬ (rsMem a.1 y ∧ rsMem b.1 y) := by
    refine List.pairwise_map.mpr ?_
    refine hdisjP.imp ?_
    intro a b hab y hy
    obtain ⟨h1, h2⟩ := hy
    obtain ⟨K1, hK1, hKy1⟩ := h1
    obtain ⟨K2, hK2, hKy2⟩ := h2
    rw [List.mem_singleton] at hK1 hK2
    rw [hK1] at hKy1
    rw [hK2] at hKy2
    exact hab y ⟨hKy1, hKy2⟩
  obtain ⟨r, hmk, hPW, _, hsup, _, _⟩ :=
    mkPiecewise_sem (varName p) _ hgood hdisjRP
  refine ⟨r, by rw [hred]; exact hmk, hPW, ?_⟩
  intro x
  rw [hsup x, ← hunion x, ← hmem x]
  constructor
  · rintro ⟨pr, hpr, hx⟩
    rw [List.mem_map] at hpr
    obtain ⟨pr0, hpr0, rfl⟩ := hpr
    obtain ⟨K, hK, hKy⟩ := hx
    rw [List.mem_singleton] at hK
    rw [hK] at hKy
    exact ⟨pr0, hpr0, hKy⟩
  · rintro ⟨pr0, hpr0, hx⟩
    exact ⟨([pr0.1], selectedProd (p.func_list ++ q.func_list) pr0.2 (varName p)),
      List.mem_map_of_mem _ hpr0, ⟨pr0.1, by simp, hx⟩⟩

end MulGeneralSemantics

section ClaimSupport

theorem varName_eq_of_some {P : PiecewiseFunction} {v : String}
    (h : P.var = some v) : varName P = v := by
  unfold varName
  rw [h]

theorem opt_eq_some_getD {o : Option ℚ} (h : o ≠ none) : o = some (o.getD 0) := by
  cases o with
  | none => exact absurd rfl h
  | some a => rfl

theorem eval_some_valD {P : PiecewiseFunction} (hP : PWGood P) {x : ℚ}
    (h : ∃ D ∈ P.domain_list, rsMem D x) : pwEvalAt P x = some (valD P x) := by
  have hne := (PWGood_eval_ne_none hP x).mpr h
  unfold valD
  exact opt_eq_some_getD hne

/-- A well-formed container with empty support is the empty container. -/
theorem support_empty_shape {P : PiecewiseFunction} (hP : PWGood P)
    (h : ∀ x, ¬ rsMem P.support x) : P = ⟨[], [], none, []⟩ := by
  have hd : P.domain_list = [] := by
    cases hD : P.domain_list with
    | nil => rfl
    | cons D t =>
      have hDm := hP.2.1 D (by rw [hD]; simp)
      obtain ⟨y, hy⟩ := rs_nonempty_mem hDm.1 hDm.2
      exact absurd ((PWGood_support_mem hP y).mpr ⟨D, by rw [hD]; simp, hy⟩) (h y)
  have hf : P.func_list = [] := by
    have h2 := hP.1
    rw [hd] at h2
    exact List.length_eq_zero.mp h2.symm
  have hv : P.var = none := hP.2.2.2.1 hf
  have hsp : P.support = [] := by
    have h2 := hP.2.2.2.2.1
    rw [hd] at h2
    rw [h2]
    rfl
  have heta : P = ⟨P.domain_list, P.func_list, P.var, P.support⟩ := rfl
  rw [heta, hd, hf, hv, hsp]

theorem support_mem_funcs_ne {P : PiecewiseFunction} (hP : PWGood P) {x : ℚ}
    (h : rsMem P.support x) : P.func_list ≠ [] := by
  intro hf
  have hd : P.domain_list = [] := by
    refine List.length_eq_zero.mp ?_
    rw [hP.1, hf]
    rfl
  obtain ⟨D, hD, _⟩ := (PWGood_support_mem hP x).mp h
  rw [hd] at hD
  exact absurd hD (List.not_mem_nil D)

/-- Example container: the identity function `t` on `[0, 1]`. -/
def exP : PiecewiseFunction :=
  ⟨[[⟨0, true, 1, true⟩]], [⟨[0, 1], "t"⟩], some "t",
    unionAll [[⟨0, true, 1, true⟩]]⟩

/-- Example container: the constant `1` on `[0, 1]`. -/
def exQ : PiecewiseFunction :=
  ⟨[[⟨0, true, 1, true⟩]], [⟨[1], "t"⟩], some "t",
    unionAll [[⟨0, true, 1, true⟩]]⟩

/-- Example container over a different variable `s`. -/
def exR : PiecewiseFunction :=
  ⟨[[⟨0, true, 1, true⟩]], [⟨[1], "s"⟩], some "s",
    unionAll [[⟨0, true, 1, true⟩]]⟩

end ClaimSupport

section Claims

theorem finest_partitions_correct_witness :
    (∃ pr ∈ finest_partitions [[(⟨0, true, 1, true⟩ : RInterval ℚ)]],
        pr.1.Mem (mkRat 1 2)) ↔
      ∃ D ∈ [[(⟨0, true, 1, true⟩ : RInterval ℚ)]], rsMem D (mkRat 1 2) :=
  (finest_partitions_correct [[(⟨0, true, 1, true⟩ : RInterval ℚ)]]
    (by decide)).1 (mkRat 1 2)

/-- C9: a correctly supplied evaluation point outside every piece's domain
produces the explicit undefined answer `none` without an error, and a point
inside some piece's domain produces that piece's function value. -/
theorem pwCall_point_semantics {p : PiecewiseFunction} (hp : PWGood p) (x : ℚ) :
    ((∀ D ∈ p.domain_list, ¬ rsMem D x) → pwCall p [x] [] = Except.ok none) ∧
    (∀ k, k < p.domain_list.length → rsMem (p.domain_list.getD k []) x →
      pwCall p [x] [] = Except.ok
        (some (evalP (p.func_list.getD k (zeroPF (varName p))).coeffs x))) := by
  have hred : pwCall p [x] [] = Except.ok (pwEvalAt p x) := rfl
  constructor
  · intro h
    rw [hred, PWGood_eval_none h]
  · intro k hk hkx
    rw [hred, PWGood_eval_some hp hk hkx (zeroPF (varName p))]

theorem pwCall_point_semantics_witness : pwCall exP [5] [] = Except.ok none :=
  (pwCall_point_semantics (show PWGood exP by decide) 5).1 (by decide)

/-- C10: on operands with different bound variables, both `__add__` and
`__mul__` return `None` (no error, no result object). -/
theorem pw_ops_var_mismatch {p q : PiecewiseFunction} (h : p.var ≠ q.var) :
    pwAdd p q = Except.ok none ∧ pwMul p q = Except.ok none := by
  constructor
  · unfold pwAdd
    rw [if_pos h]
    rfl
  · unfold pwMul
    rw [if_pos h]
    rfl

theorem pw_ops_var_mismatch_witness :
    pwAdd exP exR = Except.ok none ∧ pwMul exP exR = Except.ok none :=
  pw_ops_var_mismatch (by decide)

end Claims

section Claims2

/-- C4: the strict binary sum and product error with `DomainMismatch` exactly
when the two supports differ; on equal supports both delegate to the union
combine and succeed, producing a function over the common support (with the
sum taking the pointwise sum of the two values). -/
theorem strict_ops_domain_mismatch {p q : PiecewiseFunction}
    (hp : PWGood p) (hq : PWGood q) (hv : p.var = q.var) :
    (piecewise_add p q = Except.error PWErr.domainMismatch ↔
      p.support ≠ q.support) ∧
    (piecewise_mul p q = Except.error PWErr.domainMismatch ↔
      p.support ≠ q.support) ∧
    (p.support = q.support →
      piecewise_add p q = piecewise_add_general p q true ∧
      piecewise_mul p q = piecewise_mul_general p q true ∧
      ∃ r s, piecewise_add p q = Except.ok r ∧ piecewise_mul p q = Except.ok s ∧
        (∀ x, rsMem r.support x ↔ rsMem p.support x) ∧
        (∀ x, rsMem s.support x ↔ rsMem p.support x) ∧
        (∀ x, rsMem p.support x →
          pwEvalAt r x = some (valD p x + valD q x))) := by
  by_cases hs : p.support = q.support
  · obtain ⟨r, hmkr, hPWr, _, _, hsupr, hevr, _, _⟩ :=
      piecewise_add_general_sem hp hq hv
    obtain ⟨s, hmks, hPWs, hsups⟩ := piecewise_mul_general_ok hp hq hv
    have haddeq : piecewise_add p q = Except.ok r := by
      unfold piecewise_add
      rw [if_pos hs]
      exact hmkr
    have hmuleq : piecewise_mul p q = Except.ok s := by
      unfold piecewise_mul
      rw [if_pos hs]
      exact hmks
    refine ⟨?_, ?_, ?_⟩
    · rw [haddeq]
      constructor
      · intro h
        exact Except.noConfusion h
      · intro h
        exact absurd hs h
    · rw [hmuleq]
      constructor
      · intro h
        exact Except.noConfusion h
      · intro h
        exact absurd hs h
    · intro _
      refine ⟨by unfold piecewise_add; rw [if_pos hs],
        by unfold piecewise_mul; rw [if_pos hs],
        r, s, haddeq, hmuleq, ?_, ?_, ?_⟩
      · intro x
        rw [hsupr x]
        constructor
        · rintro (h | h)
          · exact h
          · rw [hs]
            exact h
        · exact fun h => Or.inl h
      · intro x
        rw [hsups x]
        constructor
        · rintro (h | h)
          · exact h
          · rw [hs]
            exact h
        · exact fun h => Or.inl h
      · intro x hx
        exact hevr x (Or.inl hx)
  · have hadderr : piecewise_add p q = Except.error PWErr.domainMismatch := by
      unfold piecewise_add
      rw [if_neg hs]
      rfl
    have hmulerr : piecewise_mul p q = Except.error PWErr.domainMismatch := by
      unfold piecewise_mul
      rw [if_neg hs]
      rfl
    exact ⟨⟨fun _ => hs, fun _ => hadderr⟩, ⟨fun _ => hs, fun _ => hmulerr⟩,
      fun h => absurd h hs⟩

theorem strict_ops_domain_mismatch_witness :
    piecewise_add exP exQ = Except.error PWErr.domainMismatch ↔
      exP.support ≠ exQ.support :=
  (strict_ops_domain_mismatch (show PWGood exP by decide)
    (show PWGood exQ by decide) rfl).1

/-- C5 (corrected): `__call__` signals `InvalidArity` exactly on a positional
value together with any keyword value, on more than one positional value, or
on no positional value when the bound variable is not among the keywords.
Several keyword values with the bound variable present only warn. -/
theorem pwCall_arity (p : PiecewiseFunction) (args : List ℚ)
    (kwds : List (String × ℚ)) :
    pwCall p args kwds = Except.error PWErr.invalidArity ↔
      (args.length = 1 ∧ kwds.length > 0) ∨
      (args = [] ∧ kwds.lookup (varName p) = none) ∨
      args.length > 1 := by
  match args with
  | [v] =>
    have hred : pwCall p [v] kwds = (if kwds.length > 0
        then throw PWErr.invalidArity else pure (pwEvalAt p v)) := rfl
    rw [hred]
    by_cases hk : kwds.length > 0
    · rw [if_pos hk]
      constructor
      · intro _
        exact Or.inl ⟨rfl, hk⟩
      · intro _
        rfl
    · rw [if_neg hk]
      constructor
      · intro h
        exact Except.noConfusion h
      · rintro (⟨_, h2⟩ | ⟨h1, _⟩ | h3)
        · exact absurd h2 hk
        · exact List.noConfusion h1
        · simp at h3
  | [] =>
    have hred : pwCall p [] kwds = (match kwds.lookup (varName p) with
        | some v => pure (pwEvalAt p v)
        | none => throw PWErr.invalidArity) := rfl
    rw [hred]
    cases hl : kwds.lookup (varName p) with
    | some v =>
      constructor
      · intro h
        exact Except.noConfusion h
      · rintro (⟨h1, _⟩ | ⟨_, h2⟩ | h3)
        · simp at h1
        · exact Option.noConfusion h2
        · simp at h3
    | none =>
      constructor
      · intro _
        exact Or.inr (Or.inl ⟨rfl, rfl⟩)
      · intro _
        rfl
  | v :: w :: t =>
    have hred : pwCall p (v :: w :: t) kwds =
        throw PWErr.invalidArity := rfl
    rw [hred]
    constructor
    · intro _
      refine Or.inr (Or.inr ?_)
      simp
    · intro _
      rfl

theorem pwCall_arity_counterexample :
    pwCall exP [] [("t", mkRat 1 2), ("s", 3)] = Except.ok (some (mkRat 1 2)) ∧
    ([("t", mkRat 1 2), ("s", 3)].length > 1) := by
  constructor
  · rfl
  · decide

/-- C8: a successful construction always has pairwise-disjoint piece domains,
and when the coalesced domain list fails the disjointness check the
constructor signals `OverlappingDomains` and yields no object. -/
theorem constructor_disjointness (pieces : List (RS × PolyF)) :
    (∀ r, mkPiecewise pieces = Except.ok r →
      List.Pairwise (fun A B => ∀ y, ¬ (rsMem A y ∧ rsMem B y)) r.domain_list) ∧
    (∀ st, pieces.foldlM processPiece ⟨[], [], none, []⟩ = Except.ok st →
      are_pairwise_disjoint st.domain_list = false →
      mkPiecewise pieces = Except.error PWErr.overlappingDomains) := by
  constructor
  · intro r hr
    obtain ⟨st2, _, hdisj, hre⟩ := (mkPiecewise_ok_iff pieces r).mp hr
    rw [hre]
    exact are_pairwise_disjoint_sound hdisj
  · intro st hfold hdisj
    unfold mkPiecewise
    rw [hfold]
    have h2 : ((Except.ok st : Except PWErr BuildState) >>= (fun st =>
        if are_pairwise_disjoint st.domain_list then
          (pure ⟨st.domain_list, st.func_list, st.var, unionAll st.domain_list⟩ :
            Except PWErr PiecewiseFunction)
        else throw PWErr.overlappingDomains)) =
        (if are_pairwise_disjoint st.domain_list then
          (pure ⟨st.domain_list, st.func_list, st.var, unionAll st.domain_list⟩ :
            Except PWErr PiecewiseFunction)
        else throw PWErr.overlappingDomains) := rfl
    rw [h2, if_neg ?_]
    · rfl
    · intro h
      rw [hdisj] at h
      exact Bool.noConfusion h

theorem constructor_disjointness_witness :
    mkPiecewise [([⟨0, true, 2, true⟩], (⟨[0, 1], "t"⟩ : PolyF)),
        ([⟨1, true, 3, true⟩], ⟨[1], "t"⟩)] =
      Except.error PWErr.overlappingDomains :=
  (constructor_disjointness _).2
    ⟨[[⟨0, true, 2, true⟩], [⟨1, true, 3, true⟩]],
     [⟨[0, 1], "t"⟩, ⟨[1], "t"⟩], some "t",
     [(⟨[0, 1], "t"⟩, 0), (⟨[1], "t"⟩, 1)]⟩
    (by rfl) (by rfl)

end Claims2

section Claims3

/-- C2 (corrected): at a boundary coordinate written by exactly one scan
event, the endpoint table records the piece's lower boundary as a right
limit (plus the value when closed) and its upper boundary as a left limit
(plus the value when closed); at coordinates scanned several times later
writes overwrite earlier ones, so the per-piece description fails. -/
theorem init_end_points_records {p : PiecewiseFunction} (hp : PWGood p)
    {k : ℕ} (hk : k < p.domain_list.length) {J : RInterval ℚ}
    (hJ : J ∈ p.domain_list.getD k []) :
    (scanCount p J.lower = 1 →
      epLookup (init_end_points p) J.lower = some
        ⟨if J.lower_closed
            then some (evalP (p.func_list.getD k (zeroPF "")).coeffs J.lower)
            else none,
         none, some (evalP (p.func_list.getD k (zeroPF "")).coeffs J.lower)⟩) ∧
    (scanCount p J.upper = 1 →
      epLookup (init_end_points p) J.upper = some
        ⟨if J.upper_closed
            then some (evalP (p.func_list.getD k (zeroPF "")).coeffs J.upper)
            else none,
         some (evalP (p.func_list.getD k (zeroPF "")).coeffs J.upper), none⟩) := by
  have hzip := zip_getD_mem hp.1 hk (zeroPF "")
  have hmemS : ∀ ev ∈ scanRS (p.domain_list.getD k []),
      ((ev, p.func_list.getD k (zeroPF "")) : ((ℚ × ℕ) × ℤ) × PolyF) ∈ allScans p := by
    intro ev hev
    unfold allScans
    rw [List.mem_flatMap]
    exact ⟨_, hzip, List.mem_map_of_mem _ hev⟩
  constructor
  · intro hc
    have hm := hmemS ((J.lower, if J.lower_closed then 0 else 1), -1) (by
      unfold scanRS
      rw [List.mem_flatMap]
      exact ⟨J, hJ, by simp⟩)
    refine (table_single_write hm hc).trans ?_
    cases hJc : J.lower_closed
    · rfl
    · rfl
  · intro hc
    have hm := hmemS ((J.upper, if J.upper_closed then 1 else 0), 1) (by
      unfold scanRS
      rw [List.mem_flatMap]
      exact ⟨J, hJ, by simp⟩)
    refine (table_single_write hm hc).trans ?_
    cases hJc : J.upper_closed
    · rfl
    · rfl

theorem init_end_points_records_witness :
    epLookup (init_end_points exP) 0 = some ⟨some 0, none, some 0⟩ :=
  (@init_end_points_records exP (by decide) 0 (by decide)
    ⟨0, true, 1, true⟩ (by decide)).1 (by decide)

theorem init_end_points_records_counterexample :
    (mkPiecewise [([⟨0, false, 1, false⟩], ⟨[2], "t"⟩),
        ([⟨0, true, 0, true⟩], ⟨[1], "t"⟩)]).map
      (fun P => (P.domain_list.getD 0 [],
        (P.func_list.getD 0 (zeroPF "t")).coeffs,
        epLookup (init_end_points P) 0)) =
      Except.ok ([⟨0, false, 1, false⟩], [2],
        some ⟨some 1, some 1, some 1⟩) ∧
    some (evalP [2] 0) ≠ (some 1 : Option ℚ) := by
  constructor
  · rfl
  · decide

/-- C3: for the container with pieces `t` on `[-1, 0]` and `1` on `(0, 1)`,
the endpoint table at `0` has the defined value `0` with differing adjacent
right limit `1`, yet `is_continuous` returns `true`: the Python truthiness
test `if val:` skips defined zero values, contradicting the claimed
characterization. -/
theorem is_continuous_zero_value_bug :
    (mkPiecewise [([⟨-1, true, 0, true⟩], ⟨[0, 1], "t"⟩),
        ([⟨0, false, 1, false⟩], ⟨[1], "t"⟩)]).map
      (fun P => (epLookup (init_end_points P) 0, is_continuous P)) =
      Except.ok (some ⟨some 0, some 0, some 1⟩, true) ∧
    (some (0 : ℚ) ≠ none ∧ (1 : ℚ) ≠ 0) := by
  constructor
  · rfl
  · decide

/-- C6 (corrected): at a recorded boundary point `limits` returns the cached
triple in the order (value, left limit, right limit) — not the claimed
(value, right limit, left limit); at a covered non-boundary point it returns
the piece value three times, and outside the support three `none`. -/
theorem limits_cases {p : PiecewiseFunction} (hp : PWGood p) (x : ℚ) :
    (∀ e, epLookup (init_end_points p) x = some e →
      limits p x = (e.val, e.limLeft, e.limRight)) ∧
    (epLookup (init_end_points p) x = none →
      (∀ k, k < p.domain_list.length → rsMem (p.domain_list.getD k []) x →
        limits p x = (some (evalP (p.func_list.getD k ⟨[], ""⟩).coeffs x),
          some (evalP (p.func_list.getD k ⟨[], ""⟩).coeffs x),
          some (evalP (p.func_list.getD k ⟨[], ""⟩).coeffs x))) ∧
      ((∀ D ∈ p.domain_list, ¬ rsMem D x) → limits p x = (none, none, none))) :=
  limits_sem hp x

theorem limits_cases_witness : limits exP 5 = (none, none, none) :=
  ((limits_cases (show PWGood exP by decide) 5).2 (by rfl)).2 (by decide)

theorem limits_cases_counterexample :
    (mkPiecewise [([⟨0, false, 1, false⟩], ⟨[0, 1], "t"⟩),
        ([⟨1, true, 2, true⟩], ⟨[0, 2], "t"⟩)]).map
      (fun P => (epLookup (init_end_points P) 1, limits P 1)) =
      Except.ok (some ⟨some 2, some 1, some 2⟩,
        (some 2, some 1, some 2)) ∧
    ((some (2 : ℚ), some (1 : ℚ), some (2 : ℚ)) ≠
      (some (2 : ℚ), some (2 : ℚ), some (1 : ℚ))) := by
  constructor
  · rfl
  · decide

end Claims3

section Claims4

/-- C7: on equal supports (and a common variable), addition commutes up to
the support/variable/zero-difference equality, `(p + q) - q` recovers `p`,
`p * 1` recovers `p`, and `p ^ 2` squares the value at every supported
point. -/
theorem piecewise_algebra_laws {p q : PiecewiseFunction}
    (hp : PWGood p) (hq : PWGood q) (hs : p.support = q.support)
    (hv : p.var = q.var) :
    (∃ a b, pwAdd p q = Except.ok (some a) ∧ pwAdd q p = Except.ok (some b) ∧
      pwEq a b = true) ∧
    (∃ a d, pwAdd p q = Except.ok (some a) ∧ pwSub a q = Except.ok (some d) ∧
      pwEq d p = true) ∧
    (∃ m, pwMulScalar p 1 = Except.ok m ∧ pwEq m p = true) ∧
    (∃ s, pwPow p 2 = Except.ok s ∧
      ∀ x, rsMem p.support x → pwEvalAt s x = some (valD p x ^ 2)) := by
  obtain ⟨r1, hmk1, hPW1, hvar1, hvarn1, hsup1, hev1, hnev1, _⟩ :=
    piecewise_add_general_sem hp hq hv
  obtain ⟨r2, hmk2, hPW2, hvar2, hvarn2, hsup2, hev2, hnev2, _⟩ :=
    piecewise_add_general_sem hq hp hv.symm
  have hpadd : pwAdd p q = Except.ok (some r1) := by
    unfold pwAdd
    rw [if_neg (not_not_intro hv)]
    unfold piecewise_add
    rw [if_pos hs, hmk1]
    rfl
  have hqadd : pwAdd q p = Except.ok (some r2) := by
    unfold pwAdd
    rw [if_neg (not_not_intro hv.symm)]
    unfold piecewise_add
    rw [if_pos hs.symm, hmk2]
    rfl
  refine ⟨?_, ?_, ?_, ?_⟩
  · -- commutativity
    refine ⟨r1, r2, hpadd, hqadd, ?_⟩
    refine pwEq_of_sem hPW1 hPW2 ?_ ?_
    · by_cases hex : ∃ x, rsMem p.support x ∨ rsMem q.support x
      · obtain ⟨x0, hx0⟩ := hex
        rw [hvar1 ⟨x0, hx0⟩, hvar2 ⟨x0, hx0.symm⟩]
        have hvn : varName p = varName q := by
          unfold varName
          rw [hv]
        rw [hvn]
      · rw [hvarn1 (fun x h => hex ⟨x, h⟩), hvarn2 (fun x h => hex ⟨x, h.symm⟩)]
    · intro x
      by_cases hx : rsMem p.support x ∨ rsMem q.support x
      · rw [hev1 x hx, hev2 x hx.symm, add_comm (valD p x) (valD q x)]
      · rw [hnev1 x hx, hnev2 x (fun h => hx h.symm)]
  · -- (p + q) - q recovers p
    by_cases hex : ∃ x, rsMem p.support x
    · obtain ⟨x0, hx0⟩ := hex
      have hqx0 : rsMem q.support x0 := by
        rw [← hs]
        exact hx0
      have hpf : p.func_list ≠ [] := support_mem_funcs_ne hp hx0
      have hqf : q.func_list ≠ [] := support_mem_funcs_ne hq hqx0
      have hpv : p.var = some (varName p) := PWGood_var_of_ne hp hpf
      have hqv : q.var = some (varName q) := PWGood_var_of_ne hq hqf
      have hvn : varName p = varName q := by
        unfold varName
        rw [hv]
      obtain ⟨nq, hnqmk, hnqPW, hnqvar, hnqvarn, hnqsup, hnqev, hnqnone⟩ :=
        pw_map_sem hq negPF (fun f => rfl) (fun f => trimmed_ops_neg _)
      have hneg : pwNeg q = Except.ok nq := hnqmk
      have hr1var : r1.var = some (varName p) := hvar1 ⟨x0, Or.inl hx0⟩
      have hr1nq : r1.var = nq.var := by
        rw [hr1var, hnqvar hqf, hqv, hvn]
      obtain ⟨d, hmkd, hPWd, hvard, hvarnd, hsupd, hevd, hnevd, _⟩ :=
        piecewise_add_general_sem hPW1 hnqPW hr1nq
      have hr1x0 : rsMem r1.support x0 := (hsup1 x0).mpr (Or.inl hx0)
      have hsub : pwSub r1 q = Except.ok (some d) := by
        show (pwNeg q >>= fun nq2 => pwAdd r1 nq2) = _
        rw [hneg]
        show pwAdd r1 nq = _
        unfold pwAdd
        rw [if_neg (not_not_intro hr1nq)]
        unfold piecewise_add
        have hsupeq : r1.support = nq.support := by
          refine support_ext hPW1 hnqPW ?_
          intro x
          rw [hsup1 x, hnqsup x]
          constructor
          · rintro (h | h)
            · rw [← hs]
              exact h
            · exact h
          · intro h
            exact Or.inr h
        rw [if_pos hsupeq, hmkd]
        rfl
      refine ⟨r1, d, hpadd, hsub, ?_⟩
      refine pwEq_of_sem hPWd hp ?_ ?_
      · have hdvar : d.var = some (varName r1) := hvard ⟨x0, Or.inl hr1x0⟩
        rw [hdvar, varName_eq_of_some hr1var, hpv]
      · intro x
        by_cases hx : rsMem p.support x
        · have hqx : rsMem q.support x := by
            rw [← hs]
            exact hx
          have hux : rsMem r1.support x ∨ rsMem nq.support x :=
            Or.inl ((hsup1 x).mpr (Or.inl hx))
          rw [hevd x hux]
          have hv1 : valD r1 x = valD p x + valD q x := by
            show (pwEvalAt r1 x).getD 0 = _
            rw [hev1 x (Or.inl hx)]
            rfl
          obtain ⟨D, hD, hDx⟩ := (PWGood_support_mem hq x).mp hqx
          obtain ⟨k, hk, hkx⟩ := (exists_mem_iff_index q.domain_list
            (fun D => rsMem D x) []).mp ⟨D, hD, hDx⟩
          have h2 : pwEvalAt nq x = some
              (- evalP ((q.func_list.getD k (zeroPF (varName q))).coeffs) x) := by
            rw [hnqev x k hk hkx]
            rw [show evalP (negPF (q.func_list.getD k (zeroPF (varName q)))).coeffs x
              = - evalP ((q.func_list.getD k (zeroPF (varName q))).coeffs) x
              from evalP_neg _ x]
          have hv2 : valD nq x = - valD q x := by
            show (pwEvalAt nq x).getD 0 = - (pwEvalAt q x).getD 0
            rw [h2, PWGood_eval_some hq hk hkx (zeroPF (varName q))]
            rfl
          rw [hv1, hv2, eval_some_valD hp ((PWGood_support_mem hp x).mp hx)]
          congr 1
          ring
        · have hqx : ¬ rsMem q.support x := by
            rw [← hs]
            exact hx
          have hnu : ¬ (rsMem r1.support x ∨ rsMem nq.support x) := by
            rintro (h | h)
            · rcases (hsup1 x).mp h with h2 | h2
              · exact hx h2
              · exact hqx h2
            · exact hqx ((hnqsup x).mp h)
          rw [hnevd x hnu, PWGood_eval_none (fun D hD hDx =>
            hx ((PWGood_support_mem hp x).mpr ⟨D, hD, hDx⟩))]
    · push_neg at hex
      have hqe : ∀ x, ¬ rsMem q.support x := by
        intro x h
        refine hex x ?_
        rw [hs]
        exact h
      have hpshape := support_empty_shape hp hex
      have hqshape := support_empty_shape hq hqe
      rw [hpshape, hqshape]
      exact ⟨_, _, rfl, rfl, by decide⟩
  · -- p * 1 recovers p
    obtain ⟨m, hmmk, hmPW, hmvar, hmvarn, hmsup, hmev, hmnone⟩ :=
      pw_map_sem hp (fun f => ⟨polyMul f.coeffs (polyConst 1), f.var⟩)
        (fun f => rfl) (fun f => trimmed_ops_mul _ _)
    have hms : pwMulScalar p 1 = Except.ok m := hmmk
    have hmv : m.var = p.var := by
      by_cases hf : p.func_list = []
      · rw [hmvarn hf, hp.2.2.2.1 hf]
      · exact hmvar hf
    refine ⟨m, hms, pwEq_of_sem hmPW hp hmv ?_⟩
    intro x
    by_cases hcov : ∃ D ∈ p.domain_list, rsMem D x
    · obtain ⟨k, hk, hkx⟩ := (exists_mem_iff_index p.domain_list
        (fun D => rsMem D x) []).mp hcov
      rw [hmev x k hk hkx, PWGood_eval_some hp hk hkx (zeroPF (varName p))]
      congr 1
      show evalP (polyMul (p.func_list.getD k (zeroPF (varName p))).coeffs
        (polyConst 1)) x = _
      rw [evalP_mul, evalP_const, mul_one]
    · push_neg at hcov
      rw [hmnone x hcov, PWGood_eval_none hcov]
  · -- p ^ 2 squares the values
    obtain ⟨s, hsmk, hsPW, hsvar, hsvarn, hssup, hsev, hsnone⟩ :=
      pw_map_sem hp (fun f => powPF f 2) (fun f => rfl)
        (fun f => trimmed_ops_pow _ 2)
    have hps : pwPow p 2 = Except.ok s := hsmk
    refine ⟨s, hps, ?_⟩
    intro x hx
    obtain ⟨D, hD, hDx⟩ := (PWGood_support_mem hp x).mp hx
    obtain ⟨k, hk, hkx⟩ := (exists_mem_iff_index p.domain_list
      (fun D => rsMem D x) []).mp ⟨D, hD, hDx⟩
    rw [hsev x k hk hkx]
    congr 1
    have hval : valD p x =
        evalP ((p.func_list.getD k (zeroPF (varName p))).coeffs) x := by
      unfold valD
      rw [PWGood_eval_some hp hk hkx (zeroPF (varName p))]
      rfl
    rw [hval]
    show evalP (polyPow (p.func_list.getD k (zeroPF (varName p))).coeffs 2) x = _
    rw [evalP_pow]

theorem piecewise_algebra_laws_witness :
    ∃ a b, pwAdd exP exQ = Except.ok (some a) ∧
      pwAdd exQ exP = Except.ok (some b) ∧ pwEq a b = true :=
  (piecewise_algebra_laws (show PWGood exP by decide)
    (show PWGood exQ by decide) rfl rfl).1

end Claims4
